import Mathlib

/-!
# Verification of the B-tree of `src/unnamed/part_011` (`BTree<Key, T, Compare>`)

Shallow embedding of the C++ B-tree (minimum degree `t`) instantiated at
`Key = Int`, `Compare = std::less<Int>` (the instantiation used by the
driver `src/BTrees/btree.cpp`), with the mapped value type kept generic.

A C++ `Node` holds a count `n`, an array of `2t-1` key slots of which the
first `n` are live, an array of `2t` child-pointer slots of which the first
`n+1` are live (for internal nodes), and a `leaf` flag.  The embedding
represents a node by the *live* prefixes of those arrays: a list of `n`
key/value pairs and a list of live children (empty for leaves, which never
use their child slots).  Reads beyond the live region of the C++ arrays
(uninitialised or stale memory) and dereferences of absent pointers are
modelled by `Except`-errors or by explicit defaults, as noted at each
definition.
-/

namespace BT

open scoped List

/-- A stored entry: key (Int) and mapped value (`pair_t = std::pair<Key, T>`). -/
abbrev Pr (α : Type) := Int × α

/-- The live contents of a C++ `Node`: live keys, live children, leaf flag. -/
inductive BNode (α : Type) : Type where
  | node (keys : List (Pr α)) (children : List (BNode α)) (leaf : Bool) : BNode α

variable {α : Type}

def keysOf : BNode α → List (Pr α)
  | .node ks _ _ => ks

def childrenOf : BNode α → List (BNode α)
  | .node _ cs _ => cs

def leafOf : BNode α → Bool
  | .node _ _ lf => lf

/-- Number of live keys: the C++ `x->n`. -/
def nK (x : BNode α) : Nat := (keysOf x).length

mutual
/-- Number of nodes in a subtree (used as a recursion measure and as fuel). -/
def size : BNode α → Nat
  | .node _ cs _ => 1 + sizeL cs
def sizeL : List (BNode α) → Nat
  | [] => 0
  | c :: cs => size c + sizeL cs
end

mutual
/-- Height of a subtree: a childless node has height 0. -/
def height : BNode α → Nat
  | .node _ cs _ => heightL cs
def heightL : List (BNode α) → Nat
  | [] => 0
  | c :: cs => max (height c + 1) (heightL cs)
end

/-- Default node used to model a read of an uninitialised child-pointer slot. -/
def dfltN : BNode α := .node [] [] true

/-- Read of `x->c[i]` (live view). -/
def getChild (cs : List (BNode α)) (i : Nat) : BNode α := cs.getD i dfltN

/-- Read of `x->key[i]` (live view). -/
def getKeyP [Inhabited α] (ks : List (Pr α)) (i : Nat) : Pr α := ks.getD i default

/-- The left-to-right scan loop of `find`/`erase`:
`i = 0; while (i < x->n && cmp(x->key[i], k)) i++;`  — the first index whose
key is not `< k`, or `n`.  `cmp` compares only key components
(`_cmp(l.first, r.first)` with `Compare = std::less`). -/
def scanIdx (k : Int) (ks : List (Pr α)) : Nat :=
  (ks.takeWhile (fun p => p.1 < k)).length

/-- The right-to-left scan loop of `insert_nonfull`:
`i = n-1; while (i >= 0 && cmp(k, x->key[i])) i--;` followed by `i = i + 1`.
Returns `n` minus the length of the maximal suffix of keys that are `> k`. -/
def posR (k : Int) (ks : List (Pr α)) : Nat :=
  ks.length - (ks.reverse.takeWhile (fun p => k < p.1)).length

/-- `BTree::split_child(Node* x, int_t i)` — splits the full child `y = x->c[i]`
into `y` (first `t-1` keys, first `t` children) and a new sibling `z` (keys
`y->key[t..2t-2]`, children `y->c[t..2t-1]`), promoting `y->key[t-1]` into `x`
at position `i` and inserting `z` as child `i+1`.  The `take`s express the
truncation `y->n = t-1` / `z->n = t-1` of the live views. -/
def split_child [Inhabited α] (t : Nat) (x : BNode α) (i : Nat) : BNode α :=
  match x with
  | .node ks cs lf =>
    let y := getChild cs i
    let z : BNode α :=
      .node (((keysOf y).drop t).take (t-1)) (((childrenOf y).drop t).take t) (leafOf y)
    let y' : BNode α :=
      .node ((keysOf y).take (t-1)) ((childrenOf y).take t) (leafOf y)
    .node (ks.insertIdx i (getKeyP (keysOf y) (t-1)))
          ((cs.set i y').insertIdx (i+1) z) lf

/-- Recursion core of `BTree::insert_nonfull(Node* x, const pair_t& k)`.
On a leaf the scan loop shifts larger keys right and places `k`; on an
internal node it picks child `i` by the same right-to-left scan, splits it
first when it is full (adjusting `i` when the promoted median is `< k`),
and recurses.  A read through an absent child pointer (impossible on
well-formed trees) leaves the node unchanged.  The structural `fuel`
parameter bounds the recursion depth; every recursive call descends into a
node of strictly smaller height, so any `fuel > height x` computes the full
recursion (the fuel-out branch returns `x` unchanged and is unreachable
then). -/
def insertNF [Inhabited α] (t : Nat) : Nat → BNode α → Pr α → BNode α
  | 0, x, _ => x
  | fuel+1, .node ks cs true, k =>
    let p := posR k.1 ks
    .node (ks.take p ++ k :: ks.drop p) cs true
  | fuel+1, .node ks cs false, k =>
    let i := posR k.1 ks
    if nK (getChild cs i) = 2*t - 1 then
      let x' := split_child t (.node ks cs false) i
      let i' := if (getKeyP (keysOf x') i).1 < k.1 then i + 1 else i
      match (childrenOf x')[i']? with
      | some c =>
        .node (keysOf x') ((childrenOf x').set i' (insertNF t fuel c k)) false
      | none => x'
    else
      match cs[i]? with
      | some c => .node ks (cs.set i (insertNF t fuel c k)) false
      | none => .node ks cs false

/-- `BTree::insert_nonfull` with sufficient fuel. -/
def insert_nonfull [Inhabited α] (t : Nat) (x : BNode α) (k : Pr α) : BNode α :=
  insertNF t (height x + 1) x k

/-- The tree: root pointer plus the fixed minimum degree `t`. -/
structure BTreeT (α : Type) where
  root : BNode α
  t : Nat

/-- `BTree::create()` — an empty tree is a single empty leaf root. -/
def create (t : Nat) : BTreeT α := ⟨.node [] [] true, t⟩

/-- `BTree::insert(const pair_t k)` — splits a full root first (allocating a
new root with the old root as its only child), then inserts into the
guaranteed non-full root. -/
def insertT [Inhabited α] (T : BTreeT α) (k : Pr α) : BTreeT α :=
  let r := T.root
  if nK r = 2*T.t - 1 then
    let s : BNode α := .node [] [r] false
    let s' := split_child T.t s 0
    ⟨insert_nonfull T.t s' k, T.t⟩
  else
    ⟨insert_nonfull T.t r k, T.t⟩

/-- Recursion core of `BTree::find(Node* x, const Key& k)`; each recursive
call descends into a child (strictly smaller height), so any
`fuel > height x` computes the full recursion. -/
def findF [Inhabited α] : Nat → BNode α → Int → Option (BNode α × Nat)
  | 0, _, _ => none
  | fuel+1, .node ks cs lf, k =>
    let i := scanIdx k ks
    if i < ks.length ∧ (getKeyP ks i).1 = k then
      some (.node ks cs lf, i)
    else if lf then
      none
    else
      match cs[i]? with
      | some c => findF fuel c k
      | none => none

/-- `BTree::find(Node* x, const Key& k)` — returns the node and slot holding
`k`, or `none` for the C++ "not found" result `(nullptr, 0)`. -/
def find [Inhabited α] (x : BNode α) (k : Int) : Option (BNode α × Nat) :=
  findF (height x + 1) x k

/-- One level of the in-order visit of `dbg_traverse`: child `i` before key
`i`, final child last; `f` enumerates a child subtree. -/
def travGo (f : BNode α → List (Pr α)) : List (Pr α) → List (BNode α) → List (Pr α)
  | [], [] => []
  | [], c :: _ => f c
  | p :: ks', cs => (cs.head?.elim [] f) ++ p :: travGo f ks' cs.tail

/-- Fuel-bounded in-order enumeration (fuel bounds depth, as above). -/
def travF : Nat → BNode α → List (Pr α)
  | 0, _ => []
  | fuel+1, .node ks cs lf =>
    if lf then ks
    else travGo (travF fuel) ks cs

/-- In-order enumeration of the live entries, in the visiting order of
`BTree::dbg_traverse` (child `i` before key `i`, final child last). -/
def traverseP (x : BNode α) : List (Pr α) :=
  travF (height x + 1) x

/-- `BTree::dbg_traverse` prints `x->key[i].first` in order: the in-order
key sequence. -/
def dbg_traverse (x : BNode α) : List Int :=
  (traverseP x).map Prod.fst

/-! ## Deletion (`BTree::erase` and its helpers)

The recursive deletion walk can, on some inputs, read the child array at a
negative index (`merge(x, i-1)` with `i = 0`) or dereference the null
result of `find`; these undefined C++ behaviours are modelled as explicit
errors.  The recursion is driven by a fuel parameter large enough for every
terminating run; exhaustion is reported as a distinct error value so that
an `oob`/`null` result is unambiguously a genuine out-of-bounds access. -/

/-- Error outcomes of the embedded deletion: `null` models dereferencing the
null node returned by `find`; `oob` models an out-of-bounds array or pointer
access; `fuel` reports recursion-fuel exhaustion (never a C++ behaviour). -/
inductive EErr : Type where
  | null : EErr
  | oob : EErr
  | fuel : EErr
deriving DecidableEq

/-- `BTree::erase_key(Node* x, int_t i)` — shift keys left from `i`,
decrement `n`.  For `i < n` this is `eraseIdx i`; the trailing `take`
reproduces the count decrement also when `i ≥ n` (live view drops its last
entry; not reached in guarded calls). -/
def erase_key_l (ks : List (Pr α)) (i : Nat) : List (Pr α) :=
  (ks.eraseIdx i).take (ks.length - 1)

/-- `BTree::erase_child(Node* x, int_t i)` — shift children left from `i`;
the live view (one shorter, `erase_key` having run first) drops entry `i`. -/
def erase_child_l (cs : List (BNode α)) (i : Nat) : List (BNode α) :=
  (cs.eraseIdx i).take (cs.length - 1)

/-- `BTree::shift_key(Node* x)` — drop the first key, decrement `n`. -/
def shift_key (x : BNode α) : BNode α :=
  .node (keysOf x).tail (childrenOf x) (leafOf x)

/-- `BTree::shift_child(Node* x)` — called after `shift_key`, so `x->n` has
already been decremented; the loop `for (i = 0; i < x->n - 1; i++)
x->c[i] = x->c[i+1];` stops two slots short of the live region (compare
`erase_child`, which runs to `i <= x->n`): positions `n-1` and `n` of the
new live view keep their old contents, so the old child `n-1` is duplicated
and the old last child `n+1` drops out of the live view. -/
def shift_child (x : BNode α) : BNode α :=
  match x with
  | .node ks cs lf =>
    let n := ks.length
    .node ks ((((cs.drop 1).take (n-1)) ++ cs.drop (n-1)).take (n+1)) lf

/-- `BTree::unshift_key(Node* x, const pair_t& k)` — shift right, put `k`
first, increment `n`. -/
def unshift_key (x : BNode α) (k : Pr α) : BNode α :=
  .node (k :: keysOf x) (childrenOf x) (leafOf x)

/-- `BTree::unshift_child(Node* u, Node* v)` — called after `unshift_key`:
shift children right, put `v` first. -/
def unshift_child (u : BNode α) (v : BNode α) : BNode α :=
  .node (keysOf u) (v :: childrenOf u) (leafOf u)

/-- `BTree::push_key(Node* x, const pair_t& k)` — append `k`, increment `n`. -/
def push_key (x : BNode α) (k : Pr α) : BNode α :=
  .node (keysOf x ++ [k]) (childrenOf x) (leafOf x)

/-- `BTree::push_child(Node* u, Node* v)` — called after `push_key`: write
`v` at child slot `u->n` (the new last live slot). -/
def push_child (u : BNode α) (v : BNode α) : BNode α :=
  .node (keysOf u) (childrenOf u ++ [v]) (leafOf u)

/-- Recursion core of `BTree::leftmost(Node* x)` — first key of the
leftmost leaf (fuel bounds depth, as above). -/
def leftmostF [Inhabited α] : Nat → BNode α → Pr α
  | 0, x => getKeyP (keysOf x) 0
  | fuel+1, .node ks cs lf =>
    if lf then getKeyP ks 0
    else
      match cs[0]? with
      | some c => leftmostF fuel c
      | none => getKeyP ks 0

/-- `BTree::leftmost(Node* x)` with sufficient fuel. -/
def leftmost [Inhabited α] (x : BNode α) : Pr α :=
  leftmostF (height x + 1) x

/-- Recursion core of `BTree::rightmost(Node* x)` — last key of the
rightmost leaf (fuel bounds depth, as above). -/
def rightmostF [Inhabited α] : Nat → BNode α → Pr α
  | 0, x => getKeyP (keysOf x) ((keysOf x).length - 1)
  | fuel+1, .node ks cs lf =>
    if lf then getKeyP ks (ks.length - 1)
    else
      match cs[ks.length]? with
      | some c => rightmostF fuel c
      | none => getKeyP ks (ks.length - 1)

/-- `BTree::rightmost(Node* x)` with sufficient fuel. -/
def rightmost [Inhabited α] (x : BNode α) : Pr α :=
  rightmostF (height x + 1) x

/-- `BTree::pred(Node* x, int_t i)` — rightmost key of child `i`. -/
def pred [Inhabited α] (x : BNode α) (i : Nat) : Pr α :=
  rightmost (getChild (childrenOf x) i)

/-- `BTree::succ(Node* x, int_t i)` — leftmost key of child `i+1`. -/
def succ [Inhabited α] (x : BNode α) (i : Nat) : Pr α :=
  leftmost (getChild (childrenOf x) (i+1))

/-- `BTree::merge(Node* x, int_t i)` — merge key `i` of `x` and child `i+1`
into child `i` (which holds `t-1` keys in every guarded call), then remove
key `i` and child `i+1` from `x` and release the absorbed sibling.  The C++
index argument is a signed `int_t`; `fill_child` can pass `-1`, which reads
`x->c[-1]` — modelled as an `oob` error. -/
def merge [Inhabited α] (t : Nat) (x : BNode α) (i : Int) : Except EErr (BNode α) :=
  if i < 0 then .error .oob
  else
    let i := i.toNat
    match x with
    | .node ks cs lf =>
      let y := getChild cs i
      let z := getChild cs (i+1)
      let yk := (keysOf y).take (t-1) ++ getKeyP ks i :: keysOf z
      let yc := if leafOf y = false then (childrenOf y).take t ++ childrenOf z
                else childrenOf y
      let y' : BNode α := .node yk yc (leafOf y)
      .ok (.node (erase_key_l ks i) (erase_child_l (cs.set i y') (i+1)) lf)

/-- `BTree::borrow_prev(Node* x, int_t i)` — case 3a borrowing from the left
sibling: rotate `x->key[i-1]` into the front of child `i`, move the left
sibling's last child across (if internal), and move the sibling's last key
up into `x`. -/
def borrow_prev [Inhabited α] (x : BNode α) (i : Nat) : BNode α :=
  match x with
  | .node ks cs lf =>
    let c := getChild cs i
    let s := getChild cs (i-1)
    let c1 := unshift_key c (getKeyP ks (i-1))
    let c2 := if leafOf c1 = false then
        unshift_child c1 (getChild (childrenOf s) (keysOf s).length)
      else c1
    let s' : BNode α :=
      .node ((keysOf s).take ((keysOf s).length - 1))
            ((childrenOf s).take (keysOf s).length) (leafOf s)
    .node (ks.set (i-1) (getKeyP (keysOf s) ((keysOf s).length - 1)))
          ((cs.set i c2).set (i-1) s') lf

/-- `BTree::borrow_next(Node* x, int_t i)` — case 3a borrowing from the
right sibling: rotate `x->key[i]` onto the back of child `i`, move the
sibling's first child across (if internal), move the sibling's first key up
into `x`, then compact the sibling with `shift_key`/`shift_child`. -/
def borrow_next [Inhabited α] (x : BNode α) (i : Nat) : BNode α :=
  match x with
  | .node ks cs lf =>
    let c := getChild cs i
    let s := getChild cs (i+1)
    let c1 := push_key c (getKeyP ks i)
    let c2 := if leafOf c1 = false then push_child c1 (getChild (childrenOf s) 0)
      else c1
    let s1 := shift_key s
    let s2 := if leafOf s1 = false then shift_child s1 else s1
    .node (ks.set i (getKeyP (keysOf s) 0)) ((cs.set i c2).set (i+1) s2) lf

/-- `BTree::fill_child(Node* x, int_t i)` — case 3 dispatch: borrow from a
sibling holding at least `t` keys (left first), else merge; at the right
edge (`i == x->n`) merge with the left sibling via `merge(x, i-1)` — for
`i = 0` this passes the negative index `-1`. -/
def fill_child [Inhabited α] (t : Nat) (x : BNode α) (i : Nat) :
    Except EErr (BNode α) :=
  if 0 < i ∧ t ≤ (keysOf (getChild (childrenOf x) (i-1))).length then
    .ok (borrow_prev x i)
  else if i < (keysOf x).length ∧ t ≤ (keysOf (getChild (childrenOf x) (i+1))).length then
    .ok (borrow_next x i)
  else if i = (keysOf x).length then merge t x ((i : Int) - 1)
  else merge t x (i : Int)

/-- `BTree::erase(Node* x, const pair_t& k)` — the recursive deletion walk
(cases 1, 2a/2b/2c, 3).  The fuel only bounds recursion depth; `.error .oob`
marks a genuine out-of-bounds access (wild child pointer or negative merge
index). -/
def eraseRec [Inhabited α] (t : Nat) : Nat → BNode α → Pr α → Except EErr (BNode α)
  | 0, _, _ => .error .fuel
  | fuel+1, .node ks cs lf, k =>
    let i := scanIdx k.1 ks
    if i < ks.length ∧ (getKeyP ks i).1 = k.1 then
      if lf then
        -- case 1: k in a leaf; erase_leaf = erase_key
        .ok (.node (erase_key_l ks i) cs lf)
      else
        -- case 2: k in an internal node (erase_nonleaf)
        match cs[i]?, cs[i+1]? with
        | some y, some z =>
          if t ≤ (keysOf y).length then
            -- case 2a: replace k by its predecessor, deleted from y
            let pk := pred (.node ks cs lf) i
            match eraseRec t fuel y pk with
            | .ok y2 => .ok (.node (ks.set i pk) (cs.set i y2) lf)
            | .error e => .error e
          else if t ≤ (keysOf z).length then
            -- case 2b: replace k by its successor, deleted from z
            let sk := succ (.node ks cs lf) i
            match eraseRec t fuel z sk with
            | .ok z2 => .ok (.node (ks.set i sk) (cs.set (i+1) z2) lf)
            | .error e => .error e
          else
            -- case 2c: merge k and z into y, then delete k from y
            let kk := getKeyP ks i
            match merge t (.node ks cs lf) (i : Int) with
            | .ok x' =>
              match (childrenOf x')[i]? with
              | some y' =>
                match eraseRec t fuel y' kk with
                | .ok y2 =>
                  .ok (.node (keysOf x') ((childrenOf x').set i y2) (leafOf x'))
                | .error e => .error e
              | none => .error .oob
            | .error e => .error e
        | _, _ => .error .oob
    else
      if lf then
        -- k is not in the tree: return, a no-op
        .ok (.node ks cs lf)
      else
        -- case 3: descend, enriching the target child first if needed
        let atEnd := i = ks.length
        match (if (keysOf (getChild cs i)).length = t-1
               then fill_child t (.node ks cs lf) i
               else .ok (.node ks cs lf)) with
        | .ok x' =>
          let j := if atEnd ∧ (keysOf x').length < i then i-1 else i
          match (childrenOf x')[j]? with
          | some c =>
            match eraseRec t fuel c k with
            | .ok c2 =>
              .ok (.node (keysOf x') ((childrenOf x').set j c2) (leafOf x'))
            | .error e => .error e
          | none => .error .oob
        | .error e => .error e

/-- `BTree::erase(const Key& k)` — the public entry point: it calls `find`
and then unconditionally dereferences the returned node pointer
(`p.first->key[p.second]`); when the key is absent, `find` returns
`(nullptr, 0)` and the dereference is a null-pointer access, modelled as
`.error .null`. -/
def eraseT [Inhabited α] (T : BTreeT α) (k : Int) : Except EErr (BTreeT α) :=
  match find T.root k with
  | none => .error .null
  | some (y, i) =>
    match eraseRec T.t (size T.root + 1) T.root (getKeyP (keysOf y) i) with
    | .ok r => .ok ⟨r, T.t⟩
    | .error e => .error e

/-! ## Invariant checkers (executable) -/

mutual
/-- Occupancy and fan-out invariant: every non-root node holds between `t-1`
and `2t-1` keys; every node holds at most `2t-1` keys; an internal node has
exactly one more live child than keys, a leaf has none. -/
def nodeOK (t : Nat) (isRoot : Bool) : BNode α → Bool
  | .node ks cs lf =>
    (isRoot || decide (t-1 ≤ ks.length)) &&
    decide (ks.length ≤ 2*t-1) &&
    (if lf then cs.isEmpty else decide (cs.length = ks.length + 1)) &&
    nodeOKL t cs
def nodeOKL (t : Nat) : List (BNode α) → Bool
  | [] => true
  | c :: cs => nodeOK t false c && nodeOKL t cs
end

mutual
/-- Uniform leaf depth: every child subtree has the same height. -/
def unifDepth : BNode α → Bool
  | .node _ cs _ => unifDepthL (heightL cs) cs
def unifDepthL (h : Nat) : List (BNode α) → Bool
  | [] => true
  | c :: cs => decide (height c + 1 = h) && unifDepth c && unifDepthL h cs
end

/-- All structural invariants of §3 of the design, checked on a whole tree:
occupancy bounds (root exempt from the lower one), child counts, and
uniform leaf depth. -/
def invariantOK (T : BTreeT α) : Bool :=
  nodeOK T.t true T.root && unifDepth T.root


/-! ## Concrete scenarios

`driverIns`/`driverErase` are the exact operation sequences of the test
driver `src/BTrees/btree.cpp` (`BTree<int, int> t(3)`); the `t = 2`
sequences below exercise the deletion rebalancing on the smallest order. -/

/-- The 23 `insert(key, value)` calls of the driver, in order. -/
def driverIns : List (Pr Int) :=
  [(1, 1), (3, 2), (7, 3), (10, 4), (11, 5), (13, 6), (14, 7), (15, 8),
   (18, 9), (16, 10), (19, 11), (24, 12), (25, 13), (26, 14), (21, 15),
   (4, 16), (5, 17), (20, 18), (22, 19), (2, 20), (17, 21), (12, 22), (6, 23)]

/-- The driver's erase sequence. -/
def driverErase : List Int := [6, 13, 7, 4, 2, 16]

/-- The tree built by the driver's inserts. -/
def driverTree : BTreeT Int := driverIns.foldl insertT (create 3)

/-- Sequencing of fallible `erase` calls. -/
def eraseChain (T : Except EErr (BTreeT Int)) (k : Int) : Except EErr (BTreeT Int) :=
  match T with
  | .ok u => eraseT u k
  | .error e => .error e

/-- `t = 2`, keys 1..4 inserted in order (value = key). -/
def c2tree : BTreeT Int :=
  ([(1, 1), (2, 2), (3, 3), (4, 4)] : List (Pr Int)).foldl insertT (create 2)

/-- The insert list for the `t = 2` borrow scenario: keys 1..10, value = key. -/
def c4pairs : List (Pr Int) :=
  [(1, 1), (2, 2), (3, 3), (4, 4), (5, 5), (6, 6), (7, 7), (8, 8), (9, 9), (10, 10)]

/-- `t = 2`, keys 1..10 inserted in order. -/
def c4tree : BTreeT Int := c4pairs.foldl insertT (create 2)


/-! ## Structural well-formedness -/

/-- Structural well-formedness: a leaf has no live children; an internal
node has at least one key and exactly one more child than keys, all
children well-formed.  All trees reachable from `create` by `insert` have
this shape. -/
inductive WF (t : Nat) : BNode α → Prop where
  | leaf : ∀ ks, WF t (.node ks [] true)
  | internal : ∀ ks cs, 1 ≤ ks.length → cs.length = ks.length + 1 →
      (∀ c ∈ cs, WF t c) → WF t (.node ks cs false)

/-- Balance: all child subtrees have equal height (equivalently, all leaves
are at the same depth), recursively. -/
inductive Bal : BNode α → Prop where
  | mk : ∀ ks (cs : List (BNode α)) lf, (∀ c ∈ cs, Bal c) →
      (∀ c ∈ cs, height c + 1 = heightL cs) → Bal (.node ks cs lf)


/-- The comparison relation the code uses on stored entries:
`cmp(l, r) = _cmp(l.first, r.first)` with `Compare = std::less<Key>`. -/
def ltP (p q : Pr α) : Prop := p.1 < q.1

instance : DecidableRel (@ltP α) := fun p q => inferInstanceAs (Decidable (p.1 < q.1))


/-- A tree built by a sequence of inserts starting from the empty tree. -/
def buildT [Inhabited α] (t : Nat) (ps : List (Pr α)) : BTreeT α :=
  ps.foldl insertT (create t)

/-! ## Value erasure (key skeletons, for value-independence of shape) -/

/-- Erase the mapped value of an entry, keeping only the key. -/
def kE (p : Pr α) : Pr Unit := (p.1, ())

mutual
/-- Erase every mapped value in a subtree, keeping shape and keys. -/
def eraseVals : BNode α → BNode Unit
  | .node ks cs lf => .node (ks.map kE) (eraseValsL cs) lf
def eraseValsL : List (BNode α) → List (BNode Unit)
  | [] => []
  | c :: cs => eraseVals c :: eraseValsL cs
end

/-- Value erasure on whole trees. -/
def eraseValsT (T : BTreeT α) : BTreeT Unit := ⟨eraseVals T.root, T.t⟩

/-- A public mutating operation of the interface: `insert` of an entry or
`erase` of a key. -/
inductive Op (α : Type) : Type where
  | ins (p : Pr α) : Op α
  | er (k : Int) : Op α

/-- Key skeleton of an operation: the keys it mentions, values erased. -/
def opE : Op α → Op Unit
  | .ins p => .ins (kE p)
  | .er k => .er k

/-- Run a sequence of operations, stopping at the first erroneous erase. -/
def runOps [Inhabited α] : List (Op α) → BTreeT α → Except EErr (BTreeT α)
  | [], T => .ok T
  | .ins p :: ops, T => runOps ops (insertT T p)
  | .er k :: ops, T =>
    match eraseT T k with
    | .ok T2 => runOps ops T2
    | .error e => .error e

/-! ## Basic lemmas about the embedding -/

@[simp] theorem keysOf_node (ks : List (Pr α)) (cs : List (BNode α)) (lf : Bool) :
    keysOf (.node ks cs lf) = ks := rfl
@[simp] theorem childrenOf_node (ks : List (Pr α)) (cs : List (BNode α)) (lf : Bool) :
    childrenOf (.node ks cs lf) = cs := rfl
@[simp] theorem leafOf_node (ks : List (Pr α)) (cs : List (BNode α)) (lf : Bool) :
    leafOf (.node ks cs lf) = lf := rfl

@[simp] theorem height_node (ks : List (Pr α)) (cs : List (BNode α)) (lf : Bool) :
    height (.node ks cs lf) = heightL cs := by
  simp [height]

@[simp] theorem heightL_nil : heightL ([] : List (BNode α)) = 0 := by
  simp [heightL]

@[simp] theorem heightL_cons (c : BNode α) (cs : List (BNode α)) :
    heightL (c :: cs) = max (height c + 1) (heightL cs) := by
  simp [heightL]

theorem height_lt_of_mem {c : BNode α} {cs : List (BNode α)} (h : c ∈ cs) :
    height c < heightL cs := by
  induction cs with
  | nil => cases h
  | cons d ds ih =>
    rcases List.mem_cons.mp h with h1 | h2
    · subst h1
      simp only [heightL_cons]
      omega
    · have := ih h2
      simp only [heightL_cons]
      omega

theorem heightL_mono {cs' cs : List (BNode α)} (h : ∀ c ∈ cs', c ∈ cs) :
    heightL cs' ≤ heightL cs := by
  induction cs' with
  | nil => simp
  | cons d ds ih =>
    have hd : height d < heightL cs := height_lt_of_mem (h d (by simp))
    have hds : heightL ds ≤ heightL cs := ih fun c hc => h c (by simp [hc])
    simp only [heightL_cons]
    omega

theorem heightL_children_le (y : BNode α) : heightL (childrenOf y) ≤ height y := by
  cases y with
  | node a b c =>
    simp only [childrenOf_node, height_node]
    exact Nat.le_refl _

theorem height_lt_of_mem_split_child [Inhabited α] {t : Nat}
    {ks : List (Pr α)} {cs : List (BNode α)} {lf : Bool} {i : Nat} {c : BNode α}
    (h : c ∈ childrenOf (split_child t (.node ks cs lf) i)) :
    height c < height (BNode.node ks cs lf) := by
  simp only [split_child, childrenOf_node] at h
  by_cases hi : i < cs.length
  · have hy : getChild cs i ∈ cs := by
      have : cs.getD i dfltN = cs.get ⟨i, hi⟩ := List.getD_eq_getElem cs dfltN hi
      rw [getChild, this]
      exact List.getElem_mem hi
    have hylt : height (getChild cs i) < heightL cs := height_lt_of_mem hy
    have hlen : i + 1 ≤ (cs.set i (BNode.node ((keysOf (getChild cs i)).take (t-1))
        ((childrenOf (getChild cs i)).take t) (leafOf (getChild cs i)))).length := by
      simp only [List.length_set]; omega
    rcases (List.mem_insertIdx hlen).mp h with h1 | h2
    · -- c is the new sibling z: its children are among y's children
      subst h1
      have h1 : heightL (((childrenOf (getChild cs i)).drop t).take t) ≤
          heightL (childrenOf (getChild cs i)) :=
        heightL_mono fun d hd => List.mem_of_mem_drop (List.mem_of_mem_take hd)
      have h2 := heightL_children_le (getChild cs i)
      simp only [height_node] at *
      omega
    · rcases List.mem_or_eq_of_mem_set h2 with h3 | h4
      · simpa using height_lt_of_mem h3
      · -- c is the truncated child y'
        subst h4
        have h1 : heightL ((childrenOf (getChild cs i)).take t) ≤
            heightL (childrenOf (getChild cs i)) :=
          heightL_mono fun d hd => List.mem_of_mem_take hd
        have h2 := heightL_children_le (getChild cs i)
        simp only [height_node] at *
        omega
  · -- i out of range: set is a no-op and insertIdx at i+1 > length is a no-op
    rw [List.set_eq_of_length_le (by omega)] at h
    rw [List.insertIdx_of_length_lt _ _ _ (by omega)] at h
    simpa using height_lt_of_mem h

theorem height_lt_of_getElem?_children [Inhabited α] {t : Nat}
    {ks : List (Pr α)} {cs : List (BNode α)} {lf : Bool} {i j : Nat} {c : BNode α}
    (h : (childrenOf (split_child t (.node ks cs lf) i))[j]? = some c) :
    height c < height (BNode.node ks cs lf) :=
  height_lt_of_mem_split_child (List.getElem?_mem h)

theorem height_lt_of_getElem? {ks : List (Pr α)} {cs : List (BNode α)} {lf : Bool}
    {i : Nat} {c : BNode α} (h : cs[i]? = some c) :
    height c < height (BNode.node ks cs lf) := by
  have : c ∈ cs := List.getElem?_mem h
  simpa using height_lt_of_mem this

/-! ## Evaluation lemmas for the concrete scenarios

One lemma per driver operation, each evaluating a single `insertT` or
`eraseT` call on an explicit tree by kernel reduction. -/

theorem c8_ins_0 : insertT (create 3) (1, 1) = (⟨BNode.node [(1, 1)] [] true, 3⟩ : BTreeT Int) := by rfl

theorem c8_ins_1 : insertT (⟨BNode.node [(1, 1)] [] true, 3⟩ : BTreeT Int) (3, 2) = (⟨BNode.node [(1, 1), (3, 2)] [] true, 3⟩ : BTreeT Int) := by rfl

theorem c8_ins_2 : insertT (⟨BNode.node [(1, 1), (3, 2)] [] true, 3⟩ : BTreeT Int) (7, 3) = (⟨BNode.node [(1, 1), (3, 2), (7, 3)] [] true, 3⟩ : BTreeT Int) := by rfl

theorem c8_ins_3 : insertT (⟨BNode.node [(1, 1), (3, 2), (7, 3)] [] true, 3⟩ : BTreeT Int) (10, 4) = (⟨BNode.node [(1, 1), (3, 2), (7, 3), (10, 4)] [] true, 3⟩ : BTreeT Int) := by rfl

theorem c8_ins_4 : insertT (⟨BNode.node [(1, 1), (3, 2), (7, 3), (10, 4)] [] true, 3⟩ : BTreeT Int) (11, 5) = (⟨BNode.node [(1, 1), (3, 2), (7, 3), (10, 4), (11, 5)] [] true, 3⟩ : BTreeT Int) := by rfl

theorem c8_ins_5 : insertT (⟨BNode.node [(1, 1), (3, 2), (7, 3), (10, 4), (11, 5)] [] true, 3⟩ : BTreeT Int) (13, 6) = (⟨BNode.node [(7, 3)] [BNode.node [(1, 1), (3, 2)] [] true, BNode.node [(10, 4), (11, 5), (13, 6)] [] true] false, 3⟩ : BTreeT Int) := by rfl

theorem c8_ins_6 : insertT (⟨BNode.node [(7, 3)] [BNode.node [(1, 1), (3, 2)] [] true, BNode.node [(10, 4), (11, 5), (13, 6)] [] true] false, 3⟩ : BTreeT Int) (14, 7) = (⟨BNode.node [(7, 3)] [BNode.node [(1, 1), (3, 2)] [] true, BNode.node [(10, 4), (11, 5), (13, 6), (14, 7)] [] true] false, 3⟩ : BTreeT Int) := by rfl

theorem c8_ins_7 : insertT (⟨BNode.node [(7, 3)] [BNode.node [(1, 1), (3, 2)] [] true, BNode.node [(10, 4), (11, 5), (13, 6), (14, 7)] [] true] false, 3⟩ : BTreeT Int) (15, 8) = (⟨BNode.node [(7, 3)] [BNode.node [(1, 1), (3, 2)] [] true, BNode.node [(10, 4), (11, 5), (13, 6), (14, 7), (15, 8)] [] true] false, 3⟩ : BTreeT Int) := by rfl

theorem c8_ins_8 : insertT (⟨BNode.node [(7, 3)] [BNode.node [(1, 1), (3, 2)] [] true, BNode.node [(10, 4), (11, 5), (13, 6), (14, 7), (15, 8)] [] true] false, 3⟩ : BTreeT Int) (18, 9) = (⟨BNode.node [(7, 3), (13, 6)] [BNode.node [(1, 1), (3, 2)] [] true, BNode.node [(10, 4), (11, 5)] [] true, BNode.node [(14, 7), (15, 8), (18, 9)] [] true] false, 3⟩ : BTreeT Int) := by rfl

theorem c8_ins_9 : insertT (⟨BNode.node [(7, 3), (13, 6)] [BNode.node [(1, 1), (3, 2)] [] true, BNode.node [(10, 4), (11, 5)] [] true, BNode.node [(14, 7), (15, 8), (18, 9)] [] true] false, 3⟩ : BTreeT Int) (16, 10) = (⟨BNode.node [(7, 3), (13, 6)] [BNode.node [(1, 1), (3, 2)] [] true, BNode.node [(10, 4), (11, 5)] [] true, BNode.node [(14, 7), (15, 8), (16, 10), (18, 9)] [] true] false, 3⟩ : BTreeT Int) := by rfl

theorem c8_ins_10 : insertT (⟨BNode.node [(7, 3), (13, 6)] [BNode.node [(1, 1), (3, 2)] [] true, BNode.node [(10, 4), (11, 5)] [] true, BNode.node [(14, 7), (15, 8), (16, 10), (18, 9)] [] true] false, 3⟩ : BTreeT Int) (19, 11) = (⟨BNode.node [(7, 3), (13, 6)] [BNode.node [(1, 1), (3, 2)] [] true, BNode.node [(10, 4), (11, 5)] [] true, BNode.node [(14, 7), (15, 8), (16, 10), (18, 9), (19, 11)] [] true] false, 3⟩ : BTreeT Int) := by rfl

theorem c8_ins_11 : insertT (⟨BNode.node [(7, 3), (13, 6)] [BNode.node [(1, 1), (3, 2)] [] true, BNode.node [(10, 4), (11, 5)] [] true, BNode.node [(14, 7), (15, 8), (16, 10), (18, 9), (19, 11)] [] true] false, 3⟩ : BTreeT Int) (24, 12) = (⟨BNode.node [(7, 3), (13, 6), (16, 10)] [BNode.node [(1, 1), (3, 2)] [] true, BNode.node [(10, 4), (11, 5)] [] true, BNode.node [(14, 7), (15, 8)] [] true, BNode.node [(18, 9), (19, 11), (24, 12)] [] true] false, 3⟩ : BTreeT Int) := by rfl

theorem c8_ins_12 : insertT (⟨BNode.node [(7, 3), (13, 6), (16, 10)] [BNode.node [(1, 1), (3, 2)] [] true, BNode.node [(10, 4), (11, 5)] [] true, BNode.node [(14, 7), (15, 8)] [] true, BNode.node [(18, 9), (19, 11), (24, 12)] [] true] false, 3⟩ : BTreeT Int) (25, 13) = (⟨BNode.node [(7, 3), (13, 6), (16, 10)] [BNode.node [(1, 1), (3, 2)] [] true, BNode.node [(10, 4), (11, 5)] [] true, BNode.node [(14, 7), (15, 8)] [] true, BNode.node [(18, 9), (19, 11), (24, 12), (25, 13)] [] true] false, 3⟩ : BTreeT Int) := by rfl

theorem c8_ins_13 : insertT (⟨BNode.node [(7, 3), (13, 6), (16, 10)] [BNode.node [(1, 1), (3, 2)] [] true, BNode.node [(10, 4), (11, 5)] [] true, BNode.node [(14, 7), (15, 8)] [] true, BNode.node [(18, 9), (19, 11), (24, 12), (25, 13)] [] true] false, 3⟩ : BTreeT Int) (26, 14) = (⟨BNode.node [(7, 3), (13, 6), (16, 10)] [BNode.node [(1, 1), (3, 2)] [] true, BNode.node [(10, 4), (11, 5)] [] true, BNode.node [(14, 7), (15, 8)] [] true, BNode.node [(18, 9), (19, 11), (24, 12), (25, 13), (26, 14)] [] true] false, 3⟩ : BTreeT Int) := by rfl

theorem c8_ins_14 : insertT (⟨BNode.node [(7, 3), (13, 6), (16, 10)] [BNode.node [(1, 1), (3, 2)] [] true, BNode.node [(10, 4), (11, 5)] [] true, BNode.node [(14, 7), (15, 8)] [] true, BNode.node [(18, 9), (19, 11), (24, 12), (25, 13), (26, 14)] [] true] false, 3⟩ : BTreeT Int) (21, 15) = (⟨BNode.node [(7, 3), (13, 6), (16, 10), (24, 12)] [BNode.node [(1, 1), (3, 2)] [] true, BNode.node [(10, 4), (11, 5)] [] true, BNode.node [(14, 7), (15, 8)] [] true, BNode.node [(18, 9), (19, 11), (21, 15)] [] true, BNode.node [(25, 13), (26, 14)] [] true] false, 3⟩ : BTreeT Int) := by rfl

theorem c8_ins_15 : insertT (⟨BNode.node [(7, 3), (13, 6), (16, 10), (24, 12)] [BNode.node [(1, 1), (3, 2)] [] true, BNode.node [(10, 4), (11, 5)] [] true, BNode.node [(14, 7), (15, 8)] [] true, BNode.node [(18, 9), (19, 11), (21, 15)] [] true, BNode.node [(25, 13), (26, 14)] [] true] false, 3⟩ : BTreeT Int) (4, 16) = (⟨BNode.node [(7, 3), (13, 6), (16, 10), (24, 12)] [BNode.node [(1, 1), (3, 2), (4, 16)] [] true, BNode.node [(10, 4), (11, 5)] [] true, BNode.node [(14, 7), (15, 8)] [] true, BNode.node [(18, 9), (19, 11), (21, 15)] [] true, BNode.node [(25, 13), (26, 14)] [] true] false, 3⟩ : BTreeT Int) := by rfl

theorem c8_ins_16 : insertT (⟨BNode.node [(7, 3), (13, 6), (16, 10), (24, 12)] [BNode.node [(1, 1), (3, 2), (4, 16)] [] true, BNode.node [(10, 4), (11, 5)] [] true, BNode.node [(14, 7), (15, 8)] [] true, BNode.node [(18, 9), (19, 11), (21, 15)] [] true, BNode.node [(25, 13), (26, 14)] [] true] false, 3⟩ : BTreeT Int) (5, 17) = (⟨BNode.node [(7, 3), (13, 6), (16, 10), (24, 12)] [BNode.node [(1, 1), (3, 2), (4, 16), (5, 17)] [] true, BNode.node [(10, 4), (11, 5)] [] true, BNode.node [(14, 7), (15, 8)] [] true, BNode.node [(18, 9), (19, 11), (21, 15)] [] true, BNode.node [(25, 13), (26, 14)] [] true] false, 3⟩ : BTreeT Int) := by rfl

theorem c8_ins_17 : insertT (⟨BNode.node [(7, 3), (13, 6), (16, 10), (24, 12)] [BNode.node [(1, 1), (3, 2), (4, 16), (5, 17)] [] true, BNode.node [(10, 4), (11, 5)] [] true, BNode.node [(14, 7), (15, 8)] [] true, BNode.node [(18, 9), (19, 11), (21, 15)] [] true, BNode.node [(25, 13), (26, 14)] [] true] false, 3⟩ : BTreeT Int) (20, 18) = (⟨BNode.node [(7, 3), (13, 6), (16, 10), (24, 12)] [BNode.node [(1, 1), (3, 2), (4, 16), (5, 17)] [] true, BNode.node [(10, 4), (11, 5)] [] true, BNode.node [(14, 7), (15, 8)] [] true, BNode.node [(18, 9), (19, 11), (20, 18), (21, 15)] [] true, BNode.node [(25, 13), (26, 14)] [] true] false, 3⟩ : BTreeT Int) := by rfl

theorem c8_ins_18 : insertT (⟨BNode.node [(7, 3), (13, 6), (16, 10), (24, 12)] [BNode.node [(1, 1), (3, 2), (4, 16), (5, 17)] [] true, BNode.node [(10, 4), (11, 5)] [] true, BNode.node [(14, 7), (15, 8)] [] true, BNode.node [(18, 9), (19, 11), (20, 18), (21, 15)] [] true, BNode.node [(25, 13), (26, 14)] [] true] false, 3⟩ : BTreeT Int) (22, 19) = (⟨BNode.node [(7, 3), (13, 6), (16, 10), (24, 12)] [BNode.node [(1, 1), (3, 2), (4, 16), (5, 17)] [] true, BNode.node [(10, 4), (11, 5)] [] true, BNode.node [(14, 7), (15, 8)] [] true, BNode.node [(18, 9), (19, 11), (20, 18), (21, 15), (22, 19)] [] true, BNode.node [(25, 13), (26, 14)] [] true] false, 3⟩ : BTreeT Int) := by rfl

theorem c8_ins_19 : insertT (⟨BNode.node [(7, 3), (13, 6), (16, 10), (24, 12)] [BNode.node [(1, 1), (3, 2), (4, 16), (5, 17)] [] true, BNode.node [(10, 4), (11, 5)] [] true, BNode.node [(14, 7), (15, 8)] [] true, BNode.node [(18, 9), (19, 11), (20, 18), (21, 15), (22, 19)] [] true, BNode.node [(25, 13), (26, 14)] [] true] false, 3⟩ : BTreeT Int) (2, 20) = (⟨BNode.node [(7, 3), (13, 6), (16, 10), (24, 12)] [BNode.node [(1, 1), (2, 20), (3, 2), (4, 16), (5, 17)] [] true, BNode.node [(10, 4), (11, 5)] [] true, BNode.node [(14, 7), (15, 8)] [] true, BNode.node [(18, 9), (19, 11), (20, 18), (21, 15), (22, 19)] [] true, BNode.node [(25, 13), (26, 14)] [] true] false, 3⟩ : BTreeT Int) := by rfl

theorem c8_ins_20 : insertT (⟨BNode.node [(7, 3), (13, 6), (16, 10), (24, 12)] [BNode.node [(1, 1), (2, 20), (3, 2), (4, 16), (5, 17)] [] true, BNode.node [(10, 4), (11, 5)] [] true, BNode.node [(14, 7), (15, 8)] [] true, BNode.node [(18, 9), (19, 11), (20, 18), (21, 15), (22, 19)] [] true, BNode.node [(25, 13), (26, 14)] [] true] false, 3⟩ : BTreeT Int) (17, 21) = (⟨BNode.node [(7, 3), (13, 6), (16, 10), (20, 18), (24, 12)] [BNode.node [(1, 1), (2, 20), (3, 2), (4, 16), (5, 17)] [] true, BNode.node [(10, 4), (11, 5)] [] true, BNode.node [(14, 7), (15, 8)] [] true, BNode.node [(17, 21), (18, 9), (19, 11)] [] true, BNode.node [(21, 15), (22, 19)] [] true, BNode.node [(25, 13), (26, 14)] [] true] false, 3⟩ : BTreeT Int) := by rfl

theorem c8_ins_21 : insertT (⟨BNode.node [(7, 3), (13, 6), (16, 10), (20, 18), (24, 12)] [BNode.node [(1, 1), (2, 20), (3, 2), (4, 16), (5, 17)] [] true, BNode.node [(10, 4), (11, 5)] [] true, BNode.node [(14, 7), (15, 8)] [] true, BNode.node [(17, 21), (18, 9), (19, 11)] [] true, BNode.node [(21, 15), (22, 19)] [] true, BNode.node [(25, 13), (26, 14)] [] true] false, 3⟩ : BTreeT Int) (12, 22) = (⟨BNode.node [(16, 10)] [BNode.node [(7, 3), (13, 6)] [BNode.node [(1, 1), (2, 20), (3, 2), (4, 16), (5, 17)] [] true, BNode.node [(10, 4), (11, 5), (12, 22)] [] true, BNode.node [(14, 7), (15, 8)] [] true] false, BNode.node [(20, 18), (24, 12)] [BNode.node [(17, 21), (18, 9), (19, 11)] [] true, BNode.node [(21, 15), (22, 19)] [] true, BNode.node [(25, 13), (26, 14)] [] true] false] false, 3⟩ : BTreeT Int) := by rfl

theorem c8_ins_22 : insertT (⟨BNode.node [(16, 10)] [BNode.node [(7, 3), (13, 6)] [BNode.node [(1, 1), (2, 20), (3, 2), (4, 16), (5, 17)] [] true, BNode.node [(10, 4), (11, 5), (12, 22)] [] true, BNode.node [(14, 7), (15, 8)] [] true] false, BNode.node [(20, 18), (24, 12)] [BNode.node [(17, 21), (18, 9), (19, 11)] [] true, BNode.node [(21, 15), (22, 19)] [] true, BNode.node [(25, 13), (26, 14)] [] true] false] false, 3⟩ : BTreeT Int) (6, 23) = (⟨BNode.node [(16, 10)] [BNode.node [(3, 2), (7, 3), (13, 6)] [BNode.node [(1, 1), (2, 20)] [] true, BNode.node [(4, 16), (5, 17), (6, 23)] [] true, BNode.node [(10, 4), (11, 5), (12, 22)] [] true, BNode.node [(14, 7), (15, 8)] [] true] false, BNode.node [(20, 18), (24, 12)] [BNode.node [(17, 21), (18, 9), (19, 11)] [] true, BNode.node [(21, 15), (22, 19)] [] true, BNode.node [(25, 13), (26, 14)] [] true] false] false, 3⟩ : BTreeT Int) := by rfl

theorem c8_er_0 : eraseT (⟨BNode.node [(16, 10)] [BNode.node [(3, 2), (7, 3), (13, 6)] [BNode.node [(1, 1), (2, 20)] [] true, BNode.node [(4, 16), (5, 17), (6, 23)] [] true, BNode.node [(10, 4), (11, 5), (12, 22)] [] true, BNode.node [(14, 7), (15, 8)] [] true] false, BNode.node [(20, 18), (24, 12)] [BNode.node [(17, 21), (18, 9), (19, 11)] [] true, BNode.node [(21, 15), (22, 19)] [] true, BNode.node [(25, 13), (26, 14)] [] true] false] false, 3⟩ : BTreeT Int) 6 = .ok (⟨BNode.node [(16, 10)] [BNode.node [(3, 2), (7, 3), (13, 6)] [BNode.node [(1, 1), (2, 20)] [] true, BNode.node [(4, 16), (5, 17)] [] true, BNode.node [(10, 4), (11, 5), (12, 22)] [] true, BNode.node [(14, 7), (15, 8)] [] true] false, BNode.node [(20, 18), (24, 12)] [BNode.node [(17, 21), (18, 9), (19, 11)] [] true, BNode.node [(21, 15), (22, 19)] [] true, BNode.node [(25, 13), (26, 14)] [] true] false] false, 3⟩ : BTreeT Int) := by rfl

theorem c8_er_1 : eraseT (⟨BNode.node [(16, 10)] [BNode.node [(3, 2), (7, 3), (13, 6)] [BNode.node [(1, 1), (2, 20)] [] true, BNode.node [(4, 16), (5, 17)] [] true, BNode.node [(10, 4), (11, 5), (12, 22)] [] true, BNode.node [(14, 7), (15, 8)] [] true] false, BNode.node [(20, 18), (24, 12)] [BNode.node [(17, 21), (18, 9), (19, 11)] [] true, BNode.node [(21, 15), (22, 19)] [] true, BNode.node [(25, 13), (26, 14)] [] true] false] false, 3⟩ : BTreeT Int) 13 = .ok (⟨BNode.node [(16, 10)] [BNode.node [(3, 2), (7, 3), (12, 22)] [BNode.node [(1, 1), (2, 20)] [] true, BNode.node [(4, 16), (5, 17)] [] true, BNode.node [(10, 4), (11, 5)] [] true, BNode.node [(14, 7), (15, 8)] [] true] false, BNode.node [(20, 18), (24, 12)] [BNode.node [(17, 21), (18, 9), (19, 11)] [] true, BNode.node [(21, 15), (22, 19)] [] true, BNode.node [(25, 13), (26, 14)] [] true] false] false, 3⟩ : BTreeT Int) := by rfl

theorem c8_er_2 : eraseT (⟨BNode.node [(16, 10)] [BNode.node [(3, 2), (7, 3), (12, 22)] [BNode.node [(1, 1), (2, 20)] [] true, BNode.node [(4, 16), (5, 17)] [] true, BNode.node [(10, 4), (11, 5)] [] true, BNode.node [(14, 7), (15, 8)] [] true] false, BNode.node [(20, 18), (24, 12)] [BNode.node [(17, 21), (18, 9), (19, 11)] [] true, BNode.node [(21, 15), (22, 19)] [] true, BNode.node [(25, 13), (26, 14)] [] true] false] false, 3⟩ : BTreeT Int) 7 = .ok (⟨BNode.node [(16, 10)] [BNode.node [(3, 2), (12, 22)] [BNode.node [(1, 1), (2, 20)] [] true, BNode.node [(4, 16), (5, 17), (10, 4), (11, 5)] [] true, BNode.node [(14, 7), (15, 8)] [] true] false, BNode.node [(20, 18), (24, 12)] [BNode.node [(17, 21), (18, 9), (19, 11)] [] true, BNode.node [(21, 15), (22, 19)] [] true, BNode.node [(25, 13), (26, 14)] [] true] false] false, 3⟩ : BTreeT Int) := by rfl

theorem c8_er_3 : eraseT (⟨BNode.node [(16, 10)] [BNode.node [(3, 2), (12, 22)] [BNode.node [(1, 1), (2, 20)] [] true, BNode.node [(4, 16), (5, 17), (10, 4), (11, 5)] [] true, BNode.node [(14, 7), (15, 8)] [] true] false, BNode.node [(20, 18), (24, 12)] [BNode.node [(17, 21), (18, 9), (19, 11)] [] true, BNode.node [(21, 15), (22, 19)] [] true, BNode.node [(25, 13), (26, 14)] [] true] false] false, 3⟩ : BTreeT Int) 4 = .ok (⟨BNode.node [] [BNode.node [(3, 2), (12, 22), (16, 10), (20, 18), (24, 12)] [BNode.node [(1, 1), (2, 20)] [] true, BNode.node [(5, 17), (10, 4), (11, 5)] [] true, BNode.node [(14, 7), (15, 8)] [] true, BNode.node [(17, 21), (18, 9), (19, 11)] [] true, BNode.node [(21, 15), (22, 19)] [] true, BNode.node [(25, 13), (26, 14)] [] true] false] false, 3⟩ : BTreeT Int) := by rfl

theorem c8_er_4 : eraseT (⟨BNode.node [] [BNode.node [(3, 2), (12, 22), (16, 10), (20, 18), (24, 12)] [BNode.node [(1, 1), (2, 20)] [] true, BNode.node [(5, 17), (10, 4), (11, 5)] [] true, BNode.node [(14, 7), (15, 8)] [] true, BNode.node [(17, 21), (18, 9), (19, 11)] [] true, BNode.node [(21, 15), (22, 19)] [] true, BNode.node [(25, 13), (26, 14)] [] true] false] false, 3⟩ : BTreeT Int) 2 = .ok (⟨BNode.node [] [BNode.node [(5, 17), (12, 22), (16, 10), (20, 18), (24, 12)] [BNode.node [(1, 1), (3, 2)] [] true, BNode.node [(10, 4), (11, 5)] [] true, BNode.node [(14, 7), (15, 8)] [] true, BNode.node [(17, 21), (18, 9), (19, 11)] [] true, BNode.node [(21, 15), (22, 19)] [] true, BNode.node [(25, 13), (26, 14)] [] true] false] false, 3⟩ : BTreeT Int) := by rfl

theorem c8_er_5 : eraseT (⟨BNode.node [] [BNode.node [(5, 17), (12, 22), (16, 10), (20, 18), (24, 12)] [BNode.node [(1, 1), (3, 2)] [] true, BNode.node [(10, 4), (11, 5)] [] true, BNode.node [(14, 7), (15, 8)] [] true, BNode.node [(17, 21), (18, 9), (19, 11)] [] true, BNode.node [(21, 15), (22, 19)] [] true, BNode.node [(25, 13), (26, 14)] [] true] false] false, 3⟩ : BTreeT Int) 16 = .ok (⟨BNode.node [] [BNode.node [(5, 17), (12, 22), (17, 21), (20, 18), (24, 12)] [BNode.node [(1, 1), (3, 2)] [] true, BNode.node [(10, 4), (11, 5)] [] true, BNode.node [(14, 7), (15, 8)] [] true, BNode.node [(18, 9), (19, 11)] [] true, BNode.node [(21, 15), (22, 19)] [] true, BNode.node [(25, 13), (26, 14)] [] true] false] false, 3⟩ : BTreeT Int) := by rfl

theorem c2_ins_0 : insertT (create 2) (1, 1) = (⟨BNode.node [(1, 1)] [] true, 2⟩ : BTreeT Int) := by rfl

theorem c2_ins_1 : insertT (⟨BNode.node [(1, 1)] [] true, 2⟩ : BTreeT Int) (2, 2) = (⟨BNode.node [(1, 1), (2, 2)] [] true, 2⟩ : BTreeT Int) := by rfl

theorem c2_ins_2 : insertT (⟨BNode.node [(1, 1), (2, 2)] [] true, 2⟩ : BTreeT Int) (3, 3) = (⟨BNode.node [(1, 1), (2, 2), (3, 3)] [] true, 2⟩ : BTreeT Int) := by rfl

theorem c2_ins_3 : insertT (⟨BNode.node [(1, 1), (2, 2), (3, 3)] [] true, 2⟩ : BTreeT Int) (4, 4) = (⟨BNode.node [(2, 2)] [BNode.node [(1, 1)] [] true, BNode.node [(3, 3), (4, 4)] [] true] false, 2⟩ : BTreeT Int) := by rfl

theorem c2_er_0 : eraseT (⟨BNode.node [(2, 2)] [BNode.node [(1, 1)] [] true, BNode.node [(3, 3), (4, 4)] [] true] false, 2⟩ : BTreeT Int) 4 = .ok (⟨BNode.node [(2, 2)] [BNode.node [(1, 1)] [] true, BNode.node [(3, 3)] [] true] false, 2⟩ : BTreeT Int) := by rfl

theorem c2_er_1 : eraseT (⟨BNode.node [(2, 2)] [BNode.node [(1, 1)] [] true, BNode.node [(3, 3)] [] true] false, 2⟩ : BTreeT Int) 2 = .ok (⟨BNode.node [] [BNode.node [(1, 1), (3, 3)] [] true] false, 2⟩ : BTreeT Int) := by rfl

theorem c2_er_2 : eraseT (⟨BNode.node [] [BNode.node [(1, 1), (3, 3)] [] true] false, 2⟩ : BTreeT Int) 3 = .ok (⟨BNode.node [] [BNode.node [(1, 1)] [] true] false, 2⟩ : BTreeT Int) := by rfl

theorem c3_er_final : eraseT (⟨BNode.node [] [BNode.node [(1, 1)] [] true] false, 2⟩ : BTreeT Int) 1 = .error .oob := by rfl

theorem c4_ins_0 : insertT (create 2) (1, 1) = (⟨BNode.node [(1, 1)] [] true, 2⟩ : BTreeT Int) := by rfl

theorem c4_ins_1 : insertT (⟨BNode.node [(1, 1)] [] true, 2⟩ : BTreeT Int) (2, 2) = (⟨BNode.node [(1, 1), (2, 2)] [] true, 2⟩ : BTreeT Int) := by rfl

theorem c4_ins_2 : insertT (⟨BNode.node [(1, 1), (2, 2)] [] true, 2⟩ : BTreeT Int) (3, 3) = (⟨BNode.node [(1, 1), (2, 2), (3, 3)] [] true, 2⟩ : BTreeT Int) := by rfl

theorem c4_ins_3 : insertT (⟨BNode.node [(1, 1), (2, 2), (3, 3)] [] true, 2⟩ : BTreeT Int) (4, 4) = (⟨BNode.node [(2, 2)] [BNode.node [(1, 1)] [] true, BNode.node [(3, 3), (4, 4)] [] true] false, 2⟩ : BTreeT Int) := by rfl

theorem c4_ins_4 : insertT (⟨BNode.node [(2, 2)] [BNode.node [(1, 1)] [] true, BNode.node [(3, 3), (4, 4)] [] true] false, 2⟩ : BTreeT Int) (5, 5) = (⟨BNode.node [(2, 2)] [BNode.node [(1, 1)] [] true, BNode.node [(3, 3), (4, 4), (5, 5)] [] true] false, 2⟩ : BTreeT Int) := by rfl

theorem c4_ins_5 : insertT (⟨BNode.node [(2, 2)] [BNode.node [(1, 1)] [] true, BNode.node [(3, 3), (4, 4), (5, 5)] [] true] false, 2⟩ : BTreeT Int) (6, 6) = (⟨BNode.node [(2, 2), (4, 4)] [BNode.node [(1, 1)] [] true, BNode.node [(3, 3)] [] true, BNode.node [(5, 5), (6, 6)] [] true] false, 2⟩ : BTreeT Int) := by rfl

theorem c4_ins_6 : insertT (⟨BNode.node [(2, 2), (4, 4)] [BNode.node [(1, 1)] [] true, BNode.node [(3, 3)] [] true, BNode.node [(5, 5), (6, 6)] [] true] false, 2⟩ : BTreeT Int) (7, 7) = (⟨BNode.node [(2, 2), (4, 4)] [BNode.node [(1, 1)] [] true, BNode.node [(3, 3)] [] true, BNode.node [(5, 5), (6, 6), (7, 7)] [] true] false, 2⟩ : BTreeT Int) := by rfl

theorem c4_ins_7 : insertT (⟨BNode.node [(2, 2), (4, 4)] [BNode.node [(1, 1)] [] true, BNode.node [(3, 3)] [] true, BNode.node [(5, 5), (6, 6), (7, 7)] [] true] false, 2⟩ : BTreeT Int) (8, 8) = (⟨BNode.node [(2, 2), (4, 4), (6, 6)] [BNode.node [(1, 1)] [] true, BNode.node [(3, 3)] [] true, BNode.node [(5, 5)] [] true, BNode.node [(7, 7), (8, 8)] [] true] false, 2⟩ : BTreeT Int) := by rfl

theorem c4_ins_8 : insertT (⟨BNode.node [(2, 2), (4, 4), (6, 6)] [BNode.node [(1, 1)] [] true, BNode.node [(3, 3)] [] true, BNode.node [(5, 5)] [] true, BNode.node [(7, 7), (8, 8)] [] true] false, 2⟩ : BTreeT Int) (9, 9) = (⟨BNode.node [(4, 4)] [BNode.node [(2, 2)] [BNode.node [(1, 1)] [] true, BNode.node [(3, 3)] [] true] false, BNode.node [(6, 6)] [BNode.node [(5, 5)] [] true, BNode.node [(7, 7), (8, 8), (9, 9)] [] true] false] false, 2⟩ : BTreeT Int) := by rfl

theorem c4_ins_9 : insertT (⟨BNode.node [(4, 4)] [BNode.node [(2, 2)] [BNode.node [(1, 1)] [] true, BNode.node [(3, 3)] [] true] false, BNode.node [(6, 6)] [BNode.node [(5, 5)] [] true, BNode.node [(7, 7), (8, 8), (9, 9)] [] true] false] false, 2⟩ : BTreeT Int) (10, 10) = (⟨BNode.node [(4, 4)] [BNode.node [(2, 2)] [BNode.node [(1, 1)] [] true, BNode.node [(3, 3)] [] true] false, BNode.node [(6, 6), (8, 8)] [BNode.node [(5, 5)] [] true, BNode.node [(7, 7)] [] true, BNode.node [(9, 9), (10, 10)] [] true] false] false, 2⟩ : BTreeT Int) := by rfl

theorem c4_er_0 : eraseT (⟨BNode.node [(4, 4)] [BNode.node [(2, 2)] [BNode.node [(1, 1)] [] true, BNode.node [(3, 3)] [] true] false, BNode.node [(6, 6), (8, 8)] [BNode.node [(5, 5)] [] true, BNode.node [(7, 7)] [] true, BNode.node [(9, 9), (10, 10)] [] true] false] false, 2⟩ : BTreeT Int) 1 = .ok (⟨BNode.node [(6, 6)] [BNode.node [(4, 4)] [BNode.node [(2, 2), (3, 3)] [] true, BNode.node [(5, 5)] [] true] false, BNode.node [(8, 8)] [BNode.node [(5, 5)] [] true, BNode.node [(7, 7)] [] true] false] false, 2⟩ : BTreeT Int) := by rfl

def c4_final : BTreeT Int := (⟨BNode.node [(6, 6)] [BNode.node [(4, 4)] [BNode.node [(2, 2), (3, 3)] [] true, BNode.node [(5, 5)] [] true] false, BNode.node [(8, 8)] [BNode.node [(5, 5)] [] true, BNode.node [(7, 7)] [] true] false] false, 2⟩ : BTreeT Int)

theorem driverTree_eq : driverTree = (⟨BNode.node [(16, 10)] [BNode.node [(3, 2), (7, 3), (13, 6)] [BNode.node [(1, 1), (2, 20)] [] true, BNode.node [(4, 16), (5, 17), (6, 23)] [] true, BNode.node [(10, 4), (11, 5), (12, 22)] [] true, BNode.node [(14, 7), (15, 8)] [] true] false, BNode.node [(20, 18), (24, 12)] [BNode.node [(17, 21), (18, 9), (19, 11)] [] true, BNode.node [(21, 15), (22, 19)] [] true, BNode.node [(25, 13), (26, 14)] [] true] false] false, 3⟩ : BTreeT Int) := by
  simp only [driverTree, driverIns, List.foldl]
  rw [c8_ins_0, c8_ins_1, c8_ins_2, c8_ins_3, c8_ins_4, c8_ins_5, c8_ins_6, c8_ins_7, c8_ins_8, c8_ins_9, c8_ins_10, c8_ins_11, c8_ins_12, c8_ins_13, c8_ins_14, c8_ins_15, c8_ins_16, c8_ins_17, c8_ins_18, c8_ins_19, c8_ins_20, c8_ins_21, c8_ins_22]

theorem c2tree_eq : c2tree = (⟨BNode.node [(2, 2)] [BNode.node [(1, 1)] [] true, BNode.node [(3, 3), (4, 4)] [] true] false, 2⟩ : BTreeT Int) := by
  simp only [c2tree, List.foldl]
  rw [c2_ins_0, c2_ins_1, c2_ins_2, c2_ins_3]

theorem c4tree_eq : c4tree = (⟨BNode.node [(4, 4)] [BNode.node [(2, 2)] [BNode.node [(1, 1)] [] true, BNode.node [(3, 3)] [] true] false, BNode.node [(6, 6), (8, 8)] [BNode.node [(5, 5)] [] true, BNode.node [(7, 7)] [] true, BNode.node [(9, 9), (10, 10)] [] true] false] false, 2⟩ : BTreeT Int) := by
  simp only [c4tree, List.foldl]
  rw [c4_ins_0, c4_ins_1, c4_ins_2, c4_ins_3, c4_ins_4, c4_ins_5, c4_ins_6, c4_ins_7, c4_ins_8, c4_ins_9]


/-! ## Claim theorems: concrete behaviours -/

/-- C1: the claim says `erase(k)` on an absent key is a no-op returning
normally.  The code violates it: the public `BTree::erase(const Key&)`
calls `find` and then dereferences the returned node pointer without a null
check (`p.first->key[p.second]`), so erasing a key that is not in the tree
dereferences the null pointer instead of returning normally.  Here: a tree
of order `t = 2` holding only key 1, `erase(5)`. -/
theorem erase_absent_key_null_deref :
    eraseT (insertT (create 2) ((1 : Int), (1 : Int))) 5 = .error .null := by
  rfl

/-- C2: the claim says that when a deletion merge empties the root, the
merged child becomes the new root, so the root is never an empty internal
node after `erase` returns.  The code never performs this root collapse
(the documented replacement of `x` by `x.c0` is absent from
`BTree::erase`): with `t = 2`, after inserting 1,2,3,4 and erasing 4 then
2, the root is an internal node with 0 keys and a single child — erase
returned normally with the root left as an empty internal node. -/
theorem root_left_empty_internal_after_erase :
    (([4, 2] : List Int).foldl eraseChain (.ok c2tree)).toOption.map
      (fun T => (nK T.root, leafOf T.root, dbg_traverse T.root)) =
    some (0, false, [1, 3]) := by
  rw [c2tree_eq]
  rfl

/-- C3: the claim says the occupancy/depth/fan-out invariants hold after
every insert/erase call, for any operation sequence.  Continuing the C2
sequence (`t = 2`: insert 1,2,3,4; erase 4, 2, 3), the root is an empty
internal node, and the next call `erase(1)` reaches `fill_child` with
`i = 0` and `x->n = 0`, which calls `merge(x, -1)` — an out-of-bounds read
of `x->c[-1]` and `x->key[-1]`; the call does not return with the
invariants restored (it has undefined behaviour). -/
theorem erase_reads_negative_child_index :
    ([4, 2, 3, 1] : List Int).foldl eraseChain (.ok c2tree) = .error .oob := by
  rw [c2tree_eq]
  rfl

/-- C4: the claim says every inserted, not-erased key is found by `find`.
The code violates it: `shift_child` compacts a borrowed-from sibling with
the loop bound `i < x->n - 1` after `shift_key` has already decremented
`x->n` (compare `erase_child`, which runs to `i <= x->n`), so borrowing
from an internal right sibling duplicates one child and drops the
sibling's last child.  With `t = 2`, insert keys 1..10 and erase 1: the
erase returns normally, but keys 9 and 10 — inserted and never erased —
are no longer found (`find` returns the absent result), and the in-order
key sequence is the corrupted `[2, 3, 4, 5, 6, 5, 8, 7]`. -/
theorem find_loses_inserted_keys_after_borrow :
    ((eraseChain (.ok c4tree) 1).toOption.map
      (fun T => (dbg_traverse T.root, find T.root 9, find T.root 10)) =
      some ([2, 3, 4, 5, 6, 5, 8, 7], none, none)) ∧
    (9 : Int) ∈ c4pairs.map Prod.fst ∧ (10 : Int) ∈ c4pairs.map Prod.fst := by
  refine ⟨?_, by decide, by decide⟩
  rw [c4tree_eq]
  rfl

/-- C8: the driver scenario (`t = 3`): after the 23 inserts the in-order
keys are 1..7,10..22,24..26; each of the six erases returns normally, the
in-order keys are exactly the remaining keys in sorted order, and the
occupancy/fan-out/uniform-depth invariants hold after each erase. -/
theorem driver_scenario_traversals_and_invariants :
    dbg_traverse driverTree.root =
      [1, 2, 3, 4, 5, 6, 7, 10, 11, 12, 13, 14, 15, 16, 17, 18, 19, 20, 21,
       22, 24, 25, 26] ∧
    invariantOK driverTree = true ∧
    ((driverErase.take 1).foldl eraseChain (.ok driverTree)).toOption.map
        (fun T => (dbg_traverse T.root, invariantOK T)) =
      some ([1, 2, 3, 4, 5, 7, 10, 11, 12, 13, 14, 15, 16, 17, 18, 19, 20, 21,
             22, 24, 25, 26], true) ∧
    ((driverErase.take 2).foldl eraseChain (.ok driverTree)).toOption.map
        (fun T => (dbg_traverse T.root, invariantOK T)) =
      some ([1, 2, 3, 4, 5, 7, 10, 11, 12, 14, 15, 16, 17, 18, 19, 20, 21,
             22, 24, 25, 26], true) ∧
    ((driverErase.take 3).foldl eraseChain (.ok driverTree)).toOption.map
        (fun T => (dbg_traverse T.root, invariantOK T)) =
      some ([1, 2, 3, 4, 5, 10, 11, 12, 14, 15, 16, 17, 18, 19, 20, 21,
             22, 24, 25, 26], true) ∧
    ((driverErase.take 4).foldl eraseChain (.ok driverTree)).toOption.map
        (fun T => (dbg_traverse T.root, invariantOK T)) =
      some ([1, 2, 3, 5, 10, 11, 12, 14, 15, 16, 17, 18, 19, 20, 21,
             22, 24, 25, 26], true) ∧
    ((driverErase.take 5).foldl eraseChain (.ok driverTree)).toOption.map
        (fun T => (dbg_traverse T.root, invariantOK T)) =
      some ([1, 3, 5, 10, 11, 12, 14, 15, 16, 17, 18, 19, 20, 21,
             22, 24, 25, 26], true) ∧
    (driverErase.foldl eraseChain (.ok driverTree)).toOption.map
        (fun T => (dbg_traverse T.root, invariantOK T)) =
      some ([1, 3, 5, 10, 11, 12, 14, 15, 17, 18, 19, 20, 21,
             22, 24, 25, 26], true) := by
  refine ⟨?_, ?_, ?_, ?_, ?_, ?_, ?_, ?_⟩
  · rw [driverTree_eq]
    rfl
  · rw [driverTree_eq]
    rfl
  · rw [driverTree_eq]
    simp only [driverErase, List.take, List.foldl, eraseChain]
    rw [c8_er_0]
    rfl
  · rw [driverTree_eq]
    simp only [driverErase, List.take, List.foldl, eraseChain]
    rw [c8_er_0]; simp only [eraseChain]; rw [c8_er_1]
    rfl
  · rw [driverTree_eq]
    simp only [driverErase, List.take, List.foldl, eraseChain]
    rw [c8_er_0]; simp only [eraseChain]; rw [c8_er_1]
    simp only [eraseChain]; rw [c8_er_2]
    rfl
  · rw [driverTree_eq]
    simp only [driverErase, List.take, List.foldl, eraseChain]
    rw [c8_er_0]; simp only [eraseChain]; rw [c8_er_1]
    simp only [eraseChain]; rw [c8_er_2]; simp only [eraseChain]; rw [c8_er_3]
    rfl
  · rw [driverTree_eq]
    simp only [driverErase, List.take, List.foldl, eraseChain]
    rw [c8_er_0]; simp only [eraseChain]; rw [c8_er_1]
    simp only [eraseChain]; rw [c8_er_2]; simp only [eraseChain]; rw [c8_er_3]
    simp only [eraseChain]; rw [c8_er_4]
    rfl
  · rw [driverTree_eq]
    simp only [driverErase, List.foldl, eraseChain]
    rw [c8_er_0]; simp only [eraseChain]; rw [c8_er_1]
    simp only [eraseChain]; rw [c8_er_2]; simp only [eraseChain]; rw [c8_er_3]
    simp only [eraseChain]; rw [c8_er_4]; simp only [eraseChain]; rw [c8_er_5]
    rfl

/-! ## Claim C5: split_child -/

/-- C5: for a non-full node `x` whose child `i` is full (`2t-1` keys),
`split_child(x, i)` promotes the median `y->key[t-1]` into `x` at position
`i`, keeps the truncated `y` (first `t-1` keys, first `t` children) as
child `i`, inserts the new sibling `z` as child `i+1` carrying the largest
`t-1` keys `y->key[t..2t-2]` (and, if `y` is internal, `y`'s last `t`
children), and `x` gains exactly one key and one child while `y` and `z`
each end up with exactly `t-1` keys. -/
theorem split_child_correct [Inhabited α] (t : Nat) (ks : List (Pr α))
    (cs : List (BNode α)) (lf : Bool) (i : Nat) (y : BNode α)
    (ht : 2 ≤ t) (hik : i ≤ ks.length) (hnf : ks.length < 2*t - 1)
    (hy : cs[i]? = some y) (hyfull : (keysOf y).length = 2*t - 1)
    (hyc : leafOf y = false → (childrenOf y).length = 2*t)
    (hylf : leafOf y = true → childrenOf y = []) :
    (keysOf (split_child t (.node ks cs lf) i)).length = ks.length + 1 ∧
    (childrenOf (split_child t (.node ks cs lf) i)).length = cs.length + 1 ∧
    (keysOf (split_child t (.node ks cs lf) i))[i]? =
      some (getKeyP (keysOf y) (t-1)) ∧
    (childrenOf (split_child t (.node ks cs lf) i))[i]? =
      some (.node ((keysOf y).take (t-1)) ((childrenOf y).take t) (leafOf y)) ∧
    (childrenOf (split_child t (.node ks cs lf) i))[i+1]? =
      some (.node ((keysOf y).drop t) ((childrenOf y).drop t) (leafOf y)) ∧
    ((keysOf y).take (t-1)).length = t - 1 ∧
    ((keysOf y).drop t).length = t - 1 ∧
    (leafOf y = false → ((childrenOf y).take t).length = t ∧
      ((childrenOf y).drop t).length = t) := by
  obtain ⟨hilt, hyget⟩ := List.getElem?_eq_some_iff.mp hy
  have hgc : getChild cs i = y := by
    rw [getChild, List.getD_eq_getElem cs dfltN hilt, hyget]
  have htake : ((keysOf y).take (t-1)).length = t - 1 := by
    rw [List.length_take]; omega
  have hdropt : ((keysOf y).drop t).length = t - 1 := by
    rw [List.length_drop]; omega
  have hztake : ((keysOf y).drop t).take (t-1) = (keysOf y).drop t :=
    List.take_of_length_le (by omega)
  have hcz : ((childrenOf y).drop t).take t = (childrenOf y).drop t := by
    cases hl : leafOf y with
    | true => simp [hylf hl]
    | false =>
      exact List.take_of_length_le (by rw [List.length_drop, hyc hl]; omega)
  have hi1 : i + 1 ≤ (cs.set i (BNode.node ((keysOf y).take (t-1))
      ((childrenOf y).take t) (leafOf y))).length := by
    rw [List.length_set]; omega
  refine ⟨?_, ?_, ?_, ?_, ?_, htake, hdropt, ?_⟩
  · simp only [split_child, hgc, keysOf_node]
    exact List.length_insertIdx i ks hik
  · simp only [split_child, hgc, childrenOf_node]
    rw [List.length_insertIdx _ _ hi1, List.length_set]
  · simp only [split_child, hgc, keysOf_node]
    rw [List.getElem?_eq_getElem (by rw [List.length_insertIdx i ks hik]; omega)]
    rw [List.getElem_insertIdx_self ks _ i hik]
  · simp only [split_child, hgc, childrenOf_node]
    have hlen : i < ((cs.set i (BNode.node ((keysOf y).take (t-1))
        ((childrenOf y).take t) (leafOf y))).insertIdx (i+1)
        (BNode.node (((keysOf y).drop t).take (t-1))
          (((childrenOf y).drop t).take t) (leafOf y))).length := by
      rw [List.length_insertIdx _ _ hi1, List.length_set]; omega
    rw [List.getElem?_eq_getElem hlen]
    rw [List.getElem_insertIdx_of_lt _ _ _ _ (Nat.lt_succ_self i) (by rw [List.length_set]; omega)]
    rw [List.getElem_set_self]
  · simp only [split_child, hgc, childrenOf_node]
    have hlen : i + 1 < ((cs.set i (BNode.node ((keysOf y).take (t-1))
        ((childrenOf y).take t) (leafOf y))).insertIdx (i+1)
        (BNode.node (((keysOf y).drop t).take (t-1))
          (((childrenOf y).drop t).take t) (leafOf y))).length := by
      rw [List.length_insertIdx _ _ hi1, List.length_set]; omega
    rw [List.getElem?_eq_getElem hlen]
    rw [List.getElem_insertIdx_self _ _ (i+1) hi1]
    rw [hztake, hcz]
  · intro hl
    constructor
    · rw [List.length_take, hyc hl]; omega
    · rw [List.length_drop, hyc hl]; omega

/-- Witness for C5 at `t = 2`, `x` a one-key root with full leaf child
`[(1,1),(2,2),(3,3)]` at index 0. -/
theorem split_child_correct_witness :
    (keysOf (split_child 2 (.node [((10:Int), (10:Int))]
        [BNode.node [(1,1),(2,2),(3,3)] [] true, BNode.node [(20,20)] [] true]
        false) 0)).length = 2 ∧
    (childrenOf (split_child 2 (.node [((10:Int), (10:Int))]
        [BNode.node [(1,1),(2,2),(3,3)] [] true, BNode.node [(20,20)] [] true]
        false) 0))[0]? = some (.node [(1,1)] [] true) := by
  have h := split_child_correct (α := Int) 2 [((10:Int), (10:Int))]
    [BNode.node [(1,1),(2,2),(3,3)] [] true, BNode.node [(20,20)] [] true]
    false 0 (BNode.node [(1,1),(2,2),(3,3)] [] true)
    (by decide) (by decide) (by decide) (by rfl) (by decide)
    (by intro h; simp at h) (by intro h; rfl)
  refine ⟨h.1, ?_⟩
  have h4 := h.2.2.2.1
  simpa using h4


/-! ## Height and shape preservation by insertion -/

theorem heightL_set {cs : List (BNode α)} {i : Nat} {c' : BNode α}
    (hi : i < cs.length) (h : height c' = height cs[i]) :
    heightL (cs.set i c') = heightL cs := by
  induction cs generalizing i with
  | nil => simp at hi
  | cons d ds ih =>
    cases i with
    | zero => simp_all
    | succ j =>
      simp only [List.set_cons_succ, heightL_cons]
      rw [ih (by simpa using hi) (by simpa using h)]

theorem heightL_insertIdx {cs : List (BNode α)} {n : Nat} {c : BNode α}
    (hn : n ≤ cs.length) :
    heightL (cs.insertIdx n c) = max (height c + 1) (heightL cs) := by
  induction cs generalizing n with
  | nil =>
    cases n with
    | zero => simp [List.insertIdx]
    | succ m => simp at hn
  | cons d ds ih =>
    cases n with
    | zero => simp [List.insertIdx]
    | succ m =>
      simp only [List.insertIdx_succ_cons, heightL_cons]
      rw [ih (by simpa using hn)]
      omega

theorem bal_children {ks : List (Pr α)} {cs : List (BNode α)} {lf : Bool}
    (h : Bal (.node ks cs lf)) :
    (∀ c ∈ cs, Bal c) ∧ (∀ c ∈ cs, height c + 1 = heightL cs) := by
  cases h with
  | mk _ _ _ h1 h2 => exact ⟨h1, h2⟩

theorem wf_internal_inv {t : Nat} {ks : List (Pr α)} {cs : List (BNode α)}
    (h : WF t (.node ks cs false)) :
    1 ≤ ks.length ∧ cs.length = ks.length + 1 ∧ (∀ c ∈ cs, WF t c) := by
  cases h with
  | internal _ _ h1 h2 h3 => exact ⟨h1, h2, h3⟩

theorem wf_leaf_inv {t : Nat} {ks : List (Pr α)} {cs : List (BNode α)}
    (h : WF t (.node ks cs true)) : cs = [] := by
  cases h
  rfl

/-- A nonempty selection from a list of uniform-height subtrees has the
same `heightL`. -/
theorem heightL_sub_of_uniform {ycs cs' : List (BNode α)}
    (hmem : ∀ c ∈ cs', c ∈ ycs) (hne : cs' ≠ [])
    (hbh : ∀ c ∈ ycs, height c + 1 = heightL ycs) :
    heightL cs' = heightL ycs := by
  obtain ⟨c0, hc0⟩ := List.exists_mem_of_ne_nil _ hne
  have h0 : height c0 + 1 = heightL ycs := hbh c0 (hmem c0 hc0)
  have hle : heightL cs' ≤ heightL ycs := heightL_mono hmem
  have hge : height c0 + 1 ≤ heightL cs' := height_lt_of_mem hc0
  omega

/-- The truncated `y` keeps `y`'s height, well-formedness and balance, for
full well-formed balanced `y`. -/
theorem split_half_left {t : Nat} {yks : List (Pr α)} {ycs : List (BNode α)}
    {ylf : Bool} (ht : 2 ≤ t) (hwfy : WF t (.node yks ycs ylf))
    (hbaly : Bal (.node yks ycs ylf)) (hyfull : yks.length = 2*t - 1) :
    height (BNode.node (yks.take (t-1)) (ycs.take t) ylf) = heightL ycs ∧
    WF t (BNode.node (yks.take (t-1)) (ycs.take t) ylf) ∧
    Bal (BNode.node (yks.take (t-1)) (ycs.take t) ylf) := by
  obtain ⟨hbc, hbh⟩ := bal_children hbaly
  cases ylf with
  | true =>
    have hyc : ycs = [] := wf_leaf_inv hwfy
    subst hyc
    rw [List.take_nil]
    exact ⟨by simp, WF.leaf _, Bal.mk _ _ _ (by simp) (by simp)⟩
  | false =>
    obtain ⟨hk1, hc1, hwall⟩ := wf_internal_inv hwfy
    have hycs : ycs.length = 2*t := by omega
    have hlen : (ycs.take t).length = t := by rw [List.length_take]; omega
    have hne : ycs.take t ≠ [] := by
      intro he; rw [he] at hlen; simp at hlen; omega
    have hh : heightL (ycs.take t) = heightL ycs :=
      heightL_sub_of_uniform (fun c hc => List.mem_of_mem_take hc) hne hbh
    refine ⟨by simpa using hh, ?_, ?_⟩
    · refine WF.internal _ _ ?_ ?_ (fun c hc => hwall c (List.mem_of_mem_take hc))
      · rw [List.length_take]; omega
      · rw [hlen, List.length_take]; omega
    · refine Bal.mk _ _ _ (fun c hc => hbc c (List.mem_of_mem_take hc)) ?_
      intro c hc
      rw [hh]
      exact hbh c (List.mem_of_mem_take hc)

/-- The new sibling `z` has `y`'s height, well-formedness and balance, for
full well-formed balanced `y`. -/
theorem split_half_right {t : Nat} {yks : List (Pr α)} {ycs : List (BNode α)}
    {ylf : Bool} (ht : 2 ≤ t) (hwfy : WF t (.node yks ycs ylf))
    (hbaly : Bal (.node yks ycs ylf)) (hyfull : yks.length = 2*t - 1) :
    height (BNode.node ((yks.drop t).take (t-1)) ((ycs.drop t).take t) ylf) =
      heightL ycs ∧
    WF t (BNode.node ((yks.drop t).take (t-1)) ((ycs.drop t).take t) ylf) ∧
    Bal (BNode.node ((yks.drop t).take (t-1)) ((ycs.drop t).take t) ylf) := by
  obtain ⟨hbc, hbh⟩ := bal_children hbaly
  have hzmem : ∀ c ∈ (ycs.drop t).take t, c ∈ ycs := fun c hc =>
    List.mem_of_mem_drop (List.mem_of_mem_take hc)
  cases ylf with
  | true =>
    have hyc : ycs = [] := wf_leaf_inv hwfy
    subst hyc
    rw [List.drop_nil, List.take_nil]
    exact ⟨by simp, WF.leaf _, Bal.mk _ _ _ (by simp) (by simp)⟩
  | false =>
    obtain ⟨hk1, hc1, hwall⟩ := wf_internal_inv hwfy
    have hycs : ycs.length = 2*t := by omega
    have hlen : ((ycs.drop t).take t).length = t := by
      rw [List.length_take, List.length_drop]; omega
    have hne : (ycs.drop t).take t ≠ [] := by
      intro he; rw [he] at hlen; simp at hlen; omega
    have hh : heightL ((ycs.drop t).take t) = heightL ycs :=
      heightL_sub_of_uniform hzmem hne hbh
    refine ⟨by simpa using hh, ?_, ?_⟩
    · refine WF.internal _ _ ?_ ?_ (fun c hc => hwall c (hzmem c hc))
      · rw [List.length_take, List.length_drop]; omega
      · rw [hlen, List.length_take, List.length_drop]; omega
    · refine Bal.mk _ _ _ (fun c hc => hbc c (hzmem c hc)) ?_
      intro c hc
      rw [hh]
      exact hbh c (hzmem c hc)

/-- `split_child` on a full, well-formed, balanced child preserves height,
well-formedness and balance of the parent (given correct parent counts). -/
theorem split_child_preserves [Inhabited α] {t : Nat} {ks : List (Pr α)}
    {cs : List (BNode α)} {i : Nat}
    (ht : 2 ≤ t) (hik : i ≤ ks.length) (hi : i < cs.length)
    (hcnt : cs.length = ks.length + 1)
    (hfull : nK (getChild cs i) = 2*t - 1)
    (hwfc : ∀ c ∈ cs, WF t c) (hbalc : ∀ c ∈ cs, Bal c)
    (hhts : ∀ c ∈ cs, height c + 1 = heightL cs) :
    height (split_child t (.node ks cs false) i) = heightL cs ∧
    WF t (split_child t (.node ks cs false) i) ∧
    Bal (split_child t (.node ks cs false) i) := by
  have hgc : getChild cs i = cs[i] := by
    rw [getChild, List.getD_eq_getElem cs dfltN hi]
  have hymem : cs[i] ∈ cs := List.getElem_mem hi
  have hwfy : WF t cs[i] := hwfc _ hymem
  have hbaly : Bal cs[i] := hbalc _ hymem
  have hyh : height cs[i] = heightL (childrenOf cs[i]) := by
    cases hsh : cs[i] with
    | node a b c => simp
  obtain ⟨hyh1, hywf, hybal⟩ :
      height (BNode.node ((keysOf cs[i]).take (t-1))
        ((childrenOf cs[i]).take t) (leafOf cs[i])) = heightL (childrenOf cs[i]) ∧
      WF t (BNode.node ((keysOf cs[i]).take (t-1))
        ((childrenOf cs[i]).take t) (leafOf cs[i])) ∧
      Bal (BNode.node ((keysOf cs[i]).take (t-1))
        ((childrenOf cs[i]).take t) (leafOf cs[i])) := by
    rw [hgc] at hfull
    cases hsh : cs[i] with
    | node yks ycs ylf =>
      rw [hsh] at hwfy hbaly hfull
      simp only [keysOf_node, childrenOf_node, leafOf_node]
      exact split_half_left ht hwfy hbaly (by simpa [nK] using hfull)
  obtain ⟨hzh1, hzwf, hzbal⟩ :
      height (BNode.node (((keysOf cs[i]).drop t).take (t-1))
        (((childrenOf cs[i]).drop t).take t) (leafOf cs[i])) =
          heightL (childrenOf cs[i]) ∧
      WF t (BNode.node (((keysOf cs[i]).drop t).take (t-1))
        (((childrenOf cs[i]).drop t).take t) (leafOf cs[i])) ∧
      Bal (BNode.node (((keysOf cs[i]).drop t).take (t-1))
        (((childrenOf cs[i]).drop t).take t) (leafOf cs[i])) := by
    rw [hgc] at hfull
    cases hsh : cs[i] with
    | node yks ycs ylf =>
      rw [hsh] at hwfy hbaly hfull
      simp only [keysOf_node, childrenOf_node, leafOf_node]
      exact split_half_right ht hwfy hbaly (by simpa [nK] using hfull)
  have hset : i + 1 ≤ (cs.set i (BNode.node ((keysOf (getChild cs i)).take (t-1))
      ((childrenOf (getChild cs i)).take t) (leafOf (getChild cs i)))).length := by
    rw [List.length_set]; omega
  have hmemchar : ∀ c ∈ ((cs.set i (BNode.node ((keysOf (getChild cs i)).take (t-1))
        ((childrenOf (getChild cs i)).take t) (leafOf (getChild cs i)))).insertIdx (i+1)
        (BNode.node (((keysOf (getChild cs i)).drop t).take (t-1))
          (((childrenOf (getChild cs i)).drop t).take t) (leafOf (getChild cs i)))),
      c ∈ cs ∨
      c = BNode.node ((keysOf (getChild cs i)).take (t-1))
            ((childrenOf (getChild cs i)).take t) (leafOf (getChild cs i)) ∨
      c = BNode.node (((keysOf (getChild cs i)).drop t).take (t-1))
            (((childrenOf (getChild cs i)).drop t).take t) (leafOf (getChild cs i)) := by
    intro c hc
    rcases (List.mem_insertIdx hset).mp hc with h1 | h2
    · right; right; exact h1
    · rcases List.mem_or_eq_of_mem_set h2 with h3 | h4
      · left; exact h3
      · right; left; exact h4
  have hyhts : height cs[i] + 1 = heightL cs := hhts _ hymem
  have hnewh : heightL ((cs.set i (BNode.node ((keysOf (getChild cs i)).take (t-1))
        ((childrenOf (getChild cs i)).take t) (leafOf (getChild cs i)))).insertIdx (i+1)
        (BNode.node (((keysOf (getChild cs i)).drop t).take (t-1))
          (((childrenOf (getChild cs i)).drop t).take t) (leafOf (getChild cs i)))) =
      heightL cs := by
    rw [heightL_insertIdx hset]
    rw [heightL_set hi (by rw [hgc]; rw [hyh1, ← hyh])]
    rw [hgc, hzh1, ← hyh]
    omega
  refine ⟨?_, ?_, ?_⟩
  · simp only [split_child, height_node]
    exact hnewh
  · simp only [split_child]
    refine WF.internal _ _ ?_ ?_ ?_
    · rw [List.length_insertIdx _ _ hik]; omega
    · rw [List.length_insertIdx _ _ hset, List.length_insertIdx _ _ hik, List.length_set]
      omega
    · intro c hc
      rcases hmemchar c hc with h1 | h2 | h3
      · exact hwfc c h1
      · rw [h2, hgc]; exact hywf
      · rw [h3, hgc]; exact hzwf
  · simp only [split_child]
    refine Bal.mk _ _ _ ?_ ?_
    · intro c hc
      rcases hmemchar c hc with h1 | h2 | h3
      · exact hbalc c h1
      · rw [h2, hgc]; exact hybal
      · rw [h3, hgc]; exact hzbal
    · intro c hc
      rw [hnewh]
      rcases hmemchar c hc with h1 | h2 | h3
      · exact hhts c h1
      · rw [h2, hgc, hyh1, ← hyh]; exact hyhts
      · rw [h3, hgc, hzh1, ← hyh]; exact hyhts


theorem height_eq_heightL_children (x : BNode α) :
    height x = heightL (childrenOf x) := by
  cases x with
  | node a b c => simp

theorem bal_children_of (x : BNode α) (h : Bal x) :
    (∀ c ∈ childrenOf x, Bal c) ∧
    (∀ c ∈ childrenOf x, height c + 1 = heightL (childrenOf x)) := by
  cases x with
  | node a b c => exact bal_children h

theorem wf_internal_of {t : Nat} (x : BNode α) (h : WF t x)
    (hlf : leafOf x = false) :
    1 ≤ (keysOf x).length ∧
    (childrenOf x).length = (keysOf x).length + 1 ∧
    (∀ c ∈ childrenOf x, WF t c) := by
  cases x with
  | node a b c =>
    simp only [leafOf_node] at hlf
    subst hlf
    exact wf_internal_inv h

/-- Replacing one child by a subtree of the same height preserves height,
well-formedness and balance. -/
theorem set_child_preserves {t : Nat} (x' : BNode α) {j : Nat} {c c' : BNode α}
    (hlf : leafOf x' = false) (hwf : WF t x') (hbal : Bal x')
    (hj : (childrenOf x')[j]? = some c)
    (hh : height c' = height c) (hwc : WF t c') (hbc : Bal c') :
    height (BNode.node (keysOf x') ((childrenOf x').set j c') false) = height x' ∧
    WF t (BNode.node (keysOf x') ((childrenOf x').set j c') false) ∧
    Bal (BNode.node (keysOf x') ((childrenOf x').set j c') false) := by
  obtain ⟨hjlt, hjget⟩ := List.getElem?_eq_some_iff.mp hj
  obtain ⟨hk1, hcnt, hwfc⟩ := wf_internal_of x' hwf hlf
  obtain ⟨hbalc, hhts⟩ := bal_children_of x' hbal
  have hset : heightL ((childrenOf x').set j c') = heightL (childrenOf x') := by
    refine heightL_set hjlt ?_
    rw [hjget, hh]
  have hmem : ∀ d ∈ (childrenOf x').set j c', d ∈ childrenOf x' ∨ d = c' :=
    fun d hd => List.mem_or_eq_of_mem_set hd
  refine ⟨?_, ?_, ?_⟩
  · rw [height_node, hset, height_eq_heightL_children]
  · refine WF.internal _ _ hk1 (by rw [List.length_set]; exact hcnt) ?_
    intro d hd
    rcases hmem d hd with h1 | h2
    · exact hwfc d h1
    · rw [h2]; exact hwc
  · refine Bal.mk _ _ _ ?_ ?_
    · intro d hd
      rcases hmem d hd with h1 | h2
      · exact hbalc d h1
      · rw [h2]; exact hbc
    · intro d hd
      rw [hset]
      rcases hmem d hd with h1 | h2
      · exact hhts d h1
      · rw [h2, hh, ← hjget]
        exact hhts _ (List.getElem_mem hjlt)

/-- `insert_nonfull` (with sufficient fuel) preserves height,
well-formedness and balance. -/
theorem insertNF_preserves [Inhabited α] {t : Nat} (ht : 2 ≤ t) :
    ∀ (fuel : Nat) (x : BNode α) (k : Pr α), height x < fuel → WF t x → Bal x →
      height (insertNF t fuel x k) = height x ∧ WF t (insertNF t fuel x k) ∧
      Bal (insertNF t fuel x k) := by
  intro fuel
  induction fuel with
  | zero =>
    intro x k h _ _
    omega
  | succ fuel ih =>
    intro x k hh hwf hbal
    cases x with
    | node ks cs lf =>
      cases lf with
      | true =>
        have hcs : cs = [] := wf_leaf_inv hwf
        subst hcs
        simp only [insertNF]
        exact ⟨by simp, WF.leaf _, Bal.mk _ _ _ (by simp) (by simp)⟩
      | false =>
        obtain ⟨hk1, hcnt, hwfc⟩ := wf_internal_inv hwf
        obtain ⟨hbalc, hhts⟩ := bal_children hbal
        have hile : posR k.1 ks ≤ ks.length := Nat.sub_le _ _
        simp only [insertNF]
        by_cases hfull : nK (getChild cs (posR k.1 ks)) = 2*t - 1
        · rw [if_pos hfull]
          have hi : posR k.1 ks < cs.length := by omega
          obtain ⟨hsh, hswf, hsbal⟩ :=
            split_child_preserves ht hile hi hcnt hfull hwfc hbalc hhts
          have hslf : leafOf (split_child t (.node ks cs false) (posR k.1 ks)) =
              false := by
            simp [split_child]
          split
          next c hcc =>
            have hcmem : c ∈ childrenOf (split_child t (.node ks cs false)
                (posR k.1 ks)) := List.getElem?_mem hcc
            obtain ⟨hsbc, hshs⟩ := bal_children_of _ hsbal
            have hch : height c + 1 =
                heightL (childrenOf (split_child t (.node ks cs false)
                  (posR k.1 ks))) := hshs c hcmem
            have hch2 : height c < fuel := by
              have := height_eq_heightL_children
                (split_child t (.node ks cs false) (posR k.1 ks))
              simp only [height_node] at hsh hh
              omega
            obtain ⟨hwfcs, _⟩ := wf_internal_of _ hswf hslf
            obtain ⟨ihh, ihwf, ihbal⟩ := ih c k hch2
              ((wf_internal_of _ hswf hslf).2.2 c hcmem) (hsbc c hcmem)
            obtain ⟨h1, h2, h3⟩ := set_child_preserves _ hslf hswf hsbal hcc
              ihh ihwf ihbal
            refine ⟨?_, h2, h3⟩
            rw [h1, hsh]
            simp
          next hcc =>
            exact ⟨by rw [hsh]; simp, hswf, hsbal⟩
        · rw [if_neg hfull]
          split
          next c hcc =>
            have hcmem : c ∈ cs := List.getElem?_mem hcc
            have hch2 : height c < fuel := by
              have := hhts c hcmem
              simp only [height_node] at hh
              omega
            obtain ⟨ihh, ihwf, ihbal⟩ := ih c k hch2 (hwfc c hcmem) (hbalc c hcmem)
            have hlf0 : leafOf (BNode.node ks cs false) = false := by simp
            obtain ⟨h1, h2, h3⟩ := set_child_preserves (BNode.node ks cs false)
              hlf0 hwf hbal (by simpa using hcc) ihh ihwf ihbal
            simp only [keysOf_node, childrenOf_node] at h1 h2 h3
            exact ⟨by simpa using h1, h2, h3⟩
          next hcc =>
            exact ⟨rfl, hwf, hbal⟩

/-- `insert_nonfull` preserves height, well-formedness and balance. -/
theorem insert_nonfull_preserves [Inhabited α] {t : Nat} (ht : 2 ≤ t)
    (x : BNode α) (k : Pr α) (hwf : WF t x) (hbal : Bal x) :
    height (insert_nonfull t x k) = height x ∧ WF t (insert_nonfull t x k) ∧
    Bal (insert_nonfull t x k) :=
  insertNF_preserves ht (height x + 1) x k (Nat.lt_succ_self _) hwf hbal


theorem heightL_singleton (r : BNode α) : heightL [r] = height r + 1 := by
  simp

/-- When the scan-selected child is not full, `insert_nonfull` keeps the
node's own keys and child count unchanged (it only rewrites one child). -/
theorem insertNF_keys_of_not_full [Inhabited α] {t : Nat} (fuel : Nat)
    (ks : List (Pr α)) (cs : List (BNode α)) (k : Pr α)
    (h : nK (getChild cs (posR k.1 ks)) ≠ 2*t - 1) :
    keysOf (insertNF t (fuel+1) (.node ks cs false) k) = ks ∧
    (childrenOf (insertNF t (fuel+1) (.node ks cs false) k)).length = cs.length := by
  simp only [insertNF]
  rw [if_neg h]
  split
  next c hcc =>
    simp
  next hcc =>
    simp

/-- The root split in `insert` produces the node
`[median | left half, right half]`. -/
theorem root_split_shape [Inhabited α] {t : Nat} (r : BNode α) :
    split_child t (.node ([] : List (Pr α)) [r] false) 0 =
      .node [getKeyP (keysOf r) (t-1)]
        [.node ((keysOf r).take (t-1)) ((childrenOf r).take t) (leafOf r),
         .node (((keysOf r).drop t).take (t-1)) (((childrenOf r).drop t).take t)
           (leafOf r)] false := by
  simp [split_child, getChild, List.insertIdx]

/-- C6: on a tree with a full root (`2t-1` keys), `insert` allocates a new
root which, after the root split and the completed insertion, holds exactly
one key and two children, and the height grows by exactly one; on a tree
whose root is not full the height is unchanged — so the root split is the
sole mechanism by which the height increases. -/
theorem insert_full_root_height [Inhabited α] (T : BTreeT α) (k : Pr α)
    (ht : 2 ≤ T.t) (hwf : WF T.t T.root) (hbal : Bal T.root) :
    (nK T.root = 2*T.t - 1 →
      height (insertT T k).root = height T.root + 1 ∧
      nK (insertT T k).root = 1 ∧
      (childrenOf (insertT T k).root).length = 2) ∧
    (nK T.root ≠ 2*T.t - 1 → height (insertT T k).root = height T.root) := by
  constructor
  · intro hfull
    have hfull' : nK (getChild [T.root] 0) = 2*T.t - 1 := by
      simpa [getChild] using hfull
    obtain ⟨hsh, hswf, hsbal⟩ := @split_child_preserves α _ T.t
      ([] : List (Pr α)) [T.root] 0
      ht (Nat.le_refl 0) (by simp) (by simp) hfull'
      (by intro c hc; simp at hc; subst hc; exact hwf)
      (by intro c hc; simp at hc; subst hc; exact hbal)
      (by intro c hc; simp at hc; subst hc; simp)
    have hnotfull : ∀ j, nK (getChild (childrenOf (split_child T.t
        (.node ([] : List (Pr α)) [T.root] false) 0)) j) ≠ 2*T.t - 1 := by
      intro j
      rw [root_split_shape]
      match j with
      | 0 =>
        simp only [childrenOf_node, getChild, List.getD_cons_zero, nK, keysOf_node]
        rw [List.length_take]
        omega
      | 1 =>
        simp only [childrenOf_node, getChild, List.getD_cons_succ, List.getD_cons_zero,
          nK, keysOf_node]
        rw [List.length_take]
        omega
      | (j+2) =>
        simp only [childrenOf_node, getChild, List.getD_cons_succ]
        simp [List.getD, dfltN, nK]
        omega
    have hslen : (childrenOf (split_child T.t
        (.node ([] : List (Pr α)) [T.root] false) 0)).length = 2 := by
      rw [root_split_shape]
      simp
    simp only [insertT]
    rw [if_pos hfull]
    simp only
    obtain ⟨hih, hiwf, hibal⟩ :=
      insert_nonfull_preserves ht (split_child T.t (.node [] [T.root] false) 0)
        k hswf hsbal
    refine ⟨?_, ?_, ?_⟩
    · rw [hih, hsh, heightL_singleton]
    · show nK (insert_nonfull T.t (split_child T.t (.node [] [T.root] false) 0) k) = 1
      rw [insert_nonfull]
      cases hshape : split_child T.t (.node ([] : List (Pr α)) [T.root] false) 0 with
      | node sks scs slf =>
        have h3 := hshape.symm.trans (root_split_shape (t := T.t) (r := T.root))
        injection h3 with hk hc hl
        have hsks : sks.length = 1 := by rw [hk]; rfl
        subst hl
        obtain ⟨h1, _⟩ := insertNF_keys_of_not_full
          (t := T.t) (height (BNode.node sks scs false)) sks scs k
          (by have := hnotfull (posR k.1 sks); rw [hshape] at this; simpa using this)
        simp only [nK, h1, hsks]
    · show (childrenOf (insert_nonfull T.t
        (split_child T.t (.node [] [T.root] false) 0) k)).length = 2
      rw [insert_nonfull]
      cases hshape : split_child T.t (.node ([] : List (Pr α)) [T.root] false) 0 with
      | node sks scs slf =>
        have h3 := hshape.symm.trans (root_split_shape (t := T.t) (r := T.root))
        injection h3 with hk hc hl
        have hscs : scs.length = 2 := by rw [hc]; rfl
        subst hl
        obtain ⟨_, h2⟩ := insertNF_keys_of_not_full
          (t := T.t) (height (BNode.node sks scs false)) sks scs k
          (by have := hnotfull (posR k.1 sks); rw [hshape] at this; simpa using this)
        rw [h2, hscs]
  · intro hfull
    simp only [insertT]
    rw [if_neg hfull]
    exact (insert_nonfull_preserves ht T.root k hwf hbal).1

/-- Witness for C6: `t = 2`, full leaf root `[(1,1),(2,2),(3,3)]`,
inserting key 4. -/
theorem insert_full_root_height_witness :
    height (insertT (⟨BNode.node [(1,1),(2,2),(3,3)] [] true, 2⟩ : BTreeT Int)
      (4, 4)).root =
      height (BNode.node [((1:Int),(1:Int)),(2,2),(3,3)] [] true) + 1 ∧
    nK (insertT (⟨BNode.node [(1,1),(2,2),(3,3)] [] true, 2⟩ : BTreeT Int)
      (4, 4)).root = 1 := by
  have h := insert_full_root_height
    (⟨BNode.node [(1,1),(2,2),(3,3)] [] true, 2⟩ : BTreeT Int) (4, 4)
    (by decide) (WF.leaf _) (Bal.mk _ _ _ (by simp) (by simp))
  obtain ⟨h1, h2, _⟩ := h.1 (by decide)
  exact ⟨h1, h2⟩


/-! ## Traversal lemmas -/

theorem travGo_congr {f g : BNode α → List (Pr α)} :
    ∀ (ks : List (Pr α)) (cs : List (BNode α)), (∀ c ∈ cs, f c = g c) →
      travGo f ks cs = travGo g ks cs := by
  intro ks
  induction ks with
  | nil =>
    intro cs h
    cases cs with
    | nil => rfl
    | cons c cs' => simpa [travGo] using h c (by simp)
  | cons p ks' ih =>
    intro cs h
    cases cs with
    | nil => simp [travGo, ih [] (by simp)]
    | cons c cs' =>
      simp only [travGo, List.head?_cons, Option.elim_some, List.tail_cons]
      rw [h c (by simp), ih cs' (fun d hd => h d (by simp [hd]))]

theorem travF_congr : ∀ (f1 f2 : Nat) (x : BNode α), height x < f1 → height x < f2 →
    travF f1 x = travF f2 x := by
  intro f1
  induction f1 with
  | zero => intro f2 x h; omega
  | succ f1 ih =>
    intro f2 x h1 h2
    cases f2 with
    | zero => omega
    | succ f2 =>
      cases x with
      | node ks cs lf =>
        simp only [travF]
        cases lf with
        | true => rfl
        | false =>
          simp only [Bool.false_eq_true, if_false]
          refine travGo_congr ks cs fun c hc => ?_
          have := height_lt_of_mem hc
          simp only [height_node] at h1 h2
          exact ih f2 c (by omega) (by omega)

/-- Traversal of a node with one child replaced: the surrounding entries do
not depend on the replaced child. -/
theorem travGo_set (f : BNode α → List (Pr α)) :
    ∀ (j : Nat) (ks : List (Pr α)) (cs : List (BNode α)), j < cs.length →
      cs.length = ks.length + 1 →
      ∃ L1 L2, (∀ c', travGo f ks (cs.set j c') = L1 ++ f c' ++ L2) ∧
        travGo f ks cs = L1 ++ f (cs.getD j dfltN) ++ L2 := by
  intro j
  induction j with
  | zero =>
    intro ks cs hj hcnt
    cases cs with
    | nil => simp at hj
    | cons c0 cs' =>
      cases ks with
      | nil =>
        have hcs : cs' = [] := by
          cases cs' with
          | nil => rfl
          | cons a b => simp at hcnt
        subst hcs
        exact ⟨[], [], fun c' => by simp [travGo], by simp [travGo]⟩
      | cons p ks' =>
        refine ⟨[], p :: travGo f ks' cs', fun c' => ?_, ?_⟩
        · simp [travGo]
        · simp [travGo]
  | succ j ih =>
    intro ks cs hj hcnt
    cases cs with
    | nil => simp at hj
    | cons c0 cs' =>
      cases ks with
      | nil =>
        cases cs' with
        | nil => simp at hj
        | cons a b => simp at hcnt
      | cons p ks' =>
        obtain ⟨L1, L2, hset, horig⟩ := ih ks' cs' (by simpa using hj)
          (by simpa using hcnt)
        refine ⟨f c0 ++ p :: L1, L2, fun c' => ?_, ?_⟩
        · simp only [List.set_cons_succ, travGo, List.head?_cons, Option.elim_some,
            List.tail_cons]
          rw [hset c']
          simp
        · simp only [travGo, List.head?_cons, Option.elim_some, List.tail_cons,
            List.getD_cons_succ]
          rw [horig]
          simp

/-- In-order traversal splits at key index `m`. -/
theorem travGo_split_at [Inhabited α] (f : BNode α → List (Pr α)) :
    ∀ (m : Nat) (ks : List (Pr α)) (cs : List (BNode α)), m < ks.length →
      cs.length = ks.length + 1 →
      travGo f ks cs =
        travGo f (ks.take m) (cs.take (m+1)) ++ ks.getD m default ::
          travGo f (ks.drop (m+1)) (cs.drop (m+1)) := by
  intro m
  induction m with
  | zero =>
    intro ks cs hm hcnt
    cases ks with
    | nil => simp at hm
    | cons p ks' =>
      cases cs with
      | nil => simp at hcnt
      | cons c0 cs' =>
        cases cs' with
        | nil => simp at hcnt
        | cons c1 cs'' =>
          simp [travGo]
  | succ m ih =>
    intro ks cs hm hcnt
    cases ks with
    | nil => simp at hm
    | cons p ks' =>
      cases cs with
      | nil => simp at hcnt
      | cons c0 cs' =>
        simp only [List.take_succ_cons, List.drop_succ_cons, List.getD_cons_succ]
        simp only [travGo, List.head?_cons, Option.elim_some, List.tail_cons]
        rw [ih ks' cs' (by simpa using hm) (by simpa using hcnt)]
        simp


theorem travF_internal (fuel : Nat) (ks : List (Pr α)) (cs : List (BNode α)) :
    travF (fuel+1) (.node ks cs false) = travGo (travF fuel) ks cs := by
  simp [travF]

theorem travF_leaf (fuel : Nat) (ks : List (Pr α)) (cs : List (BNode α)) :
    travF (fuel+1) (.node ks cs true) = ks := by
  simp [travF]

/-- Inserting the promoted median and the two halves of a split child into
the parent's key/child lists leaves the in-order traversal unchanged,
provided the child's own traversal splits accordingly. -/
theorem travGo_insert_split (f : BNode α → List (Pr α)) :
    ∀ (i : Nat) (ks : List (Pr α)) (cs : List (BNode α)) (med : Pr α)
      (y' z : BNode α), i < cs.length → cs.length = ks.length + 1 →
      f (cs.getD i dfltN) = f y' ++ med :: f z →
      travGo f (ks.insertIdx i med) ((cs.set i y').insertIdx (i+1) z) =
        travGo f ks cs := by
  intro i
  induction i with
  | zero =>
    intro ks cs med y' z hi hcnt hy
    cases cs with
    | nil => simp at hi
    | cons c0 cs' =>
      simp only [List.getD_cons_zero] at hy
      cases ks with
      | nil =>
        have hcs : cs' = [] := by
          cases cs' with
          | nil => rfl
          | cons a b => simp at hcnt
        subst hcs
        simp [travGo, List.insertIdx, hy]
      | cons p ks' =>
        simp only [List.insertIdx, List.set_cons_zero]
        simp only [travGo, List.head?_cons, Option.elim_some, List.tail_cons, hy]
        simp
  | succ i ih =>
    intro ks cs med y' z hi hcnt hy
    cases cs with
    | nil => simp at hi
    | cons c0 cs' =>
      cases ks with
      | nil =>
        cases cs' with
        | nil => simp at hi
        | cons a b => simp at hcnt
      | cons p ks' =>
        simp only [List.getD_cons_succ] at hy
        simp only [List.insertIdx_succ_cons, List.set_cons_succ]
        simp only [travGo, List.head?_cons, Option.elim_some, List.tail_cons]
        rw [ih ks' cs' med y' z (by simpa using hi) (by simpa using hcnt) hy]

/-- A full well-formed node's traversal splits as
`left half ++ median ++ right half`. -/
theorem travF_node_split [Inhabited α] {t : Nat} (ht : 2 ≤ t) (g : Nat)
    (y : BNode α) (hwf : WF t y) (hfull : nK y = 2*t - 1) (hg : height y < g) :
    travF g y =
      travF g (.node ((keysOf y).take (t-1)) ((childrenOf y).take t) (leafOf y)) ++
        getKeyP (keysOf y) (t-1) ::
      travF g (.node (((keysOf y).drop t).take (t-1))
        (((childrenOf y).drop t).take t) (leafOf y)) := by
  cases g with
  | zero => omega
  | succ g =>
    cases y with
    | node yks ycs ylf =>
      simp only [nK, keysOf_node] at hfull
      have hkt : t - 1 < yks.length := by omega
      have hmed : getKeyP yks (t-1) = yks[t-1] := by
        rw [getKeyP, List.getD_eq_getElem yks default hkt]
      have hdec : yks.drop (t-1) = yks[t-1] :: yks.drop t := by
        have h5 := List.drop_eq_getElem_cons hkt
        have ht1 : t - 1 + 1 = t := by omega
        rw [ht1] at h5
        exact h5
      have hdropfull : (yks.drop t).take (t-1) = yks.drop t :=
        List.take_of_length_le (by rw [List.length_drop]; omega)
      cases ylf with
      | true =>
        have hyc : ycs = [] := wf_leaf_inv hwf
        subst hyc
        simp only [keysOf_node, childrenOf_node, leafOf_node]
        rw [travF_leaf, travF_leaf, travF_leaf]
        rw [hdropfull, hmed]
        conv_lhs => rw [← List.take_append_drop (t-1) yks]
        rw [hdec]
      | false =>
        obtain ⟨hk1, hcnt, hwfc⟩ := wf_internal_inv hwf
        have hycs : ycs.length = 2*t := by omega
        simp only [keysOf_node, childrenOf_node, leafOf_node]
        rw [travF_internal, travF_internal, travF_internal]
        have hsplit := travGo_split_at (travF g) (t-1) yks ycs (by omega) (by omega)
        rw [hdropfull]
        have htm : t - 1 + 1 = t := by omega
        rw [htm] at hsplit
        rw [hsplit, hmed, List.getD_eq_getElem yks default hkt]
        have hc2 : (ycs.drop t).take t = ycs.drop t :=
          List.take_of_length_le (by rw [List.length_drop]; omega)
        rw [hc2]

/-- `split_child` leaves the in-order traversal unchanged. -/
theorem travF_split_child [Inhabited α] {t : Nat} (ht : 2 ≤ t) (fuel : Nat)
    (ks : List (Pr α)) (cs : List (BNode α)) (i : Nat)
    (hh : height (BNode.node ks cs false) < fuel)
    (hi : i < cs.length) (hcnt : cs.length = ks.length + 1)
    (hwfy : WF t (cs.getD i dfltN)) (hfull : nK (cs.getD i dfltN) = 2*t - 1) :
    travF fuel (split_child t (.node ks cs false) i) =
      travF fuel (.node ks cs false) := by
  cases fuel with
  | zero => omega
  | succ g =>
    have hgy : height (cs.getD i dfltN) < g := by
      have hm : cs.getD i dfltN ∈ cs := by
        rw [List.getD_eq_getElem cs dfltN hi]
        exact List.getElem_mem hi
      have := height_lt_of_mem hm
      simp only [height_node] at hh
      omega
    have hkey := travF_node_split ht g (cs.getD i dfltN) hwfy hfull hgy
    have hins := travGo_insert_split (travF g) i ks cs
      (getKeyP (keysOf (cs.getD i dfltN)) (t-1))
      (.node ((keysOf (cs.getD i dfltN)).take (t-1))
        ((childrenOf (cs.getD i dfltN)).take t) (leafOf (cs.getD i dfltN)))
      (.node (((keysOf (cs.getD i dfltN)).drop t).take (t-1))
        (((childrenOf (cs.getD i dfltN)).drop t).take t) (leafOf (cs.getD i dfltN)))
      hi hcnt hkey
    have e1 : split_child t (.node ks cs false) i =
        BNode.node (ks.insertIdx i (getKeyP (keysOf (cs.getD i dfltN)) (t-1)))
          ((cs.set i (BNode.node ((keysOf (cs.getD i dfltN)).take (t-1))
              ((childrenOf (cs.getD i dfltN)).take t) (leafOf (cs.getD i dfltN)))).insertIdx
            (i+1)
            (BNode.node (((keysOf (cs.getD i dfltN)).drop t).take (t-1))
              (((childrenOf (cs.getD i dfltN)).drop t).take t)
              (leafOf (cs.getD i dfltN)))) false := by
      simp [split_child, getChild]
    rw [e1, travF_internal, travF_internal]
    exact hins


/-! ## Insertion adds exactly the inserted entry (multiset view) -/

/-- `insert_nonfull` (with sufficient fuel) changes the in-order entry
sequence by exactly adding the inserted entry, up to permutation. -/
theorem travF_insertNF_perm [Inhabited α] {t : Nat} (ht : 2 ≤ t) :
    ∀ (fuel : Nat) (x : BNode α) (k : Pr α), height x < fuel → WF t x → Bal x →
      travF fuel (insertNF t fuel x k) ~ k :: travF fuel x := by
  intro fuel
  induction fuel with
  | zero => intro x k h; omega
  | succ fuel ih =>
    intro x k hh hwf hbal
    cases x with
    | node ks cs lf =>
      cases lf with
      | true =>
        have hcs : cs = [] := wf_leaf_inv hwf
        subst hcs
        simp only [insertNF, travF_leaf]
        calc ks.take (posR k.1 ks) ++ k :: ks.drop (posR k.1 ks)
            ~ k :: (ks.take (posR k.1 ks) ++ ks.drop (posR k.1 ks)) :=
              List.perm_middle
          _ = k :: ks := by rw [List.take_append_drop]
      | false =>
        obtain ⟨hk1, hcnt, hwfc⟩ := wf_internal_inv hwf
        obtain ⟨hbalc, hhts⟩ := bal_children hbal
        have hile : posR k.1 ks ≤ ks.length := Nat.sub_le _ _
        simp only [insertNF]
        by_cases hfull : nK (getChild cs (posR k.1 ks)) = 2*t - 1
        · rw [if_pos hfull]
          have hi : posR k.1 ks < cs.length := by omega
          obtain ⟨hsh, hswf, hsbal⟩ :=
            split_child_preserves ht hile hi hcnt hfull hwfc hbalc hhts
          have hslf : leafOf (split_child t (.node ks cs false) (posR k.1 ks)) =
              false := by simp [split_child]
          have hgd : cs.getD (posR k.1 ks) dfltN = getChild cs (posR k.1 ks) := rfl
          have htsp : travF (fuel+1) (split_child t (.node ks cs false)
              (posR k.1 ks)) = travF (fuel+1) (.node ks cs false) :=
            travF_split_child ht (fuel+1) ks cs (posR k.1 ks) hh hi hcnt
              (by rw [hgd]
                  have hm : getChild cs (posR k.1 ks) ∈ cs := by
                    rw [getChild, List.getD_eq_getElem cs dfltN hi]
                    exact List.getElem_mem hi
                  exact hwfc _ hm)
              (by rw [hgd]; exact hfull)
          obtain ⟨hswk, hswc, hswfc⟩ := wf_internal_of _ hswf hslf
          obtain ⟨hsbc, hshs⟩ := bal_children_of _ hsbal
          split
          next c hcc =>
            have hjlt : (if (getKeyP (keysOf (split_child t (.node ks cs false)
                (posR k.1 ks))) (posR k.1 ks)).1 < k.1
                then posR k.1 ks + 1 else posR k.1 ks) <
                (childrenOf (split_child t (.node ks cs false)
                  (posR k.1 ks))).length :=
              (List.getElem?_eq_some_iff.mp hcc).1
            have hcmem : c ∈ childrenOf (split_child t (.node ks cs false)
                (posR k.1 ks)) := List.getElem?_mem hcc
            have hch : height c < fuel := by
              have h1 := hshs c hcmem
              have h2 := height_eq_heightL_children
                (split_child t (.node ks cs false) (posR k.1 ks))
              simp only [height_node] at hsh hh
              omega
            have hperm := ih c k hch (hswfc c hcmem) (hsbc c hcmem)
            obtain ⟨L1, L2, hset, horig⟩ := travGo_set (travF fuel) _
              (keysOf (split_child t (.node ks cs false) (posR k.1 ks)))
              (childrenOf (split_child t (.node ks cs false) (posR k.1 ks)))
              hjlt (by rw [hswc])
            have hcget : (childrenOf (split_child t (.node ks cs false)
                (posR k.1 ks))).getD (if (getKeyP (keysOf (split_child t
                  (.node ks cs false) (posR k.1 ks))) (posR k.1 ks)).1 < k.1
                then posR k.1 ks + 1 else posR k.1 ks) dfltN = c := by
              rw [List.getD_eq_getElem _ dfltN hjlt]
              exact (List.getElem?_eq_some_iff.mp hcc).2
            rw [hcget] at horig
            calc travF (fuel+1) (.node (keysOf (split_child t (.node ks cs false)
                  (posR k.1 ks)))
                  ((childrenOf (split_child t (.node ks cs false)
                    (posR k.1 ks))).set
                    (if (getKeyP (keysOf (split_child t (.node ks cs false)
                      (posR k.1 ks))) (posR k.1 ks)).1 < k.1
                    then posR k.1 ks + 1 else posR k.1 ks)
                    (insertNF t fuel c k)) false)
                = L1 ++ travF fuel (insertNF t fuel c k) ++ L2 := by
                  rw [travF_internal]
                  exact hset _
              _ = L1 ++ (travF fuel (insertNF t fuel c k) ++ L2) := by simp
              _ ~ L1 ++ ((k :: travF fuel c) ++ L2) :=
                  List.Perm.append_left L1 (hperm.append_right L2)
              _ = L1 ++ k :: (travF fuel c ++ L2) := by simp
              _ ~ k :: (L1 ++ (travF fuel c ++ L2)) := List.perm_middle
              _ = k :: (L1 ++ travF fuel c ++ L2) := by simp
              _ = k :: travF (fuel+1) (split_child t (.node ks cs false)
                    (posR k.1 ks)) := by
                  have e2 : travF (fuel+1) (split_child t (.node ks cs false)
                      (posR k.1 ks)) = travGo (travF fuel)
                        (keysOf (split_child t (.node ks cs false) (posR k.1 ks)))
                        (childrenOf (split_child t (.node ks cs false)
                          (posR k.1 ks))) := by
                    cases hsp : split_child t (.node ks cs false) (posR k.1 ks) with
                    | node a b l =>
                      have : l = false := by
                        have := congrArg leafOf hsp
                        simp only [leafOf_node] at this
                        rw [← this, hslf]
                      subst this
                      rw [travF_internal]
                      simp
                  rw [e2, horig]
              _ = k :: travF (fuel+1) (.node ks cs false) := by rw [htsp]
          next hcc =>
            exfalso
            have hnone := List.getElem?_eq_none_iff.mp hcc
            have : (childrenOf (split_child t (.node ks cs false)
                (posR k.1 ks))).length = cs.length + 1 := by
              rw [hswc]
              have : (keysOf (split_child t (.node ks cs false)
                  (posR k.1 ks))).length = ks.length + 1 := by
                simp only [split_child, keysOf_node]
                exact List.length_insertIdx _ _ hile
              omega
            rw [this] at hnone
            split at hnone <;> omega
        · rw [if_neg hfull]
          split
          next c hcc =>
            have hjlt : posR k.1 ks < cs.length :=
              (List.getElem?_eq_some_iff.mp hcc).1
            have hcmem : c ∈ cs := List.getElem?_mem hcc
            have hch : height c < fuel := by
              have := hhts c hcmem
              simp only [height_node] at hh
              omega
            have hperm := ih c k hch (hwfc c hcmem) (hbalc c hcmem)
            obtain ⟨L1, L2, hset, horig⟩ := travGo_set (travF fuel) _ ks cs
              hjlt hcnt
            have hcget : cs.getD (posR k.1 ks) dfltN = c := by
              rw [List.getD_eq_getElem _ dfltN hjlt]
              exact (List.getElem?_eq_some_iff.mp hcc).2
            rw [hcget] at horig
            calc travF (fuel+1) (.node ks (cs.set (posR k.1 ks)
                  (insertNF t fuel c k)) false)
                = L1 ++ travF fuel (insertNF t fuel c k) ++ L2 := by
                  rw [travF_internal]
                  exact hset _
              _ = L1 ++ (travF fuel (insertNF t fuel c k) ++ L2) := by simp
              _ ~ L1 ++ ((k :: travF fuel c) ++ L2) :=
                  List.Perm.append_left L1 (hperm.append_right L2)
              _ = L1 ++ k :: (travF fuel c ++ L2) := by simp
              _ ~ k :: (L1 ++ (travF fuel c ++ L2)) := List.perm_middle
              _ = k :: (L1 ++ travF fuel c ++ L2) := by simp
              _ = k :: travF (fuel+1) (.node ks cs false) := by
                  rw [travF_internal, horig]
          next hcc =>
            exfalso
            have hnone := List.getElem?_eq_none_iff.mp hcc
            omega

/-- Top-level `insert` adds exactly the inserted entry to the in-order
entry sequence, up to permutation. -/
theorem traverseP_insertT_perm [Inhabited α] (T : BTreeT α) (k : Pr α)
    (ht : 2 ≤ T.t) (hwf : WF T.t T.root) (hbal : Bal T.root) :
    traverseP (insertT T k).root ~ k :: traverseP T.root := by
  simp only [insertT]
  by_cases hfull : nK T.root = 2*T.t - 1
  · rw [if_pos hfull]
    simp only
    have hfull' : nK (getChild [T.root] 0) = 2*T.t - 1 := by
      simpa [getChild] using hfull
    obtain ⟨hsh, hswf, hsbal⟩ := @split_child_preserves α _ T.t
      ([] : List (Pr α)) [T.root] 0
      ht (Nat.le_refl 0) (by simp) (by simp) hfull'
      (by intro c hc; simp at hc; subst hc; exact hwf)
      (by intro c hc; simp at hc; subst hc; exact hbal)
      (by intro c hc; simp at hc; subst hc; simp)
    have hsh2 : height (split_child T.t (.node [] [T.root] false) 0) =
        height T.root + 1 := by rw [hsh, heightL_singleton]
    -- common fuel
    have hpre := insert_nonfull_preserves ht
      (split_child T.t (.node [] [T.root] false) 0) k hswf hsbal
    have h1 : traverseP (insert_nonfull T.t
        (split_child T.t (.node [] [T.root] false) 0) k) =
        travF (height T.root + 2) (insert_nonfull T.t
          (split_child T.t (.node [] [T.root] false) 0) k) := by
      rw [traverseP]
      exact travF_congr _ _ _ (Nat.lt_succ_self _) (by rw [hpre.1, hsh2]; omega)
    rw [h1, insert_nonfull]
    have h2 : travF (height (split_child T.t (.node [] [T.root] false) 0) + 1)
        (insertNF T.t (height (split_child T.t (.node [] [T.root] false) 0) + 1)
          (split_child T.t (.node [] [T.root] false) 0) k) ~
        k :: travF (height (split_child T.t (.node [] [T.root] false) 0) + 1)
          (split_child T.t (.node [] [T.root] false) 0) :=
      travF_insertNF_perm ht _ _ k (Nat.lt_succ_self _) hswf hsbal
    have h3 : travF (height T.root + 2) (insertNF T.t
        (height (split_child T.t (.node [] [T.root] false) 0) + 1)
          (split_child T.t (.node [] [T.root] false) 0) k) =
        travF (height (split_child T.t (.node [] [T.root] false) 0) + 1)
          (insertNF T.t (height (split_child T.t (.node [] [T.root] false) 0) + 1)
            (split_child T.t (.node [] [T.root] false) 0) k) := by
      refine travF_congr _ _ _ ?_ ?_
      · have h4 := insertNF_preserves ht
          (height (split_child T.t (.node [] [T.root] false) 0) + 1)
          (split_child T.t (.node [] [T.root] false) 0) k
          (Nat.lt_succ_self _) hswf hsbal
        rw [h4.1, hsh2]
        omega
      · have h4 := insertNF_preserves ht
          (height (split_child T.t (.node [] [T.root] false) 0) + 1)
          (split_child T.t (.node [] [T.root] false) 0) k
          (Nat.lt_succ_self _) hswf hsbal
        rw [h4.1]
        omega
    rw [h3]
    refine h2.trans (List.Perm.cons k ?_)
    -- traversal of the split root equals the old root's traversal
    have h5 : travF (height (split_child T.t (.node [] [T.root] false) 0) + 1)
        (split_child T.t (.node [] [T.root] false) 0) =
        travF (height (split_child T.t (.node [] [T.root] false) 0) + 1)
          (.node [] [T.root] false) :=
      travF_split_child ht _ [] [T.root] 0 (by rw [hsh2]; simp)
        (by simp) (by simp) (by simpa [getChild] using hwf)
        (by simpa [getChild] using hfull)
    rw [h5, hsh2]
    have h6 : travF (height T.root + 1 + 1) (.node ([] : List (Pr α)) [T.root] false) =
        travF (height T.root + 1) T.root := by
      rw [travF_internal]
      rfl
    rw [h6]
    rfl
  · rw [if_neg hfull]
    simp only
    have hpre := insert_nonfull_preserves ht T.root k hwf hbal
    have h1 : traverseP (insert_nonfull T.t T.root k) =
        travF (height T.root + 1) (insert_nonfull T.t T.root k) := by
      rw [traverseP]
      exact travF_congr _ _ _ (Nat.lt_succ_self _) (by rw [hpre.1]; omega)
    rw [h1, insert_nonfull]
    exact travF_insertNF_perm ht _ _ k (Nat.lt_succ_self _) hwf hbal

/-- C9: inserting a key already present in a well-formed balanced tree is
neither rejected nor an overwrite: the number of stored entries grows by
exactly one, the count of that key in the in-order key sequence grows by
one, and afterwards the traversal yields the key at least twice. -/
theorem insert_duplicate_key_kept [Inhabited α] (T : BTreeT α) (k : Pr α)
    (ht : 2 ≤ T.t) (hwf : WF T.t T.root) (hbal : Bal T.root)
    (hdup : k.1 ∈ dbg_traverse T.root) :
    (dbg_traverse (insertT T k).root).length = (dbg_traverse T.root).length + 1 ∧
    (dbg_traverse (insertT T k).root).count k.1 =
      (dbg_traverse T.root).count k.1 + 1 ∧
    2 ≤ (dbg_traverse (insertT T k).root).count k.1 := by
  have hperm := (traverseP_insertT_perm T k ht hwf hbal).map Prod.fst
  rw [← dbg_traverse] at hperm
  simp only [List.map_cons] at hperm
  rw [← dbg_traverse] at hperm
  have hlen := hperm.length_eq
  have hcnt := hperm.count_eq k.1
  simp only [List.length_cons, List.count_cons_self] at hlen hcnt
  have hmem : 1 ≤ (dbg_traverse T.root).count k.1 := List.one_le_count_iff.mpr hdup
  exact ⟨hlen, hcnt, by omega⟩

/-- Witness for C9: `t = 2`, tree holding keys 1,2, inserting key 2 again
(with a different value). -/
theorem insert_duplicate_key_kept_witness :
    (dbg_traverse (insertT (⟨BNode.node [(1,1),(2,2)] [] true, 2⟩ : BTreeT Int)
      (2, 7)).root).length = 3 ∧
    2 ≤ (dbg_traverse (insertT (⟨BNode.node [(1,1),(2,2)] [] true, 2⟩ : BTreeT Int)
      (2, 7)).root).count 2 := by
  have h := insert_duplicate_key_kept
    (⟨BNode.node [(1,1),(2,2)] [] true, 2⟩ : BTreeT Int) (2, 7)
    (by decide) (WF.leaf _) (Bal.mk _ _ _ (by simp) (by simp)) (by decide)
  exact ⟨h.1, h.2.2⟩


/-! ## The right-to-left scan: characterisation on sorted keys -/

theorem posR_append (k : Int) (l : List (Pr α)) (p : Pr α) :
    posR k (l ++ [p]) = if k < p.1 then posR k l else l.length + 1 := by
  have hle : (l.reverse.takeWhile (fun q : Pr α => decide (k < q.1))).length ≤
      l.length := by
    have := (List.takeWhile_sublist (l := l.reverse)
      (fun q : Pr α => decide (k < q.1))).length_le
    simpa using this
  by_cases h : k < p.1
  · rw [if_pos h]
    simp only [posR, List.reverse_append, List.reverse_cons, List.reverse_nil,
      List.nil_append, List.singleton_append, List.takeWhile_cons, decide_eq_true h,
      if_true, List.length_append, List.length_cons, List.length_nil]
    omega
  · rw [if_neg h]
    have hd : (decide (k < p.1)) = false := decide_eq_false h
    simp only [posR, List.reverse_append, List.reverse_cons, List.reverse_nil,
      List.nil_append, List.singleton_append, List.takeWhile_cons, hd,
      Bool.false_eq_true, if_false, List.length_append, List.length_cons,
      List.length_nil]
    omega

theorem posR_le_length (k : Int) (ks : List (Pr α)) : posR k ks ≤ ks.length :=
  Nat.sub_le _ _

/-- Every key at or beyond the scan position is greater than `k`. -/
theorem posR_suffix (k : Int) (ks : List (Pr α)) :
    ∀ p ∈ ks.drop (posR k ks), k < p.1 := by
  induction ks using List.reverseRecOn with
  | nil => simp [posR]
  | append_singleton l q ih =>
    rw [posR_append]
    by_cases h : k < q.1
    · rw [if_pos h]
      intro p hp
      rw [List.drop_append_of_le_length (posR_le_length k l)] at hp
      rcases List.mem_append.mp hp with h1 | h2
      · exact ih p h1
      · simp at h2
        subst h2
        exact h
    · rw [if_neg h]
      intro p hp
      rw [List.drop_eq_nil_of_le (by simp)] at hp
      cases hp

/-- On a strictly sorted key list containing no key equal to `k`, every key
before the scan position is less than `k`. -/
theorem posR_prefix_lt (k : Int) (ks : List (Pr α))
    (hs : ks.Pairwise (@ltP α)) (hf : ∀ p ∈ ks, p.1 ≠ k) :
    ∀ p ∈ ks.take (posR k ks), p.1 < k := by
  induction ks using List.reverseRecOn with
  | nil => simp [posR]
  | append_singleton l q ih =>
    rw [posR_append]
    have hql : q.1 ≠ k := hf q (by simp)
    by_cases h : k < q.1
    · rw [if_pos h]
      intro p hp
      rw [List.take_append_of_le_length (posR_le_length k l)] at hp
      exact ih (List.pairwise_append.mp hs).1 (fun p hp => hf p (by simp [hp])) p hp
    · rw [if_neg h]
      have hq : q.1 < k := by omega
      intro p hp
      rw [List.take_of_length_le (by simp)] at hp
      rcases List.mem_append.mp hp with h1 | h2
      · have := (List.pairwise_append.mp hs).2.2 p h1 q (by simp)
        simp only [ltP] at this
        omega
      · simp at h2
        subst h2
        exact hq

/-- A node's own keys form a subsequence of its in-order traversal. -/
theorem keys_sublist_travGo (f : BNode α → List (Pr α)) :
    ∀ (ks : List (Pr α)) (cs : List (BNode α)), ks <+ travGo f ks cs := by
  intro ks
  induction ks with
  | nil => intro cs; simp
  | cons p ks' ih =>
    intro cs
    show p :: ks' <+ (cs.head?.elim [] f) ++ p :: travGo f ks' cs.tail
    have h1 : p :: ks' <+ p :: travGo f ks' cs.tail := (ih cs.tail).cons₂ p
    exact h1.trans (List.sublist_append_right _ _)

/-- `orderedInsert` passes over a prefix of smaller entries and stops before
a larger entry. -/
theorem orderedInsert_decomp (k : Pr α) :
    ∀ (pre seg post : List (Pr α)), (∀ e ∈ pre, e.1 < k.1) →
      (post = [] ∨ ∃ e post', post = e :: post' ∧ k.1 < e.1) →
      List.orderedInsert ltP k (pre ++ seg ++ post) =
        pre ++ List.orderedInsert ltP k seg ++ post := by
  intro pre
  induction pre with
  | nil =>
    intro seg post hpre hpost
    simp only [List.nil_append]
    induction seg with
    | nil =>
      rcases hpost with h1 | ⟨e, post', he, hlt⟩
      · subst h1; rfl
      · subst he
        simp [List.orderedInsert, ltP, hlt]
    | cons s seg' ihs =>
      by_cases hks : ltP k s
      · simp [List.orderedInsert, hks]
      · simp only [List.cons_append, List.orderedInsert, if_neg hks, List.append_eq]
        rw [ihs]
  | cons a pre' ih =>
    intro seg post hpre hpost
    have ha : a.1 < k.1 := hpre a (by simp)
    have hka : ¬ ltP k a := by simp only [ltP]; omega
    simp only [List.cons_append, List.orderedInsert, if_neg hka, List.append_eq]
    rw [ih seg post (fun e he => hpre e (by simp [he])) hpost]

/-- Inserting a fresh entry into a strictly sorted entry list with
`orderedInsert` keeps it strictly sorted. -/
theorem pairwise_orderedInsert (k : Pr α) :
    ∀ (l : List (Pr α)), l.Pairwise (@ltP α) → (∀ p ∈ l, p.1 ≠ k.1) →
      (List.orderedInsert ltP k l).Pairwise (@ltP α) := by
  intro l
  induction l with
  | nil => intro _ _; simp
  | cons a l' ih =>
    intro hs hf
    rcases List.pairwise_cons.mp hs with ⟨ha, hl'⟩
    by_cases hka : ltP k a
    · simp only [List.orderedInsert, if_pos hka]
      refine List.pairwise_cons.mpr ⟨?_, hs⟩
      intro b hb
      rcases List.mem_cons.mp hb with h1 | h2
      · subst h1; exact hka
      · have := ha b h2
        simp only [ltP] at *
        omega
    · simp only [List.orderedInsert, if_neg hka]
      refine List.pairwise_cons.mpr ⟨?_, ih hl' (fun p hp => hf p (by simp [hp]))⟩
      intro b hb
      have hbmem := (List.perm_orderedInsert ltP k l').mem_iff.mp hb
      rcases List.mem_cons.mp hbmem with h1 | h2
      · rw [h1]
        have hak : a.1 ≠ k.1 := hf a (by simp)
        simp only [ltP] at *
        omega
      · exact ha b h2


/-- `travGo_set` with the boundary structure of the surrounding lists: the
prefix ends with key `j-1` (when `j > 0`) and the suffix starts with key
`j` (when `j < n`). -/
theorem travGo_set_bounds [Inhabited α] (f : BNode α → List (Pr α)) :
    ∀ (j : Nat) (ks : List (Pr α)) (cs : List (BNode α)), j < cs.length →
      cs.length = ks.length + 1 →
      ∃ L1 L2, (∀ c', travGo f ks (cs.set j c') = L1 ++ f c' ++ L2) ∧
        travGo f ks cs = L1 ++ f (cs.getD j dfltN) ++ L2 ∧
        (j = 0 → L1 = []) ∧
        (0 < j → ∃ L1p, L1 = L1p ++ [ks.getD (j-1) default]) ∧
        (j = ks.length → L2 = []) ∧
        (j < ks.length → ∃ L2p, L2 = ks.getD j default :: L2p) := by
  intro j
  induction j with
  | zero =>
    intro ks cs hj hcnt
    cases cs with
    | nil => simp at hj
    | cons c0 cs' =>
      cases ks with
      | nil =>
        have hcs : cs' = [] := by
          cases cs' with
          | nil => rfl
          | cons a b => simp at hcnt
        subst hcs
        exact ⟨[], [], fun c' => by simp [travGo], by simp [travGo],
          fun _ => rfl, by intro h; simp at h, fun _ => rfl, by intro h; simp at h⟩
      | cons p ks' =>
        refine ⟨[], p :: travGo f ks' cs', fun c' => by simp [travGo],
          by simp [travGo], fun _ => rfl, by intro h; simp at h, by simp, ?_⟩
        intro _
        exact ⟨travGo f ks' cs', by simp⟩
  | succ j ih =>
    intro ks cs hj hcnt
    cases cs with
    | nil => simp at hj
    | cons c0 cs' =>
      cases ks with
      | nil =>
        cases cs' with
        | nil => simp at hj
        | cons a b => simp at hcnt
      | cons p ks' =>
        obtain ⟨L1, L2, hset, horig, hz, hpos, hend, hmid⟩ := ih ks' cs'
          (by simpa using hj) (by simpa using hcnt)
        refine ⟨f c0 ++ p :: L1, L2, fun c' => ?_, ?_, by omega, ?_, ?_, ?_⟩
        · simp only [List.set_cons_succ, travGo, List.head?_cons, Option.elim_some,
            List.tail_cons]
          rw [hset c']
          simp
        · simp only [travGo, List.head?_cons, Option.elim_some, List.tail_cons,
            List.getD_cons_succ]
          rw [horig]
          simp
        · intro _
          cases j with
          | zero =>
            rw [hz rfl]
            exact ⟨f c0, by simp⟩
          | succ jj =>
            obtain ⟨L1p, hL1p⟩ := hpos (by omega)
            refine ⟨f c0 ++ p :: L1p, ?_⟩
            rw [hL1p]
            simp
        · intro he
          exact hend (by simpa using he)
        · intro hlt
          obtain ⟨L2p, hL2p⟩ := hmid (by simpa using hlt)
          exact ⟨L2p, by simpa using hL2p⟩


/-- Packaging of `orderedInsert_decomp` for a traversal decomposed by
`travGo_set_bounds`: if the key left of the chosen segment is `< k` and the
key right of it is `> k`, insertion goes into that segment. -/
theorem oi_through_bounds [Inhabited α] (k : Pr α) {L1 L2 seg KS : List (Pr α)}
    {j : Nat}
    (hsort : (L1 ++ seg ++ L2).Pairwise (@ltP α))
    (hz : j = 0 → L1 = [])
    (hpos : 0 < j → ∃ L1p, L1 = L1p ++ [KS.getD (j-1) default])
    (hend : j = KS.length → L2 = [])
    (hmid : j < KS.length → ∃ L2p, L2 = KS.getD j default :: L2p)
    (hj : j ≤ KS.length)
    (hb : 0 < j → (KS.getD (j-1) default).1 < k.1)
    (hh : j < KS.length → k.1 < (KS.getD j default).1) :
    List.orderedInsert ltP k (L1 ++ seg ++ L2) =
      L1 ++ List.orderedInsert ltP k seg ++ L2 := by
  refine orderedInsert_decomp k L1 seg L2 ?_ ?_
  · intro e he
    rcases Nat.eq_zero_or_pos j with h0 | h0
    · rw [hz h0] at he
      cases he
    · obtain ⟨L1p, hL1⟩ := hpos h0
      have hbk := hb h0
      have hL1sort : L1.Pairwise (@ltP α) := by
        refine List.Pairwise.sublist ?_ hsort
        exact (List.sublist_append_left L1 seg).trans (List.sublist_append_left _ L2)
      rw [hL1] at he hL1sort
      rcases List.mem_append.mp he with h1 | h2
      · have h3 := (List.pairwise_append.mp hL1sort).2.2 e h1
          (KS.getD (j-1) default) (List.mem_singleton_self _)
        simp only [ltP] at h3
        omega
      · rw [List.mem_singleton.mp h2]
        exact hbk
  · rcases Nat.lt_or_ge j KS.length with hlt | hge
    · obtain ⟨L2p, hL2⟩ := hmid hlt
      exact Or.inr ⟨_, L2p, hL2, hh hlt⟩
    · exact Or.inl (hend (by omega))

/-- `insert_nonfull` (with sufficient fuel) on a well-formed balanced tree
whose traversal is strictly sorted and does not contain the inserted key
produces exactly the ordered insertion into the traversal. -/
theorem travF_insertNF_sorted [Inhabited α] {t : Nat} (ht : 2 ≤ t) :
    ∀ (fuel : Nat) (x : BNode α) (k : Pr α), height x < fuel → WF t x → Bal x →
      (travF fuel x).Pairwise (@ltP α) → (∀ p ∈ travF fuel x, p.1 ≠ k.1) →
      travF fuel (insertNF t fuel x k) =
        List.orderedInsert ltP k (travF fuel x) := by
  intro fuel
  induction fuel with
  | zero => intro x k h; omega
  | succ fuel ih =>
    intro x k hh hwf hbal hsort hfresh
    cases x with
    | node ks cs lf =>
      cases lf with
      | true =>
        have hcs : cs = [] := wf_leaf_inv hwf
        subst hcs
        rw [travF_leaf] at hsort hfresh
        simp only [insertNF, travF_leaf]
        have hdecomp :
            List.orderedInsert ltP k (ks.take (posR k.1 ks) ++ [] ++
              ks.drop (posR k.1 ks)) =
            ks.take (posR k.1 ks) ++ List.orderedInsert ltP k [] ++
              ks.drop (posR k.1 ks) := by
          refine orderedInsert_decomp k _ _ _ ?_ ?_
          · intro e he
            exact posR_prefix_lt k.1 ks hsort (fun p hp => hfresh p hp) e he
          · cases hdrop : ks.drop (posR k.1 ks) with
            | nil => exact Or.inl rfl
            | cons e l =>
              refine Or.inr ⟨e, l, rfl, ?_⟩
              refine posR_suffix k.1 ks e ?_
              rw [hdrop]
              simp
        rw [List.append_nil, List.take_append_drop] at hdecomp
        rw [hdecomp]
        simp [List.orderedInsert]
      | false =>
        obtain ⟨hk1, hcnt, hwfc⟩ := wf_internal_inv hwf
        obtain ⟨hbalc, hhts⟩ := bal_children hbal
        have hile : posR k.1 ks ≤ ks.length := Nat.sub_le _ _
        have htks : travF (fuel+1) (.node ks cs false) =
            travGo (travF fuel) ks cs := travF_internal _ _ _
        have hkssub : ks <+ travGo (travF fuel) ks cs :=
          keys_sublist_travGo (travF fuel) ks cs
        have hksort : ks.Pairwise (@ltP α) := by
          refine List.Pairwise.sublist hkssub ?_
          rw [← htks]
          exact hsort
        have hksfresh : ∀ p ∈ ks, p.1 ≠ k.1 := by
          intro p hp
          refine hfresh p ?_
          rw [htks]
          exact hkssub.mem hp
        simp only [insertNF]
        by_cases hfull : nK (getChild cs (posR k.1 ks)) = 2*t - 1
        · rw [if_pos hfull]
          have hi : posR k.1 ks < cs.length := by omega
          obtain ⟨hsh, hswf, hsbal⟩ :=
            split_child_preserves ht hile hi hcnt hfull hwfc hbalc hhts
          have hslf : leafOf (split_child t (.node ks cs false) (posR k.1 ks)) =
              false := by simp [split_child]
          have hgd : cs.getD (posR k.1 ks) dfltN = getChild cs (posR k.1 ks) := rfl
          have htsp : travF (fuel+1) (split_child t (.node ks cs false)
              (posR k.1 ks)) = travF (fuel+1) (.node ks cs false) :=
            travF_split_child ht (fuel+1) ks cs (posR k.1 ks) hh hi hcnt
              (by rw [hgd]
                  have hm : getChild cs (posR k.1 ks) ∈ cs := by
                    rw [getChild, List.getD_eq_getElem cs dfltN hi]
                    exact List.getElem_mem hi
                  exact hwfc _ hm)
              (by rw [hgd]; exact hfull)
          obtain ⟨hswk, hswc, hswfc⟩ := wf_internal_of _ hswf hslf
          obtain ⟨hsbc, hshs⟩ := bal_children_of _ hsbal
          -- keys of the split node
          have hkeq : keysOf (split_child t (.node ks cs false) (posR k.1 ks)) =
              ks.insertIdx (posR k.1 ks)
                (getKeyP (keysOf (getChild cs (posR k.1 ks))) (t-1)) := by
            simp [split_child]
          have hkslen : (keysOf (split_child t (.node ks cs false)
              (posR k.1 ks))).length = ks.length + 1 := by
            rw [hkeq]
            exact List.length_insertIdx _ _ hile
          have hmedsplit : getKeyP (keysOf (split_child t (.node ks cs false)
              (posR k.1 ks))) (posR k.1 ks) =
              getKeyP (keysOf (getChild cs (posR k.1 ks))) (t-1) := by
            rw [hkeq, getKeyP, List.getD_eq_getElem _ default (by
              rw [List.length_insertIdx _ _ hile]; omega)]
            rw [List.getElem_insertIdx_self _ _ _ hile]
          -- the split node's traversal, sortedness, freshness
          have hsorted2 : (travF (fuel+1) (split_child t (.node ks cs false)
              (posR k.1 ks))).Pairwise (@ltP α) := by
            rw [htsp, htks]
            rw [← htks]
            exact hsort
          have hfresh2 : ∀ p ∈ travF (fuel+1) (split_child t (.node ks cs false)
              (posR k.1 ks)), p.1 ≠ k.1 := by
            intro p hp
            rw [htsp] at hp
            exact hfresh p hp
          -- the split node's keys: sorted sublist of its traversal
          have hsp2 : ∀ (a b l : _), split_child t (.node ks cs false)
              (posR k.1 ks) = BNode.node a b l → l = false := by
            intro a b l hab
            have := congrArg leafOf hab
            rw [hslf] at this
            simpa using this.symm
          have hkssub2 : keysOf (split_child t (.node ks cs false) (posR k.1 ks)) <+
              travF (fuel+1) (split_child t (.node ks cs false) (posR k.1 ks)) := by
            cases hsp : split_child t (.node ks cs false) (posR k.1 ks) with
            | node a b l =>
              have hl := hsp2 a b l hsp
              subst hl
              rw [travF_internal]
              simpa using keys_sublist_travGo (travF fuel) a b
          have hksort2 : (keysOf (split_child t (.node ks cs false)
              (posR k.1 ks))).Pairwise (@ltP α) :=
            List.Pairwise.sublist hkssub2 hsorted2
          have hksfresh2 : ∀ p ∈ keysOf (split_child t (.node ks cs false)
              (posR k.1 ks)), p.1 ≠ k.1 := fun p hp => hfresh2 p (hkssub2.mem hp)
          split
          next c hcc =>
            have hjlt := (List.getElem?_eq_some_iff.mp hcc).1
            have hcmem : c ∈ childrenOf (split_child t (.node ks cs false)
                (posR k.1 ks)) := List.getElem?_mem hcc
            have hch : height c < fuel := by
              have h1 := hshs c hcmem
              have h2 := height_eq_heightL_children
                (split_child t (.node ks cs false) (posR k.1 ks))
              simp only [height_node] at hsh hh
              omega
            obtain ⟨L1, L2, hset, horig, hz, hpos, hend, hmid⟩ :=
              travGo_set_bounds (travF fuel) _
                (keysOf (split_child t (.node ks cs false) (posR k.1 ks)))
                (childrenOf (split_child t (.node ks cs false) (posR k.1 ks)))
                hjlt (by rw [hswc])
            have hcget : (childrenOf (split_child t (.node ks cs false)
                (posR k.1 ks))).getD (if (getKeyP (keysOf (split_child t
                  (.node ks cs false) (posR k.1 ks))) (posR k.1 ks)).1 < k.1
                then posR k.1 ks + 1 else posR k.1 ks) dfltN = c := by
              rw [List.getD_eq_getElem _ dfltN hjlt]
              exact (List.getElem?_eq_some_iff.mp hcc).2
            rw [hcget] at horig
            -- the traversal of the split node in decomposed form
            have htrav2 : travF (fuel+1) (split_child t (.node ks cs false)
                (posR k.1 ks)) = L1 ++ travF fuel c ++ L2 := by
              cases hsp : split_child t (.node ks cs false) (posR k.1 ks) with
              | node a b l =>
                have hl := hsp2 a b l hsp
                subst hl
                rw [travF_internal]
                have := horig
                rw [hsp] at this
                simpa using this
            -- child invariants
            have hcsort : (travF fuel c).Pairwise (@ltP α) := by
              have := hsorted2
              rw [htrav2] at this
              refine List.Pairwise.sublist ?_ this
              exact (List.sublist_append_right L1 (travF fuel c)).trans
                (List.sublist_append_left _ L2)
            have hcfresh : ∀ p ∈ travF fuel c, p.1 ≠ k.1 := by
              intro p hp
              refine hfresh2 p ?_
              rw [htrav2]
              simp [hp]
            have hihc := ih c k hch (hswfc c hcmem) (hsbc c hcmem) hcsort hcfresh
            -- bracket facts
            have hmedmem : getKeyP (keysOf (split_child t (.node ks cs false)
                (posR k.1 ks))) (posR k.1 ks) ∈
                keysOf (split_child t (.node ks cs false) (posR k.1 ks)) := by
              rw [getKeyP, List.getD_eq_getElem _ default (by rw [hkslen]; omega)]
              exact List.getElem_mem _
            have hmedne : (getKeyP (keysOf (split_child t (.node ks cs false)
                (posR k.1 ks))) (posR k.1 ks)).1 ≠ k.1 :=
              hksfresh2 _ hmedmem
            have hb : 0 < (if (getKeyP (keysOf (split_child t (.node ks cs false)
                (posR k.1 ks))) (posR k.1 ks)).1 < k.1
                then posR k.1 ks + 1 else posR k.1 ks) →
                ((keysOf (split_child t (.node ks cs false) (posR k.1 ks))).getD
                  ((if (getKeyP (keysOf (split_child t (.node ks cs false)
                    (posR k.1 ks))) (posR k.1 ks)).1 < k.1
                  then posR k.1 ks + 1 else posR k.1 ks) - 1) default).1 < k.1 := by
              intro hpos0
              by_cases hmed : (getKeyP (keysOf (split_child t (.node ks cs false)
                  (posR k.1 ks))) (posR k.1 ks)).1 < k.1
              · rw [if_pos hmed]
                simp only [Nat.add_sub_cancel]
                exact hmed
              · rw [if_neg hmed] at hpos0 ⊢
                -- boundary is the original key posR-1
                have hglt : (posR k.1 ks) - 1 < ks.length := by omega
                have hgeq : (keysOf (split_child t (.node ks cs false)
                    (posR k.1 ks))).getD ((posR k.1 ks) - 1) default =
                    ks.getD ((posR k.1 ks) - 1) default := by
                  rw [hkeq]
                  rw [List.getD_eq_getElem _ default (by
                    rw [List.length_insertIdx _ _ hile]; omega)]
                  rw [List.getD_eq_getElem _ default hglt]
                  exact List.getElem_insertIdx_of_lt _ _ _ _ (by omega) hglt
                rw [hgeq]
                have hmem : ks.getD ((posR k.1 ks) - 1) default ∈
                    ks.take (posR k.1 ks) := by
                  rw [List.getD_eq_getElem _ default hglt]
                  have h9 : (posR k.1 ks) - 1 < (ks.take (posR k.1 ks)).length := by
                    rw [List.length_take]
                    omega
                  have h10 : (ks.take (posR k.1 ks))[(posR k.1 ks) - 1] =
                      ks[(posR k.1 ks) - 1] := List.getElem_take ks
                  rw [← h10]
                  exact List.getElem_mem h9
                exact posR_prefix_lt k.1 ks hksort hksfresh _ hmem
            have hhp : (if (getKeyP (keysOf (split_child t (.node ks cs false)
                (posR k.1 ks))) (posR k.1 ks)).1 < k.1
                then posR k.1 ks + 1 else posR k.1 ks) <
                (keysOf (split_child t (.node ks cs false)
                  (posR k.1 ks))).length →
                k.1 < ((keysOf (split_child t (.node ks cs false)
                  (posR k.1 ks))).getD
                  (if (getKeyP (keysOf (split_child t (.node ks cs false)
                    (posR k.1 ks))) (posR k.1 ks)).1 < k.1
                  then posR k.1 ks + 1 else posR k.1 ks) default).1 := by
              intro hlt0
              by_cases hmed : (getKeyP (keysOf (split_child t (.node ks cs false)
                  (posR k.1 ks))) (posR k.1 ks)).1 < k.1
              · rw [if_pos hmed] at hlt0 ⊢
                rw [hkslen] at hlt0
                have hilt : posR k.1 ks < ks.length := by omega
                have hgeq : (keysOf (split_child t (.node ks cs false)
                    (posR k.1 ks))).getD (posR k.1 ks + 1) default =
                    ks.getD (posR k.1 ks) default := by
                  rw [hkeq]
                  rw [List.getD_eq_getElem _ default (by
                    rw [List.length_insertIdx _ _ hile]; omega)]
                  rw [List.getD_eq_getElem _ default hilt]
                  have h11 := List.getElem_insertIdx_add_succ ks
                    (getKeyP (keysOf (getChild cs (posR k.1 ks))) (t-1))
                    (posR k.1 ks) 0 (by omega)
                  simpa using h11
                rw [hgeq]
                have hmem : ks.getD (posR k.1 ks) default ∈
                    ks.drop (posR k.1 ks) := by
                  rw [List.getD_eq_getElem _ default hilt]
                  have h9 : 0 < (ks.drop (posR k.1 ks)).length := by
                    rw [List.length_drop]
                    omega
                  have h10 : (ks.drop (posR k.1 ks))[0] = ks[posR k.1 ks] := by
                    simp
                  rw [← h10]
                  exact List.getElem_mem h9
                exact posR_suffix k.1 ks _ hmem
              · rw [if_neg hmed] at hlt0 ⊢
                rw [hmedsplit] at hmed hmedne
                rw [show (keysOf (split_child t (.node ks cs false)
                    (posR k.1 ks))).getD (posR k.1 ks) default =
                    getKeyP (keysOf (split_child t (.node ks cs false)
                      (posR k.1 ks))) (posR k.1 ks) from rfl]
                rw [hmedsplit]
                omega
            -- assemble
            calc travF (fuel+1) (.node (keysOf (split_child t (.node ks cs false)
                  (posR k.1 ks)))
                  ((childrenOf (split_child t (.node ks cs false)
                    (posR k.1 ks))).set
                    (if (getKeyP (keysOf (split_child t (.node ks cs false)
                      (posR k.1 ks))) (posR k.1 ks)).1 < k.1
                    then posR k.1 ks + 1 else posR k.1 ks)
                    (insertNF t fuel c k)) false)
                = L1 ++ travF fuel (insertNF t fuel c k) ++ L2 := by
                  rw [travF_internal]
                  exact hset _
              _ = L1 ++ List.orderedInsert ltP k (travF fuel c) ++ L2 := by
                  rw [hihc]
              _ = List.orderedInsert ltP k (L1 ++ travF fuel c ++ L2) := by
                  refine (oi_through_bounds k ?_ hz hpos hend hmid
                    (by omega) hb hhp).symm
                  rw [← htrav2]
                  exact hsorted2
              _ = List.orderedInsert ltP k (travF (fuel+1)
                    (.node ks cs false)) := by
                  rw [← htrav2, htsp]
          next hcc =>
            exfalso
            have hnone := List.getElem?_eq_none_iff.mp hcc
            rw [hswc, hkslen] at hnone
            split at hnone <;> omega
        · rw [if_neg hfull]
          split
          next c hcc =>
            have hjlt := (List.getElem?_eq_some_iff.mp hcc).1
            have hcmem : c ∈ cs := List.getElem?_mem hcc
            have hch : height c < fuel := by
              have := hhts c hcmem
              simp only [height_node] at hh
              omega
            obtain ⟨L1, L2, hset, horig, hz, hpos, hend, hmid⟩ :=
              travGo_set_bounds (travF fuel) _ ks cs hjlt hcnt
            have hcget : cs.getD (posR k.1 ks) dfltN = c := by
              rw [List.getD_eq_getElem _ dfltN hjlt]
              exact (List.getElem?_eq_some_iff.mp hcc).2
            rw [hcget] at horig
            have htrav2 : travF (fuel+1) (.node ks cs false) =
                L1 ++ travF fuel c ++ L2 := by
              rw [travF_internal]
              exact horig
            have hcsort : (travF fuel c).Pairwise (@ltP α) := by
              have := hsort
              rw [htrav2] at this
              refine List.Pairwise.sublist ?_ this
              exact (List.sublist_append_right L1 (travF fuel c)).trans
                (List.sublist_append_left _ L2)
            have hcfresh : ∀ p ∈ travF fuel c, p.1 ≠ k.1 := by
              intro p hp
              refine hfresh p ?_
              rw [htrav2]
              simp [hp]
            have hihc := ih c k hch (hwfc c hcmem) (hbalc c hcmem) hcsort hcfresh
            have hb : 0 < posR k.1 ks →
                (ks.getD ((posR k.1 ks) - 1) default).1 < k.1 := by
              intro hpos0
              have hglt : (posR k.1 ks) - 1 < ks.length := by omega
              have hmem : ks.getD ((posR k.1 ks) - 1) default ∈
                  ks.take (posR k.1 ks) := by
                rw [List.getD_eq_getElem _ default hglt]
                have h9 : (posR k.1 ks) - 1 < (ks.take (posR k.1 ks)).length := by
                  rw [List.length_take]
                  omega
                have h10 : (ks.take (posR k.1 ks))[(posR k.1 ks) - 1] =
                    ks[(posR k.1 ks) - 1] := List.getElem_take ks
                rw [← h10]
                exact List.getElem_mem h9
              exact posR_prefix_lt k.1 ks hksort hksfresh _ hmem
            have hhp : posR k.1 ks < ks.length →
                k.1 < (ks.getD (posR k.1 ks) default).1 := by
              intro hlt0
              have hmem : ks.getD (posR k.1 ks) default ∈
                  ks.drop (posR k.1 ks) := by
                rw [List.getD_eq_getElem _ default hlt0]
                have h9 : 0 < (ks.drop (posR k.1 ks)).length := by
                  rw [List.length_drop]
                  omega
                have h10 : (ks.drop (posR k.1 ks))[0] = ks[posR k.1 ks] := by
                  simp
                rw [← h10]
                exact List.getElem_mem h9
              exact posR_suffix k.1 ks _ hmem
            calc travF (fuel+1) (.node ks (cs.set (posR k.1 ks)
                  (insertNF t fuel c k)) false)
                = L1 ++ travF fuel (insertNF t fuel c k) ++ L2 := by
                  rw [travF_internal]
                  exact hset _
              _ = L1 ++ List.orderedInsert ltP k (travF fuel c) ++ L2 := by
                  rw [hihc]
              _ = List.orderedInsert ltP k (L1 ++ travF fuel c ++ L2) := by
                  refine (oi_through_bounds k ?_ hz hpos hend hmid hile hb hhp).symm
                  rw [← htrav2]
                  exact hsort
              _ = List.orderedInsert ltP k (travF (fuel+1)
                    (.node ks cs false)) := by
                  rw [← htrav2]
          next hcc =>
            exfalso
            have hnone := List.getElem?_eq_none_iff.mp hcc
            omega


/-! ## Building a tree by insertions: sortedness -/

theorem insertT_t [Inhabited α] (T : BTreeT α) (k : Pr α) :
    (insertT T k).t = T.t := by
  simp only [insertT]
  split <;> rfl

/-- Top-level `insert` preserves well-formedness and balance. -/
theorem insertT_preserves [Inhabited α] (T : BTreeT α) (k : Pr α)
    (ht : 2 ≤ T.t) (hwf : WF T.t T.root) (hbal : Bal T.root) :
    WF T.t (insertT T k).root ∧ Bal (insertT T k).root := by
  simp only [insertT]
  by_cases hfull : nK T.root = 2*T.t - 1
  · rw [if_pos hfull]
    have hfull' : nK (getChild [T.root] 0) = 2*T.t - 1 := by
      simpa [getChild] using hfull
    obtain ⟨hsh, hswf, hsbal⟩ := @split_child_preserves α _ T.t
      ([] : List (Pr α)) [T.root] 0
      ht (Nat.le_refl 0) (by simp) (by simp) hfull'
      (by intro c hc; simp at hc; subst hc; exact hwf)
      (by intro c hc; simp at hc; subst hc; exact hbal)
      (by intro c hc; simp at hc; subst hc; simp)
    obtain ⟨_, h2, h3⟩ := insert_nonfull_preserves ht
      (split_child T.t (.node [] [T.root] false) 0) k hswf hsbal
    exact ⟨h2, h3⟩
  · rw [if_neg hfull]
    obtain ⟨_, h2, h3⟩ := insert_nonfull_preserves ht T.root k hwf hbal
    exact ⟨h2, h3⟩

/-- Top-level `insert` of a fresh key into a sorted well-formed balanced
tree is ordered insertion on the traversal. -/
theorem traverseP_insertT_sorted [Inhabited α] (T : BTreeT α) (k : Pr α)
    (ht : 2 ≤ T.t) (hwf : WF T.t T.root) (hbal : Bal T.root)
    (hsort : (traverseP T.root).Pairwise (@ltP α))
    (hfresh : ∀ p ∈ traverseP T.root, p.1 ≠ k.1) :
    traverseP (insertT T k).root = List.orderedInsert ltP k (traverseP T.root) := by
  simp only [insertT]
  by_cases hfull : nK T.root = 2*T.t - 1
  · rw [if_pos hfull]
    simp only
    have hfull' : nK (getChild [T.root] 0) = 2*T.t - 1 := by
      simpa [getChild] using hfull
    obtain ⟨hsh, hswf, hsbal⟩ := @split_child_preserves α _ T.t
      ([] : List (Pr α)) [T.root] 0
      ht (Nat.le_refl 0) (by simp) (by simp) hfull'
      (by intro c hc; simp at hc; subst hc; exact hwf)
      (by intro c hc; simp at hc; subst hc; exact hbal)
      (by intro c hc; simp at hc; subst hc; simp)
    have hsh2 : height (split_child T.t (.node [] [T.root] false) 0) =
        height T.root + 1 := by rw [hsh, heightL_singleton]
    have hpre := insert_nonfull_preserves ht
      (split_child T.t (.node [] [T.root] false) 0) k hswf hsbal
    have h1 : traverseP (insert_nonfull T.t
        (split_child T.t (.node [] [T.root] false) 0) k) =
        travF (height (split_child T.t (.node [] [T.root] false) 0) + 1)
          (insert_nonfull T.t (split_child T.t (.node [] [T.root] false) 0) k) := by
      rw [traverseP]
      exact travF_congr _ _ _ (Nat.lt_succ_self _) (by rw [hpre.1]; omega)
    -- traversal of the split root at its own fuel equals the old traversal
    have h5 : travF (height (split_child T.t (.node [] [T.root] false) 0) + 1)
        (split_child T.t (.node [] [T.root] false) 0) =
        travF (height (split_child T.t (.node [] [T.root] false) 0) + 1)
          (.node [] [T.root] false) :=
      travF_split_child ht _ [] [T.root] 0 (by rw [hsh2]; simp)
        (by simp) (by simp) (by simpa [getChild] using hwf)
        (by simpa [getChild] using hfull)
    have h6 : travF (height (split_child T.t (.node [] [T.root] false) 0) + 1)
        (.node ([] : List (Pr α)) [T.root] false) = traverseP T.root := by
      rw [hsh2]
      rw [show height T.root + 1 + 1 = (height T.root + 1) + 1 from rfl]
      rw [travF_internal]
      show travF (height T.root + 1) T.root = traverseP T.root
      rfl
    have h7 : travF (height (split_child T.t (.node [] [T.root] false) 0) + 1)
        (split_child T.t (.node [] [T.root] false) 0) = traverseP T.root := by
      rw [h5, h6]
    rw [h1, insert_nonfull]
    rw [travF_insertNF_sorted ht _ _ k (Nat.lt_succ_self _) hswf hsbal
      (by rw [h7]; exact hsort) (by rw [h7]; exact hfresh)]
    rw [h7]
  · rw [if_neg hfull]
    simp only
    have hpre := insert_nonfull_preserves ht T.root k hwf hbal
    have h1 : traverseP (insert_nonfull T.t T.root k) =
        travF (height T.root + 1) (insert_nonfull T.t T.root k) := by
      rw [traverseP]
      exact travF_congr _ _ _ (Nat.lt_succ_self _) (by rw [hpre.1]; omega)
    rw [h1, insert_nonfull]
    rw [travF_insertNF_sorted ht _ _ k (Nat.lt_succ_self _) hwf hbal hsort hfresh]
    rfl

/-- Building a tree by insertions with pairwise-distinct keys: the tree is
well-formed and balanced, and its traversal is a strictly sorted
permutation of the inserted entries. -/
theorem buildT_props [Inhabited α] (t : Nat) (ht : 2 ≤ t) :
    ∀ (ps : List (Pr α)), (ps.map Prod.fst).Nodup →
      (buildT t ps).t = t ∧ WF t (buildT t ps).root ∧ Bal (buildT t ps).root ∧
      (traverseP (buildT t ps).root).Pairwise (@ltP α) ∧
      traverseP (buildT t ps).root ~ ps := by
  intro ps
  induction ps using List.reverseRecOn with
  | nil =>
    intro _
    refine ⟨rfl, WF.leaf _, Bal.mk _ _ _ (by simp) (by simp), ?_, ?_⟩
    · show (travF 1 (BNode.node [] [] true)).Pairwise (@ltP α)
      simp [travF]
    · show travF 1 (BNode.node [] [] true) ~ []
      simp [travF]
  | append_singleton ps p ih =>
    intro hnd
    have hnd2 : (ps.map Prod.fst).Nodup ∧ p.1 ∉ ps.map Prod.fst := by
      rw [List.map_append] at hnd
      have h1 := List.Nodup.of_append_left hnd
      have h2 := List.disjoint_of_nodup_append hnd
      refine ⟨h1, fun hmem => ?_⟩
      exact h2 hmem (by simp)
    obtain ⟨iht, ihwf, ihbal, ihsort, ihperm⟩ := ih hnd2.1
    have hbuild : buildT t (ps ++ [p]) = insertT (buildT t ps) p := by
      simp [buildT, List.foldl_append]
    have ht' : 2 ≤ (buildT t ps).t := by rw [iht]; exact ht
    have hwf' : WF (buildT t ps).t (buildT t ps).root := by rw [iht]; exact ihwf
    have hfresh : ∀ q ∈ traverseP (buildT t ps).root, q.1 ≠ p.1 := by
      intro q hq
      have : q ∈ ps := ihperm.mem_iff.mp hq
      intro he
      exact hnd2.2 (he ▸ List.mem_map_of_mem Prod.fst this)
    have hsorted := traverseP_insertT_sorted (buildT t ps) p ht' hwf' ihbal
      ihsort hfresh
    obtain ⟨hwf2, hbal2⟩ := insertT_preserves (buildT t ps) p ht' hwf' ihbal
    refine ⟨?_, ?_, ?_, ?_, ?_⟩
    · rw [hbuild, insertT_t, iht]
    · rw [hbuild]
      rw [iht] at hwf2
      exact hwf2
    · rw [hbuild]
      exact hbal2
    · rw [hbuild, hsorted]
      exact pairwise_orderedInsert p _ ihsort (fun q hq => hfresh q hq)
    · rw [hbuild, hsorted]
      calc List.orderedInsert ltP p (traverseP (buildT t ps).root)
          ~ p :: traverseP (buildT t ps).root := List.perm_orderedInsert _ _ _
        _ ~ p :: ps := ihperm.cons p
        _ ~ ps ++ [p] := (List.perm_append_singleton p ps).symm

/-- C7 (counterexample to the claim as stated): inserting the same key
twice (t = 2, key 1) makes the in-order traversal yield that key twice, so
the traversal is not strictly ascending and the key is not visited exactly
once. -/
theorem dup_keys_break_strict_ascending :
    dbg_traverse (buildT 2 [((1:Int), (1:Int)), (1, 2)]).root = [1, 1] ∧
    ¬ List.Pairwise (· < ·)
      (dbg_traverse (buildT 2 [((1:Int), (1:Int)), (1, 2)]).root) ∧
    (dbg_traverse (buildT 2 [((1:Int), (1:Int)), (1, 2)]).root).count 1 = 2 := by
  have h : dbg_traverse (buildT 2 [((1:Int), (1:Int)), (1, 2)]).root = [1, 1] := by
    rfl
  refine ⟨h, ?_, by rw [h]; rfl⟩
  rw [h]
  decide

/-- C7 (amended to insertion sequences with pairwise-distinct keys): for
every such sequence the in-order traversal visits exactly the inserted
keys, each exactly once (it is a permutation of them), in strictly
ascending key order — no key lost or corrupted. -/
theorem build_traversal_sorted_of_nodup [Inhabited α] (t : Nat)
    (ps : List (Pr α)) (ht : 2 ≤ t) (hnd : (ps.map Prod.fst).Nodup) :
    dbg_traverse (buildT t ps).root ~ ps.map Prod.fst ∧
    List.Pairwise (· < ·) (dbg_traverse (buildT t ps).root) := by
  obtain ⟨_, _, _, hsort, hperm⟩ := buildT_props t ht ps hnd
  constructor
  · exact hperm.map Prod.fst
  · rw [dbg_traverse]
    exact (List.pairwise_map).mpr hsort

/-- Witness for the amended C7: `t = 2`, inserting keys 2 then 1. -/
theorem build_traversal_sorted_of_nodup_witness :
    dbg_traverse (buildT 2 [((2:Int), (2:Int)), (1, 1)]).root ~ [2, 1] ∧
    List.Pairwise (· < ·)
      (dbg_traverse (buildT 2 [((2:Int), (2:Int)), (1, 1)]).root) := by
  have h := build_traversal_sorted_of_nodup 2
    [((2:Int), (2:Int)), (1, 1)] (by decide) (by decide)
  exact ⟨by simpa using h.1, h.2⟩


/-! ## Value erasure commutes with every operation (C10) -/

theorem kE_fst (p : Pr α) : (kE p).1 = p.1 := rfl

theorem eraseValsL_eq (cs : List (BNode α)) : eraseValsL cs = cs.map eraseVals := by
  induction cs with
  | nil => rfl
  | cons c cs ih => simp [eraseValsL, ih]

theorem keysOf_eraseVals (x : BNode α) : keysOf (eraseVals x) = (keysOf x).map kE := by
  cases x
  rfl

theorem childrenOf_eraseVals (x : BNode α) :
    childrenOf (eraseVals x) = (childrenOf x).map eraseVals := by
  cases x
  simp [eraseVals, childrenOf, eraseValsL_eq]

theorem leafOf_eraseVals (x : BNode α) : leafOf (eraseVals x) = leafOf x := by
  cases x
  rfl

theorem nK_eraseVals (x : BNode α) : nK (eraseVals x) = nK x := by
  simp [nK, keysOf_eraseVals]

theorem map_insertIdx {β γ : Type} (f : β → γ) (l : List β) (i : Nat) (a : β) :
    (l.insertIdx i a).map f = (l.map f).insertIdx i (f a) := by
  induction l generalizing i with
  | nil => cases i <;> simp
  | cons b bs ih =>
    cases i with
    | zero => simp
    | succ j => simp [List.insertIdx_succ_cons, ih]

theorem map_eraseIdx {β γ : Type} (f : β → γ) (l : List β) (i : Nat) :
    (l.eraseIdx i).map f = (l.map f).eraseIdx i := by
  induction l generalizing i with
  | nil => simp
  | cons b bs ih =>
    cases i with
    | zero => simp
    | succ j => simp [List.eraseIdx_cons_succ, ih]

theorem kE_default [Inhabited α] : kE (default : Pr α) = default := rfl

theorem getKeyP_map [Inhabited α] (ks : List (Pr α)) (i : Nat) :
    getKeyP (ks.map kE) i = kE (getKeyP ks i) := by
  simp only [getKeyP, List.getD, List.getElem?_map]
  cases h : ks[i]? <;> simp [h, kE_default]

theorem eraseVals_dfltN : eraseVals (dfltN : BNode α) = dfltN := rfl

theorem getChild_map (cs : List (BNode α)) (i : Nat) :
    getChild (cs.map eraseVals) i = eraseVals (getChild cs i) := by
  simp only [getChild, List.getD, List.getElem?_map]
  cases h : cs[i]? <;> simp [h, eraseVals_dfltN]

theorem scanIdx_map (k : Int) (ks : List (Pr α)) :
    scanIdx k (ks.map kE) = scanIdx k ks := by
  simp only [scanIdx, List.takeWhile_map, List.length_map]
  rfl

theorem posR_map (k : Int) (ks : List (Pr α)) :
    posR k (ks.map kE) = posR k ks := by
  simp only [posR, List.length_map, ← List.map_reverse, List.takeWhile_map]
  rfl


theorem size_pos (x : BNode α) : 1 ≤ size x := by
  cases x
  simp [size]

theorem size_height_eraseVals_aux :
    ∀ n : Nat,
      (∀ x : BNode α, size x ≤ n →
        size (eraseVals x) = size x ∧ height (eraseVals x) = height x) ∧
      (∀ cs : List (BNode α), sizeL cs ≤ n →
        sizeL ((cs.map eraseVals)) = sizeL cs ∧
        heightL ((cs.map eraseVals)) = heightL cs) := by
  intro n
  induction n with
  | zero =>
    constructor
    · intro x hx
      exact absurd (le_trans (size_pos x) hx) (by omega)
    · intro cs hcs
      cases cs with
      | nil => simp [sizeL, heightL]
      | cons c cs => exact absurd hcs (by simp [sizeL]; have := size_pos c; omega)
  | succ n ih =>
    have hnode : ∀ x : BNode α, size x ≤ n + 1 →
        size (eraseVals x) = size x ∧ height (eraseVals x) = height x := by
      intro x hx
      cases x with
      | node ks cs lf =>
        have hcs : sizeL cs ≤ n := by simp [size] at hx; omega
        obtain ⟨h1, h2⟩ := ih.2 cs hcs
        constructor
        · simp [eraseVals, size, eraseValsL_eq, h1]
        · simp [eraseVals, height, eraseValsL_eq, h2]
    refine ⟨hnode, ?_⟩
    intro cs hcs
    cases cs with
    | nil => simp [sizeL, heightL]
    | cons c cs =>
      have hc : size c ≤ n + 1 := by simp [sizeL] at hcs; omega
      have hcs' : sizeL cs ≤ n := by
        simp [sizeL] at hcs
        have := size_pos c
        omega
      obtain ⟨h1, h2⟩ := hnode c hc
      obtain ⟨h3, h4⟩ := ih.2 cs hcs'
      constructor
      · simp [sizeL, h1, h3]
      · simp [heightL, h2, h4]

theorem size_eraseVals (x : BNode α) : size (eraseVals x) = size x :=
  ((size_height_eraseVals_aux (size x)).1 x (le_refl _)).1

theorem height_eraseVals (x : BNode α) : height (eraseVals x) = height x :=
  ((size_height_eraseVals_aux (size x)).1 x (le_refl _)).2

theorem split_child_eraseVals [Inhabited α] (t : Nat) (x : BNode α) (i : Nat) :
    eraseVals (split_child t x i) = split_child t (eraseVals x) i := by
  cases x with
  | node ks cs lf =>
    simp only [split_child, eraseVals, eraseValsL_eq, getChild_map,
      keysOf_eraseVals, childrenOf_eraseVals, leafOf_eraseVals, getKeyP_map,
      List.map_take, List.map_drop, map_insertIdx, List.map_set]


theorem eraseVals_node (ks : List (Pr α)) (cs : List (BNode α)) (lf : Bool) :
    eraseVals (BNode.node ks cs lf) = BNode.node (ks.map kE) (cs.map eraseVals) lf := by
  simp [eraseVals, eraseValsL_eq]

theorem insertNF_eraseVals [Inhabited α] (t : Nat) :
    ∀ (fuel : Nat) (x : BNode α) (k : Pr α),
      eraseVals (insertNF t fuel x k) = insertNF t fuel (eraseVals x) (kE k) := by
  intro fuel
  induction fuel with
  | zero => intro x k; rfl
  | succ fuel ih =>
    intro x k
    cases x with
    | node ks cs lf =>
      cases lf with
      | true =>
        rw [eraseVals_node]
        simp only [insertNF, eraseVals_node, kE_fst, posR_map,
          List.map_append, List.map_take, List.map_drop, List.map_cons]
      | false =>
        rw [eraseVals_node]
        simp only [insertNF, eraseVals_node, kE_fst, posR_map, getChild_map,
          nK_eraseVals]
        by_cases hfull : nK (getChild cs (posR k.1 ks)) = 2 * t - 1
        · rw [if_pos hfull, if_pos hfull]
          have hsp := split_child_eraseVals t (BNode.node ks cs false) (posR k.1 ks)
          rw [eraseVals_node] at hsp
          rw [← hsp]
          simp only [keysOf_eraseVals, childrenOf_eraseVals, getKeyP_map,
            kE_fst, List.getElem?_map]
          cases h : (childrenOf (split_child t (BNode.node ks cs false)
              (posR k.1 ks)))[if (getKeyP (keysOf (split_child t
              (BNode.node ks cs false) (posR k.1 ks))) (posR k.1 ks)).1 < k.1
              then posR k.1 ks + 1 else posR k.1 ks]? with
          | none => simp
          | some c =>
            simp only [Option.map_some]
            rw [eraseVals_node]
            simp [List.map_set, ih]
        · rw [if_neg hfull, if_neg hfull]
          simp only [List.getElem?_map]
          cases h : cs[posR k.1 ks]? with
          | none => simp [eraseVals_node]
          | some c =>
            simp only [Option.map_some]
            rw [eraseVals_node]
            simp [List.map_set, ih]

theorem insert_nonfull_eraseVals [Inhabited α] (t : Nat) (x : BNode α) (k : Pr α) :
    eraseVals (insert_nonfull t x k) = insert_nonfull t (eraseVals x) (kE k) := by
  rw [insert_nonfull, insert_nonfull, height_eraseVals, insertNF_eraseVals]

theorem insertT_eraseVals [Inhabited α] (T : BTreeT α) (k : Pr α) :
    eraseValsT (insertT T k) = insertT (eraseValsT T) (kE k) := by
  simp only [insertT, eraseValsT, nK_eraseVals]
  by_cases hfull : nK T.root = 2 * T.t - 1
  · rw [if_pos hfull, if_pos hfull]
    simp only [BTreeT.mk.injEq]
    refine ⟨?_, trivial⟩
    rw [insert_nonfull_eraseVals, split_child_eraseVals, eraseVals_node]
    simp
  · rw [if_neg hfull, if_neg hfull]
    simp only [BTreeT.mk.injEq]
    exact ⟨insert_nonfull_eraseVals T.t T.root k, trivial⟩

theorem findF_eraseVals [Inhabited α] :
    ∀ (fuel : Nat) (x : BNode α) (k : Int),
      findF fuel (eraseVals x) k =
        (findF fuel x k).map (fun pi => (eraseVals pi.1, pi.2)) := by
  intro fuel
  induction fuel with
  | zero => intro x k; rfl
  | succ fuel ih =>
    intro x k
    cases x with
    | node ks cs lf =>
      rw [eraseVals_node]
      simp only [findF, scanIdx_map, List.length_map, getKeyP_map, kE_fst]
      by_cases hhit : scanIdx k ks < ks.length ∧ (getKeyP ks (scanIdx k ks)).1 = k
      · rw [if_pos hhit, if_pos hhit]
        simp [eraseVals_node]
      · rw [if_neg hhit, if_neg hhit]
        cases lf with
        | true => simp
        | false =>
          simp only [if_neg Bool.false_ne_true, List.getElem?_map]
          cases h : cs[scanIdx k ks]? with
          | none => simp
          | some c => simp [ih]

theorem find_eraseVals [Inhabited α] (x : BNode α) (k : Int) :
    find (eraseVals x) k = (find x k).map (fun pi => (eraseVals pi.1, pi.2)) := by
  rw [find, find, height_eraseVals, findF_eraseVals]


theorem shift_key_eraseVals (x : BNode α) :
    eraseVals (shift_key x) = shift_key (eraseVals x) := by
  cases x with
  | node ks cs lf =>
    simp [shift_key, eraseVals_node, keysOf, childrenOf, leafOf, List.map_tail]

theorem shift_child_eraseVals (x : BNode α) :
    eraseVals (shift_child x) = shift_child (eraseVals x) := by
  cases x with
  | node ks cs lf =>
    simp [shift_child, eraseVals_node, List.map_take, List.map_drop,
      List.map_append]

theorem unshift_key_eraseVals (x : BNode α) (k : Pr α) :
    eraseVals (unshift_key x k) = unshift_key (eraseVals x) (kE k) := by
  cases x with
  | node ks cs lf =>
    simp [unshift_key, eraseVals_node, keysOf_eraseVals, childrenOf_eraseVals,
      leafOf_eraseVals, keysOf, childrenOf, leafOf]

theorem unshift_child_eraseVals (u v : BNode α) :
    eraseVals (unshift_child u v) = unshift_child (eraseVals u) (eraseVals v) := by
  cases u with
  | node ks cs lf =>
    simp [unshift_child, eraseVals_node, keysOf_eraseVals, childrenOf_eraseVals,
      leafOf_eraseVals, keysOf, childrenOf, leafOf]

theorem push_key_eraseVals (x : BNode α) (k : Pr α) :
    eraseVals (push_key x k) = push_key (eraseVals x) (kE k) := by
  cases x with
  | node ks cs lf =>
    simp [push_key, eraseVals_node, keysOf_eraseVals, childrenOf_eraseVals,
      leafOf_eraseVals, keysOf, childrenOf, leafOf]

theorem push_child_eraseVals (u v : BNode α) :
    eraseVals (push_child u v) = push_child (eraseVals u) (eraseVals v) := by
  cases u with
  | node ks cs lf =>
    simp [push_child, eraseVals_node, keysOf_eraseVals, childrenOf_eraseVals,
      leafOf_eraseVals, keysOf, childrenOf, leafOf]

theorem erase_key_l_map (ks : List (Pr α)) (i : Nat) :
    (erase_key_l ks i).map kE = erase_key_l (ks.map kE) i := by
  simp [erase_key_l, List.map_take, ← map_eraseIdx]

theorem erase_child_l_map (cs : List (BNode α)) (i : Nat) :
    (erase_child_l cs i).map eraseVals = erase_child_l (cs.map eraseVals) i := by
  simp [erase_child_l, List.map_take, ← map_eraseIdx]

theorem leftmostF_eraseVals [Inhabited α] :
    ∀ (fuel : Nat) (x : BNode α),
      leftmostF fuel (eraseVals x) = kE (leftmostF fuel x) := by
  intro fuel
  induction fuel with
  | zero => intro x; rw [leftmostF, leftmostF, keysOf_eraseVals, getKeyP_map]
  | succ fuel ih =>
    intro x
    cases x with
    | node ks cs lf =>
      rw [eraseVals_node]
      simp only [leftmostF, getKeyP_map, List.getElem?_map]
      cases lf with
      | true => simp
      | false =>
        simp only [if_neg Bool.false_ne_true]
        cases h : cs[0]? with
        | none => simp
        | some c => simp [ih]

theorem leftmost_eraseVals [Inhabited α] (x : BNode α) :
    leftmost (eraseVals x) = kE (leftmost x) := by
  rw [leftmost, leftmost, height_eraseVals, leftmostF_eraseVals]

theorem rightmostF_eraseVals [Inhabited α] :
    ∀ (fuel : Nat) (x : BNode α),
      rightmostF fuel (eraseVals x) = kE (rightmostF fuel x) := by
  intro fuel
  induction fuel with
  | zero =>
    intro x
    rw [rightmostF, rightmostF, keysOf_eraseVals, List.length_map, getKeyP_map]
  | succ fuel ih =>
    intro x
    cases x with
    | node ks cs lf =>
      rw [eraseVals_node]
      simp only [rightmostF, getKeyP_map, List.length_map, List.getElem?_map]
      cases lf with
      | true => simp
      | false =>
        simp only [if_neg Bool.false_ne_true]
        cases h : cs[ks.length]? with
        | none => simp
        | some c => simp [ih]

theorem rightmost_eraseVals [Inhabited α] (x : BNode α) :
    rightmost (eraseVals x) = kE (rightmost x) := by
  rw [rightmost, rightmost, height_eraseVals, rightmostF_eraseVals]

theorem pred_eraseVals [Inhabited α] (x : BNode α) (i : Nat) :
    pred (eraseVals x) i = kE (pred x i) := by
  rw [pred, pred, childrenOf_eraseVals, getChild_map, rightmost_eraseVals]

theorem succ_eraseVals [Inhabited α] (x : BNode α) (i : Nat) :
    succ (eraseVals x) i = kE (succ x i) := by
  rw [succ, succ, childrenOf_eraseVals, getChild_map, leftmost_eraseVals]

theorem merge_eraseVals [Inhabited α] (t : Nat) (x : BNode α) (i : Int) :
    merge t (eraseVals x) i = (merge t x i).map eraseVals := by
  by_cases hneg : i < 0
  · rw [merge, merge, if_pos hneg, if_pos hneg]
    rfl
  · cases x with
    | node ks cs lf =>
      rw [eraseVals_node, merge, merge, if_neg hneg, if_neg hneg]
      simp only [Except.map, getChild_map, keysOf_eraseVals, childrenOf_eraseVals,
        leafOf_eraseVals, getKeyP_map, List.map_take]
      rw [eraseVals_node]
      simp only [Except.ok.injEq, BNode.node.injEq]
      refine ⟨by rw [← erase_key_l_map], ?_, trivial⟩
      rw [erase_child_l_map, List.map_set]
      congr 2
      rw [eraseVals_node]
      simp only [BNode.node.injEq]
      refine ⟨by simp, ?_, trivial⟩
      by_cases hlf : leafOf (getChild cs i.toNat) = false
      · rw [if_pos hlf, if_pos hlf]
        simp [List.map_take, List.map_append]
      · rw [if_neg hlf, if_neg hlf]

theorem borrow_prev_eraseVals [Inhabited α] (x : BNode α) (i : Nat) :
    eraseVals (borrow_prev x i) = borrow_prev (eraseVals x) i := by
  cases x with
  | node ks cs lf =>
    rw [eraseVals_node, borrow_prev, borrow_prev]
    simp only [getChild_map, keysOf_eraseVals, childrenOf_eraseVals,
      leafOf_eraseVals, getKeyP_map, List.length_map]
    rw [eraseVals_node]
    simp only [BNode.node.injEq]
    refine ⟨by rw [List.map_set], ?_, trivial⟩
    rw [List.map_set, List.map_set]
    have hc2 : eraseVals (if leafOf (unshift_key (getChild cs i) (getKeyP ks (i-1))) = false
        then unshift_child (unshift_key (getChild cs i) (getKeyP ks (i-1)))
          (getChild (childrenOf (getChild cs (i-1))) (keysOf (getChild cs (i-1))).length)
        else unshift_key (getChild cs i) (getKeyP ks (i-1))) =
        (if leafOf (unshift_key (eraseVals (getChild cs i)) (kE (getKeyP ks (i-1)))) = false
        then unshift_child (unshift_key (eraseVals (getChild cs i)) (kE (getKeyP ks (i-1))))
          (getChild (childrenOf (eraseVals (getChild cs (i-1))))
            (keysOf (eraseVals (getChild cs (i-1)))).length)
        else unshift_key (eraseVals (getChild cs i)) (kE (getKeyP ks (i-1)))) := by
      rw [childrenOf_eraseVals, keysOf_eraseVals, List.length_map, getChild_map]
      by_cases hlf : leafOf (unshift_key (getChild cs i) (getKeyP ks (i-1))) = false
      · have hlf2 : leafOf (unshift_key (eraseVals (getChild cs i)) (kE (getKeyP ks (i-1)))) = false := by
          rw [← unshift_key_eraseVals, leafOf_eraseVals]
          exact hlf
        rw [if_pos hlf, if_pos hlf2, unshift_child_eraseVals, unshift_key_eraseVals]
      · have hlf2 : ¬ leafOf (unshift_key (eraseVals (getChild cs i)) (kE (getKeyP ks (i-1)))) = false := by
          rw [← unshift_key_eraseVals, leafOf_eraseVals]
          exact hlf
        rw [if_neg hlf, if_neg hlf2, unshift_key_eraseVals]
    rw [hc2]
    simp [eraseVals_node, keysOf_eraseVals, childrenOf_eraseVals,
      leafOf_eraseVals, List.map_take, List.length_map, getChild_map]

theorem borrow_next_eraseVals [Inhabited α] (x : BNode α) (i : Nat) :
    eraseVals (borrow_next x i) = borrow_next (eraseVals x) i := by
  cases x with
  | node ks cs lf =>
    rw [eraseVals_node, borrow_next, borrow_next]
    simp only [getChild_map, keysOf_eraseVals, childrenOf_eraseVals,
      leafOf_eraseVals, getKeyP_map, List.length_map]
    rw [eraseVals_node]
    simp only [BNode.node.injEq]
    refine ⟨by rw [List.map_set], ?_, trivial⟩
    rw [List.map_set, List.map_set]
    have hc2 : eraseVals (if leafOf (push_key (getChild cs i) (getKeyP ks i)) = false
        then push_child (push_key (getChild cs i) (getKeyP ks i))
          (getChild (childrenOf (getChild cs (i+1))) 0)
        else push_key (getChild cs i) (getKeyP ks i)) =
        (if leafOf (push_key (eraseVals (getChild cs i)) (kE (getKeyP ks i))) = false
        then push_child (push_key (eraseVals (getChild cs i)) (kE (getKeyP ks i)))
          (getChild (childrenOf (eraseVals (getChild cs (i+1)))) 0)
        else push_key (eraseVals (getChild cs i)) (kE (getKeyP ks i))) := by
      rw [childrenOf_eraseVals, getChild_map]
      by_cases hlf : leafOf (push_key (getChild cs i) (getKeyP ks i)) = false
      · have hlf2 : leafOf (push_key (eraseVals (getChild cs i)) (kE (getKeyP ks i))) = false := by
          rw [← push_key_eraseVals, leafOf_eraseVals]
          exact hlf
        rw [if_pos hlf, if_pos hlf2, push_child_eraseVals, push_key_eraseVals]
      · have hlf2 : ¬ leafOf (push_key (eraseVals (getChild cs i)) (kE (getKeyP ks i))) = false := by
          rw [← push_key_eraseVals, leafOf_eraseVals]
          exact hlf
        rw [if_neg hlf, if_neg hlf2, push_key_eraseVals]
    rw [hc2]
    have hs2 : eraseVals (if leafOf (shift_key (getChild cs (i+1))) = false
        then shift_child (shift_key (getChild cs (i+1)))
        else shift_key (getChild cs (i+1))) =
        (if leafOf (shift_key (eraseVals (getChild cs (i+1)))) = false
        then shift_child (shift_key (eraseVals (getChild cs (i+1))))
        else shift_key (eraseVals (getChild cs (i+1)))) := by
      by_cases hlf : leafOf (shift_key (getChild cs (i+1))) = false
      · have hlf2 : leafOf (shift_key (eraseVals (getChild cs (i+1)))) = false := by
          rw [← shift_key_eraseVals, leafOf_eraseVals]
          exact hlf
        rw [if_pos hlf, if_pos hlf2, shift_child_eraseVals, shift_key_eraseVals]
      · have hlf2 : ¬ leafOf (shift_key (eraseVals (getChild cs (i+1)))) = false := by
          rw [← shift_key_eraseVals, leafOf_eraseVals]
          exact hlf
        rw [if_neg hlf, if_neg hlf2, shift_key_eraseVals]
    rw [hs2]
    simp [eraseVals_node, keysOf_eraseVals, childrenOf_eraseVals,
      leafOf_eraseVals, List.map_take, List.length_map, getChild_map]


theorem fill_child_eraseVals [Inhabited α] (t : Nat) (x : BNode α) (i : Nat) :
    fill_child t (eraseVals x) i = (fill_child t x i).map eraseVals := by
  rw [fill_child, fill_child]
  simp only [childrenOf_eraseVals, getChild_map, keysOf_eraseVals,
    List.length_map]
  by_cases h1 : 0 < i ∧ t ≤ (keysOf (getChild (childrenOf x) (i-1))).length
  · rw [if_pos h1, if_pos h1, ← borrow_prev_eraseVals]
    rfl
  · rw [if_neg h1, if_neg h1]
    by_cases h2 : i < (keysOf x).length ∧
        t ≤ (keysOf (getChild (childrenOf x) (i+1))).length
    · rw [if_pos h2, if_pos h2, ← borrow_next_eraseVals]
      rfl
    · rw [if_neg h2, if_neg h2]
      by_cases h3 : i = (keysOf x).length
      · rw [if_pos h3, if_pos h3, merge_eraseVals]
      · rw [if_neg h3, if_neg h3, merge_eraseVals]


theorem eraseRec_eraseVals [Inhabited α] (t : Nat) :
    ∀ (fuel : Nat) (x : BNode α) (k : Pr α),
      eraseRec t fuel (eraseVals x) (kE k) = (eraseRec t fuel x k).map eraseVals := by
  intro fuel
  induction fuel with
  | zero => intro x k; rfl
  | succ fuel ih =>
    intro x k
    cases x with
    | node ks cs lf =>
      rw [eraseVals_node]
      simp only [eraseRec, scanIdx_map, kE_fst, List.length_map, getKeyP_map]
      by_cases hhit : scanIdx k.1 ks < ks.length ∧
          (getKeyP ks (scanIdx k.1 ks)).1 = k.1
      · rw [if_pos hhit, if_pos hhit]
        cases lf with
        | true =>
          simp only [if_true, Except.map, Except.ok.injEq]
          rw [eraseVals_node, ← erase_key_l_map]
        | false =>
          simp only [if_neg Bool.false_ne_true, List.getElem?_map]
          cases h1 : cs[scanIdx k.1 ks]? with
          | none =>
            cases h2 : cs[scanIdx k.1 ks + 1]? with
            | none => rfl
            | some z => rfl
          | some y =>
            cases h2 : cs[scanIdx k.1 ks + 1]? with
            | none => rfl
            | some z =>
              simp only [Option.map_some', keysOf_eraseVals, List.length_map]
              have hpred : pred (BNode.node (List.map kE ks)
                  (List.map eraseVals cs) false) (scanIdx k.1 ks) =
                  kE (pred (BNode.node ks cs false) (scanIdx k.1 ks)) := by
                rw [← eraseVals_node, pred_eraseVals]
              have hsucc : succ (BNode.node (List.map kE ks)
                  (List.map eraseVals cs) false) (scanIdx k.1 ks) =
                  kE (succ (BNode.node ks cs false) (scanIdx k.1 ks)) := by
                rw [← eraseVals_node, succ_eraseVals]
              by_cases hy : t ≤ (keysOf y).length
              · rw [if_pos hy, if_pos hy, hpred, ih]
                cases hres : eraseRec t fuel y (pred (BNode.node ks cs false)
                    (scanIdx k.1 ks)) with
                | ok y2 =>
                  simp [Except.map, eraseVals_node, List.map_set]
                | error e => simp [Except.map]
              · rw [if_neg hy, if_neg hy]
                by_cases hz : t ≤ (keysOf z).length
                · rw [if_pos hz, if_pos hz, hsucc, ih]
                  cases hres : eraseRec t fuel z (succ (BNode.node ks cs false)
                      (scanIdx k.1 ks)) with
                  | ok z2 =>
                    simp [Except.map, eraseVals_node, List.map_set]
                  | error e => simp [Except.map]
                · rw [if_neg hz, if_neg hz]
                  have hmg : merge t (BNode.node (List.map kE ks)
                      (List.map eraseVals cs) false) ((scanIdx k.1 ks : Nat) : Int) =
                      (merge t (BNode.node ks cs false)
                        ((scanIdx k.1 ks : Nat) : Int)).map eraseVals := by
                    rw [← eraseVals_node, merge_eraseVals]
                  rw [hmg]
                  cases hres : merge t (BNode.node ks cs false)
                      ((scanIdx k.1 ks : Nat) : Int) with
                  | error e => rfl
                  | ok x2 =>
                    simp only [Except.map, childrenOf_eraseVals, List.getElem?_map]
                    cases h3 : (childrenOf x2)[scanIdx k.1 ks]? with
                    | none => rfl
                    | some y2 =>
                      simp only [Option.map_some', ih]
                      cases hres2 : eraseRec t fuel y2 (getKeyP ks (scanIdx k.1 ks)) with
                      | ok y3 =>
                        simp [Except.map, eraseVals_node, keysOf_eraseVals,
                          childrenOf_eraseVals, leafOf_eraseVals, List.map_set]
                      | error e => simp [Except.map]
      · rw [if_neg hhit, if_neg hhit]
        cases lf with
        | true =>
          simp only [if_true, Except.map, Except.ok.injEq]
          rw [eraseVals_node]
        | false =>
          simp only [if_neg Bool.false_ne_true, getChild_map, keysOf_eraseVals,
            List.length_map]
          have hstep : (if (keysOf (getChild cs (scanIdx k.1 ks))).length = t - 1
              then fill_child t (BNode.node (List.map kE ks)
                (List.map eraseVals cs) false) (scanIdx k.1 ks)
              else .ok (BNode.node (List.map kE ks) (List.map eraseVals cs) false)) =
              Except.map eraseVals
                (if (keysOf (getChild cs (scanIdx k.1 ks))).length = t - 1
                then fill_child t (BNode.node ks cs false) (scanIdx k.1 ks)
                else .ok (BNode.node ks cs false)) := by
            by_cases hcond : (keysOf (getChild cs (scanIdx k.1 ks))).length = t - 1
            · rw [if_pos hcond, if_pos hcond, ← eraseVals_node, fill_child_eraseVals]
            · rw [if_neg hcond, if_neg hcond, ← eraseVals_node]
              rfl
          rw [hstep]
          cases hres : (if (keysOf (getChild cs (scanIdx k.1 ks))).length = t - 1
              then fill_child t (BNode.node ks cs false) (scanIdx k.1 ks)
              else .ok (BNode.node ks cs false)) with
          | error e => rfl
          | ok x2 =>
            simp only [Except.map, keysOf_eraseVals, List.length_map,
              childrenOf_eraseVals, List.getElem?_map]
            cases h3 : (childrenOf x2)[if (scanIdx k.1 ks = ks.length) ∧
                (keysOf x2).length < scanIdx k.1 ks
                then scanIdx k.1 ks - 1 else scanIdx k.1 ks]? with
            | none => rfl
            | some c =>
              simp only [Option.map_some', ih]
              cases hres2 : eraseRec t fuel c k with
              | ok c2 =>
                simp [Except.map, eraseVals_node, keysOf_eraseVals,
                  childrenOf_eraseVals, leafOf_eraseVals, List.map_set]
              | error e => simp [Except.map]


theorem eraseT_eraseVals [Inhabited α] (T : BTreeT α) (k : Int) :
    eraseT (eraseValsT T) k = (eraseT T k).map eraseValsT := by
  rw [eraseT, eraseT]
  simp only [eraseValsT, find_eraseVals]
  cases hf : find T.root k with
  | none => rfl
  | some yi =>
    obtain ⟨y, i⟩ := yi
    simp only [Option.map_some', keysOf_eraseVals, getKeyP_map, size_eraseVals]
    rw [eraseRec_eraseVals]
    cases hres : eraseRec T.t (size T.root + 1) T.root (getKeyP (keysOf y) i) with
    | ok r => rfl
    | error e => rfl

theorem runOps_eraseVals [Inhabited α] :
    ∀ (ops : List (Op α)) (T : BTreeT α),
      runOps (ops.map opE) (eraseValsT T) = (runOps ops T).map eraseValsT := by
  intro ops
  induction ops with
  | nil => intro T; rfl
  | cons op ops ih =>
    intro T
    cases op with
    | ins p =>
      simp only [List.map_cons, opE, runOps]
      rw [← insertT_eraseVals, ih]
    | er k =>
      simp only [List.map_cons, opE, runOps]
      rw [eraseT_eraseVals]
      cases hres : eraseT T k with
      | ok T2 => simp [Except.map, ih]
      | error e => rfl

/-- C10: the tree's shape and key placement are independent of the mapped
values.  Any two operation sequences with the same key skeletons (same
operations, same keys, arbitrary values of arbitrary types), run from the
empty tree, produce results that are identical after erasing the value
components, and `find` returns the same erased node and slot in both runs —
every comparison in the code reads only the key component. -/
theorem values_do_not_affect_shape [Inhabited α] {β : Type} [Inhabited β] (t : Nat)
    (ops1 : List (Op α)) (ops2 : List (Op β))
    (hkeys : ops1.map opE = ops2.map opE) :
    (runOps ops1 (create t)).map eraseValsT =
      (runOps ops2 (create t)).map eraseValsT ∧
    ∀ k : Int,
      (runOps ops1 (create t)).map
        (fun T => (find T.root k).map (fun pi => (eraseVals pi.1, pi.2))) =
      (runOps ops2 (create t)).map
        (fun T => (find T.root k).map (fun pi => (eraseVals pi.1, pi.2))) := by
  constructor
  · have h1 := runOps_eraseVals ops1 (create t)
    have hc1 : eraseValsT (create (α := α) t) = create t := rfl
    rw [hc1] at h1
    have h2 := runOps_eraseVals ops2 (create t)
    have hc2 : eraseValsT (create (α := β) t) = create t := rfl
    rw [hc2] at h2
    rw [← h1, ← h2, hkeys]
  · intro k
    have key : ∀ {γ : Type} [Inhabited γ] (ops : List (Op γ)),
        (runOps ops (create t)).map
          (fun T => (find T.root k).map (fun pi => (eraseVals pi.1, pi.2))) =
        (runOps (ops.map opE) (create t)).map (fun TU => find TU.root k) := by
      intro γ _ ops
      have h := runOps_eraseVals ops (create t)
      have hc : eraseValsT (create (α := γ) t) = create t := rfl
      rw [hc] at h
      rw [h]
      cases hr : runOps ops (create t) with
      | ok T => simp [Except.map, eraseValsT, find_eraseVals]
      | error e => rfl
    rw [key ops1, key ops2, hkeys]

/-- Witness for C10: two concrete three-operation runs with the same keys
and different values (t = 2; insert 1 and 2, erase 1). -/
theorem values_do_not_affect_shape_witness :
    (runOps [Op.ins ((1:Int), (10:Int)), Op.ins (2, 20), Op.er 1]
        (create 2)).map eraseValsT =
      (runOps [Op.ins ((1:Int), (99:Int)), Op.ins (2, 5), Op.er 1]
        (create 2)).map eraseValsT ∧
    (runOps [Op.ins ((1:Int), (10:Int)), Op.ins (2, 20), Op.er 1]
        (create 2)).map
        (fun T => (find T.root 2).map (fun pi => (eraseVals pi.1, pi.2))) =
      (runOps [Op.ins ((1:Int), (99:Int)), Op.ins (2, 5), Op.er 1]
        (create 2)).map
        (fun T => (find T.root 2).map (fun pi => (eraseVals pi.1, pi.2))) :=
  ⟨(values_do_not_affect_shape 2 _ _ (by rfl)).1,
   (values_do_not_affect_shape 2 _ _ (by rfl)).2 2⟩

end BT
